import Mathlib

/-!
Verification of the arena-based left-leaning red-black tree from
src/llrb/src/lib.rs.

The arena layer (BST, derefA, insertImplA, takeMinImplA, ...) is a
faithful shallow embedding of the Rust code: the arena is a list of
optional nodes addressed by integer handles, every dereference of a
handle, every unwrap of an optional child and every out-of-bounds
index is modelled in the Option monad (a none result corresponds to a
panic), and the general recursions carry explicit fuel.

The functional layer (Tree, insertT, takeMinF, ...) mirrors the same
algorithms on ordinary algebraic trees; the IsRepr relation states
that a pointer-in-arena represents such a tree, and refinement
theorems connect the two layers.
-/

namespace LLRB

inductive Color : Type where
  | Red : Color
  | Black : Color
deriving DecidableEq

def Color.not : Color → Color
  | .Red => .Black
  | .Black => .Red

structure Node (α : Type) : Type where
  elem : α
  color : Color
  left : Option Nat
  right : Option Nat
deriving DecidableEq

structure BST (α : Type) : Type where
  nodes : List (Option (Node α))
  root : Option Nat
  deleted_indices : List Nat
deriving DecidableEq

/-- Dereference a handle: none models the panic on an out-of-range or
freed slot. -/
def derefA {α : Type} (s : BST α) (i : Nat) : Option (Node α) :=
  (s.nodes[i]?).bind id

/-- Overwrite the node stored at a slot (the effect of a successful
deref_mut followed by a field assignment). -/
def setNodeA {α : Type} (s : BST α) (i : Nat) (n : Node α) : BST α :=
  { s with nodes := s.nodes.set i (some n) }

def newA (α : Type) : BST α :=
  { nodes := [], root := none, deleted_indices := [] }

def singletonA {α : Type} (e : α) : BST α :=
  { nodes := [some (Node.mk e Color.Black none none)], root := some 0,
    deleted_indices := [] }

def lenA {α : Type} (s : BST α) : Nat :=
  s.nodes.length - s.deleted_indices.length

def isEmptyA {α : Type} (s : BST α) : Bool :=
  s.root.isNone

def clearA {α : Type} (s : BST α) : BST α :=
  { s with root := none, nodes := [], deleted_indices := [] }

def isRedA {α : Type} (s : BST α) (p : Option Nat) : Option Bool :=
  match p with
  | none => some false
  | some i =>
    (derefA s i).map (fun n =>
      match n.color with
      | Color.Red => true
      | Color.Black => false)

def memberImplA {α : Type} [LinearOrder α] :
    Nat → BST α → Option Nat → α → Option Bool
  | 0, _, _, _ => none
  | _ + 1, _, none, _ => some false
  | f + 1, s, some i, e =>
    match derefA s i with
    | none => none
    | some n =>
      match compare n.elem e with
      | Ordering.lt => memberImplA f s n.right e
      | Ordering.gt => memberImplA f s n.left e
      | Ordering.eq => some true

def memberA {α : Type} [LinearOrder α] (s : BST α) (e : α) : Option Bool :=
  memberImplA (s.nodes.length + 1) s s.root e

def rotateLeftA {α : Type} (s : BST α) (h : Nat) : Option (BST α × Nat) :=
  match derefA s h with
  | none => none
  | some hn =>
    match hn.right with
    | none => none
    | some x =>
      match derefA s x with
      | none => none
      | some xn =>
        let s1 := setNodeA s h { hn with right := xn.left }
        match derefA s1 x with
        | none => none
        | some xn1 =>
          let s2 := setNodeA s1 x { xn1 with left := some h }
          match derefA s2 h, derefA s2 x with
          | some hn2, some xn2 =>
            let s3 := setNodeA s2 x { xn2 with color := hn2.color }
            match derefA s3 h with
            | none => none
            | some hn3 => some (setNodeA s3 h { hn3 with color := Color.Red }, x)
          | _, _ => none

def rotateRightA {α : Type} (s : BST α) (h : Nat) : Option (BST α × Nat) :=
  match derefA s h with
  | none => none
  | some hn =>
    match hn.left with
    | none => none
    | some x =>
      match derefA s x with
      | none => none
      | some xn =>
        let s1 := setNodeA s h { hn with left := xn.right }
        match derefA s1 x with
        | none => none
        | some xn1 =>
          let s2 := setNodeA s1 x { xn1 with right := some h }
          match derefA s2 h, derefA s2 x with
          | some hn2, some xn2 =>
            let s3 := setNodeA s2 x { xn2 with color := hn2.color }
            match derefA s3 h with
            | none => none
            | some hn3 => some (setNodeA s3 h { hn3 with color := Color.Red }, x)
          | _, _ => none

/-- The color flip: toggles the color of a node and of both children;
the source calls it move_red_up_or_down. -/
def moveRedUpOrDownA {α : Type} (s : BST α) (h : Nat) : Option (BST α) :=
  match derefA s h with
  | none => none
  | some n =>
    let s1 := setNodeA s h { n with color := n.color.not }
    match derefA s1 h with
    | none => none
    | some n1 =>
      match n1.left with
      | none => none
      | some l =>
        match derefA s1 l with
        | none => none
        | some ln =>
          let s2 := setNodeA s1 l { ln with color := ln.color.not }
          match derefA s2 h with
          | none => none
          | some n2 =>
            match n2.right with
            | none => none
            | some r =>
              match derefA s2 r with
              | none => none
              | some rn => some (setNodeA s2 r { rn with color := rn.color.not })

/-- Short-circuit conjunction of fallible boolean tests, as Rust
evaluates a && b. -/
def sAnd (a : Option Bool) (b : Unit → Option Bool) : Option Bool :=
  match a with
  | none => none
  | some false => some false
  | some true => b ()

def fixupA {α : Type} (s : BST α) (node : Nat) : Option (BST α × Nat) :=
  match derefA s node with
  | none => none
  | some n =>
    match sAnd (isRedA s n.right) (fun _ => (isRedA s n.left).map (fun b => !b)) with
    | none => none
    | some c1 =>
      match (if c1 then rotateLeftA s node else some (s, node)) with
      | none => none
      | some (s1, node1) =>
        match derefA s1 node1 with
        | none => none
        | some n1 =>
          match sAnd (isRedA s1 n1.left)
              (fun _ =>
                match n1.left with
                | none => none
                | some l =>
                  match derefA s1 l with
                  | none => none
                  | some ln => isRedA s1 ln.left) with
          | none => none
          | some c2 =>
            match (if c2 then rotateRightA s1 node1 else some (s1, node1)) with
            | none => none
            | some (s2, node2) =>
              match derefA s2 node2 with
              | none => none
              | some n2 =>
                match sAnd (isRedA s2 n2.left) (fun _ => isRedA s2 n2.right) with
                | none => none
                | some c3 =>
                  if c3 then
                    match moveRedUpOrDownA s2 node2 with
                    | none => none
                    | some s3 => some (s3, node2)
                  else some (s2, node2)

def insertImplA {α : Type} [LinearOrder α] :
    Nat → BST α → Option Nat → α → Option (BST α × Nat)
  | 0, _, _, _ => none
  | _ + 1, s, none, e =>
    match s.deleted_indices with
    | idx :: rest =>
      if idx < s.nodes.length then
        some ({ s with
                  nodes := s.nodes.set idx (some (Node.mk e Color.Red none none)),
                  deleted_indices := rest }, idx)
      else none
    | [] =>
      some ({ s with nodes := s.nodes ++ [some (Node.mk e Color.Red none none)] },
            s.nodes.length)
  | f + 1, s, some i, e =>
    match derefA s i with
    | none => none
    | some n =>
      match compare n.elem e with
      | Ordering.lt =>
        match insertImplA f s n.right e with
        | none => none
        | some (s1, nr) =>
          match derefA s1 i with
          | none => none
          | some n1 => fixupA (setNodeA s1 i { n1 with right := some nr }) i
      | Ordering.gt =>
        match insertImplA f s n.left e with
        | none => none
        | some (s1, nl) =>
          match derefA s1 i with
          | none => none
          | some n1 => fixupA (setNodeA s1 i { n1 with left := some nl }) i
      | Ordering.eq => fixupA (setNodeA s i { n with elem := e }) i

def insertA {α : Type} [LinearOrder α] (s : BST α) (e : α) : Option (BST α) :=
  match insertImplA (s.nodes.length + 1) s s.root e with
  | none => none
  | some (s1, nr) =>
    let s2 := { s1 with root := some nr }
    match derefA s2 nr with
    | none => none
    | some n => some (setNodeA s2 nr { n with color := Color.Black })

def moveRedLeftA {α : Type} (s : BST α) (h : Nat) : Option (BST α × Nat) :=
  match moveRedUpOrDownA s h with
  | none => none
  | some s1 =>
    match derefA s1 h with
    | none => none
    | some n1 =>
      match n1.right with
      | none => none
      | some r =>
        match derefA s1 r with
        | none => none
        | some rn =>
          match isRedA s1 rn.left with
          | none => none
          | some b =>
            if b then
              match derefA s1 h with
              | none => none
              | some n2 =>
                match (match n2.right with
                       | none => some (s1, (none : Option Nat))
                       | some rr =>
                         match rotateRightA s1 rr with
                         | none => none
                         | some (s2, x) => some (s2, some x)) with
                | none => none
                | some (s2, newR) =>
                  match derefA s2 h with
                  | none => none
                  | some n3 =>
                    let s3 := setNodeA s2 h { n3 with right := newR }
                    match rotateLeftA s3 h with
                    | none => none
                    | some (s4, h1) =>
                      match moveRedUpOrDownA s4 h1 with
                      | none => none
                      | some s5 => some (s5, h1)
            else some (s1, h)

def takeMinImplA {α : Type} : Nat → BST α → Nat → Option (BST α × α × Option Nat)
  | 0, _, _ => none
  | f + 1, s, node =>
    match derefA s node with
    | none => none
    | some n =>
      match n.left with
      | none =>
        let s1 : BST α := { s with deleted_indices := node :: s.deleted_indices }
        match s1.nodes[node]? with
        | none => none
        | some slot =>
          match slot with
          | none => none
          | some old =>
            some ({ s1 with nodes := s1.nodes.set node none }, old.elem, none)
      | some left =>
        match sAnd ((isRedA s (some left)).map (fun b => !b))
            (fun _ =>
              match derefA s left with
              | none => none
              | some ln => (isRedA s ln.left).map (fun b => !b)) with
        | none => none
        | some cond =>
          match (if cond then moveRedLeftA s node else some (s, node)) with
          | none => none
          | some (s1, node1) =>
            match derefA s1 node1 with
            | none => none
            | some n1 =>
              match n1.left with
              | none => none
              | some left1 =>
                match takeMinImplA f s1 left1 with
                | none => none
                | some (s2, m, newLeft) =>
                  match derefA s2 node1 with
                  | none => none
                  | some n2 =>
                    match fixupA (setNodeA s2 node1 { n2 with left := newLeft }) node1 with
                    | none => none
                    | some (s3, p) => some (s3, m, some p)

def takeMinA {α : Type} (s : BST α) : Option (Option α × BST α) :=
  match s.root with
  | none => some (none, s)
  | some root =>
    match derefA s root with
    | none => none
    | some rn =>
      match rn.left with
      | none =>
        match s.nodes[root]? with
        | none => none
        | some slot =>
          match slot with
          | none => none
          | some n =>
            some (some n.elem,
                  { nodes := [], root := none, deleted_indices := [] })
      | some _ =>
        match takeMinImplA (s.nodes.length + 1) s root with
        | none => none
        | some (s1, m, newRoot) =>
          let s2 := { s1 with root := newRoot }
          match newRoot with
          | none => none
          | some nr =>
            match derefA s2 nr with
            | none => none
            | some n => some (some m, setNodeA s2 nr { n with color := Color.Black })

/-! Functional layer: the same algorithms on algebraic trees. -/

inductive Tree (α : Type) : Type where
  | nil : Tree α
  | node : Tree α → α → Color → Tree α → Tree α
deriving DecidableEq

def Tree.isRed {α : Type} : Tree α → Bool
  | .node _ _ Color.Red _ => true
  | _ => false

def Tree.lft {α : Type} : Tree α → Tree α
  | .nil => .nil
  | .node l _ _ _ => l

def Tree.rgt {α : Type} : Tree α → Tree α
  | .nil => .nil
  | .node _ _ _ r => r

def Tree.size {α : Type} : Tree α → Nat
  | .nil => 0
  | .node l _ _ r => l.size + r.size + 1

def inorder {α : Type} : Tree α → List α
  | .nil => []
  | .node l a _ r => inorder l ++ a :: inorder r

def rotlT {α : Type} : Tree α → Option (Tree α)
  | .node l a c (.node rl b _ rr) => some (.node (.node l a Color.Red rl) b c rr)
  | _ => none

def rotrT {α : Type} : Tree α → Option (Tree α)
  | .node (.node ll b _ lr) a c r => some (.node ll b c (.node lr a Color.Red r))
  | _ => none

def flipT {α : Type} : Tree α → Option (Tree α)
  | .node (.node ll lb lc lr) a c (.node rl rb rc rr) =>
    some (.node (.node ll lb lc.not lr) a c.not (.node rl rb rc.not rr))
  | _ => none

def fixupT {α : Type} (t : Tree α) : Option (Tree α) :=
  match (if t.rgt.isRed && !t.lft.isRed then rotlT t else some t) with
  | none => none
  | some t1 =>
    match (if t1.lft.isRed && t1.lft.lft.isRed then rotrT t1 else some t1) with
    | none => none
    | some t2 =>
      if t2.lft.isRed && t2.rgt.isRed then flipT t2 else some t2

def insertT {α : Type} [LinearOrder α] : Tree α → α → Option (Tree α)
  | .nil, e => some (.node .nil e Color.Red .nil)
  | .node l a c r, e =>
    match compare a e with
    | Ordering.lt =>
      match insertT r e with
      | none => none
      | some r1 => fixupT (.node l a c r1)
    | Ordering.gt =>
      match insertT l e with
      | none => none
      | some l1 => fixupT (.node l1 a c r)
    | Ordering.eq => fixupT (.node l e c r)

def moveRedLeftT {α : Type} (t : Tree α) : Option (Tree α) :=
  match flipT t with
  | none => none
  | some t1 =>
    match t1 with
    | .nil => none
    | .node _ _ _ .nil => none
    | .node l1 a1 c1 (.node rl rb rc rr) =>
      if rl.isRed then
        match rotrT (.node rl rb rc rr) with
        | none => none
        | some r2 =>
          match rotlT (.node l1 a1 c1 r2) with
          | none => none
          | some t2 => flipT t2
      else some t1

def takeMinF {α : Type} : Nat → Tree α → Option (α × Tree α)
  | 0, _ => none
  | _ + 1, .nil => none
  | f + 1, .node l a c r =>
    match l with
    | .nil => some (a, .nil)
    | .node ll _ _ _ =>
      match (if !l.isRed && !ll.isRed then moveRedLeftT (.node l a c r)
             else some (.node l a c r)) with
      | none => none
      | some t1 =>
        match t1 with
        | .nil => none
        | .node l1 a1 c1 r1 =>
          match l1 with
          | .nil => none
          | .node _ _ _ _ =>
            match takeMinF f l1 with
            | none => none
            | some (m, l2) =>
              match fixupT (.node l2 a1 c1 r1) with
              | none => none
              | some t2 => some (m, t2)

def memberT {α : Type} [LinearOrder α] : Tree α → α → Bool
  | .nil, _ => false
  | .node l a _ r, e =>
    match compare a e with
    | Ordering.lt => memberT r e
    | Ordering.gt => memberT l e
    | Ordering.eq => true

def blacken {α : Type} : Tree α → Tree α
  | .nil => .nil
  | .node l a _ r => .node l a Color.Black r

/-! Invariant predicates on trees. -/

/-- Black height along the leftmost path, counting black nodes. -/
def bh {α : Type} : Tree α → Nat
  | .nil => 0
  | .node l _ c _ =>
    bh l + (match c with | Color.Black => 1 | Color.Red => 0)

/-- Perfect black balance: both subtrees of every node have equal black
height. -/
def bal {α : Type} : Tree α → Prop
  | .nil => True
  | .node l _ _ r => bal l ∧ bal r ∧ bh l = bh r

/-- Strong left-leaning rule at rest: no node anywhere has a red right
child. -/
def leanL {α : Type} : Tree α → Prop
  | .nil => True
  | .node l _ _ r => leanL l ∧ leanL r ∧ r.isRed = false

/-- No red node has a red child, hence no two consecutive red links on
any path. -/
def ndr {α : Type} : Tree α → Prop
  | .nil => True
  | .node l _ c r =>
    ndr l ∧ ndr r ∧ (c = Color.Red → l.isRed = false ∧ r.isRed = false)

/-- The rest-state red-black invariant of the tree shape. -/
def RBInv {α : Type} (t : Tree α) : Prop := leanL t ∧ ndr t ∧ bal t

/-- Weak left-leaning rule, exactly as the specification states
invariant 2: no red node has a red right child. -/
def noRedRedRight {α : Type} : Tree α → Prop
  | .nil => True
  | .node l _ c r =>
    noRedRedRight l ∧ noRedRedRight r ∧ (c = Color.Red → r.isRed = false)

/-- Weight of the link entering a subtree: 1 when black (an empty link
counts as black), 0 when red. -/
def linkW {α : Type} (t : Tree α) : Nat :=
  if t.isRed then 0 else 1

/-- The multiset of black-link counts of all root-to-empty-link paths. -/
def pathBlackCounts {α : Type} : Tree α → List Nat
  | .nil => [0]
  | .node l _ _ r =>
    (pathBlackCounts l).map (· + linkW l) ++ (pathBlackCounts r).map (· + linkW r)

/-- Black-link count along the leftmost root-to-empty-link path. -/
def bhLink {α : Type} : Tree α → Nat
  | .nil => 0
  | .node l _ _ _ => bhLink l + linkW l

/-- Sorted insertion into a list, replacing an equal element. -/
def linsert {α : Type} [LinearOrder α] (e : α) : List α → List α
  | [] => [e]
  | x :: xs =>
    if e < x then e :: x :: xs
    else if x < e then x :: linsert e xs
    else e :: xs

/-- The result shape and side conditions established by one insertion
step before the force-blackening of the root: the tree is strongly
left-leaning, balanced with unchanged black height, both children are
free of double reds, and a red root with a red left child can occur
only when rootRed holds. -/
def InsOk {α : Type} (rootRed : Prop) (n : Nat) (t : Tree α) : Prop :=
  leanL t ∧ bal t ∧ bh t = n ∧ ndr t.lft ∧ ndr t.rgt ∧
    (t.isRed = true → t.lft.isRed = true → rootRed)

/-- The representation relation: in state s, pointer p is the root of an
arena subtree representing the algebraic tree t, whose node slots are
exactly the list ps (pairwise distinct and disjoint between subtrees). -/
inductive IsRepr {α : Type} (s : BST α) : Option Nat → Tree α → List Nat → Prop where
  | nil : IsRepr s none Tree.nil []
  | node {i : Nat} {e : α} {co : Color} {pl pr : Option Nat} {l r : Tree α}
      {ps qs : List Nat} :
      derefA s i = some (Node.mk e co pl pr) →
      IsRepr s pl l ps →
      IsRepr s pr r qs →
      i ∉ ps → i ∉ qs → (∀ j ∈ ps, j ∉ qs) →
      IsRepr s (some i) (Tree.node l e co r) (i :: (ps ++ qs))

/-- State fields and all slots outside ps are unchanged. -/
def SameOutside {α : Type} (ps : List Nat) (s s2 : BST α) : Prop :=
  s2.root = s.root ∧ s2.nodes.length = s.nodes.length ∧
    s2.deleted_indices = s.deleted_indices ∧
    ∀ j, j ∉ ps → derefA s2 j = derefA s j

/-- The arena state faithfully stores the algebraic tree, and the slots
are partitioned between the tree footprint and the free list. -/
def Abs {α : Type} (s : BST α) (t : Tree α) : Prop :=
  ∃ ps, IsRepr s s.root t ps ∧ s.deleted_indices.Nodup ∧
    (∀ d ∈ s.deleted_indices, d < s.nodes.length ∧ derefA s d = none) ∧
    (∀ j, j < s.nodes.length → j ∈ ps ∨ j ∈ s.deleted_indices)

/-- The rest-state invariant of the stored tree: red-black shape, black
root, strictly sorted inorder traversal. -/
def GoodT {α : Type} [LinearOrder α] (t : Tree α) : Prop :=
  RBInv t ∧ t.isRed = false ∧ List.Sorted (· < ·) (inorder t)

/-- States reachable through the public API. -/
inductive Reachable {α : Type} [LinearOrder α] : BST α → Prop where
  | new : Reachable (newA α)
  | singleton (e : α) : Reachable (singletonA e)
  | insert {s s1 : BST α} (e : α) : Reachable s → insertA s e = some s1 →
      Reachable s1
  | take_min {s s1 : BST α} {x : Option α} : Reachable s →
      takeMinA s = some (x, s1) → Reachable s1
  | clear {s : BST α} : Reachable s → Reachable (clearA s)

def insertListA {α : Type} [LinearOrder α] : BST α → List α → Option (BST α)
  | s, [] => some s
  | s, e :: es =>
    match insertA s e with
    | none => none
    | some s1 => insertListA s1 es

def takeMinsA {α : Type} [LinearOrder α] : Nat → BST α →
    Option (List (Option α) × BST α)
  | 0, s => some ([], s)
  | k + 1, s =>
    match takeMinA s with
    | none => none
    | some (x, s1) =>
      match takeMinsA k s1 with
      | none => none
      | some (xs, s2) => some (x :: xs, s2)

/-! Basic facts about colors and tree shape predicates. -/

theorem Color.not_not (c : Color) : c.not.not = c := by
  cases c <;> rfl

theorem Color.red_or_black (c : Color) : c = Color.Red ∨ c = Color.Black := by
  cases c
  · exact Or.inl rfl
  · exact Or.inr rfl

theorem isRed_iff {α : Type} {t : Tree α} :
    t.isRed = true ↔ ∃ l a r, t = Tree.node l a Color.Red r := by
  constructor
  · intro h
    match t, h with
    | Tree.node l a Color.Red r, _ => exact ⟨l, a, r, rfl⟩
  · rintro ⟨l, a, r, rfl⟩
    rfl

theorem isRed_node_iff {α : Type} {l r : Tree α} {a : α} {c : Color} :
    (Tree.node l a c r).isRed = true ↔ c = Color.Red := by
  cases c <;> simp [Tree.isRed]

theorem isRed_false_node {α : Type} {l r : Tree α} {a : α} {c : Color} :
    (Tree.node l a c r).isRed = false ↔ c = Color.Black := by
  cases c <;> simp [Tree.isRed]

@[simp] theorem lft_node {α : Type} {l r : Tree α} {a : α} {c : Color} :
    (Tree.node l a c r).lft = l := rfl

@[simp] theorem rgt_node {α : Type} {l r : Tree α} {a : α} {c : Color} :
    (Tree.node l a c r).rgt = r := rfl

@[simp] theorem lft_nil {α : Type} : (Tree.nil : Tree α).lft = Tree.nil := rfl

@[simp] theorem rgt_nil {α : Type} : (Tree.nil : Tree α).rgt = Tree.nil := rfl

@[simp] theorem isRed_nil {α : Type} : (Tree.nil : Tree α).isRed = false := rfl

@[simp] theorem isRed_node_red {α : Type} {l r : Tree α} {a : α} :
    (Tree.node l a Color.Red r).isRed = true := rfl

@[simp] theorem isRed_node_black {α : Type} {l r : Tree α} {a : α} :
    (Tree.node l a Color.Black r).isRed = false := rfl

theorem if_bool_neg {β : Sort _} {b : Bool} (h : b = false) (x y : β) :
    (if b = true then x else y) = y := by
  subst h
  simp

theorem if_bool_pos {β : Sort _} {b : Bool} (h : b = true) (x y : β) :
    (if b = true then x else y) = x := by
  subst h
  simp

theorem if_false_bool {β : Sort _} (x y : β) : (if false = true then x else y) = y := rfl

theorem if_true_bool {β : Sort _} (x y : β) : (if true = true then x else y) = x := rfl

theorem ndr_node {α : Type} {l r : Tree α} {a : α} {c : Color} :
    ndr (Tree.node l a c r) ↔
      ndr l ∧ ndr r ∧ (c = Color.Red → l.isRed = false ∧ r.isRed = false) := by
  rfl

theorem leanL_node {α : Type} {l r : Tree α} {a : α} {c : Color} :
    leanL (Tree.node l a c r) ↔ leanL l ∧ leanL r ∧ r.isRed = false := by
  rfl

theorem bal_node {α : Type} {l r : Tree α} {a : α} {c : Color} :
    bal (Tree.node l a c r) ↔ bal l ∧ bal r ∧ bh l = bh r := by
  rfl

theorem bh_node {α : Type} {l r : Tree α} {a : α} {c : Color} :
    bh (Tree.node l a c r) =
      bh l + (match c with | Color.Black => 1 | Color.Red => 0) := by
  rfl

theorem bh_node_red {α : Type} {l r : Tree α} {a : α} :
    bh (Tree.node l a Color.Red r) = bh l := by
  rfl

theorem bh_node_black {α : Type} {l r : Tree α} {a : α} :
    bh (Tree.node l a Color.Black r) = bh l + 1 := by
  rfl

/-- The fixup is the identity when the right child is not red and the
left child is not the top of a red-red pair. -/
theorem fixupT_skip {α : Type} {l r : Tree α} {a : α} {c : Color}
    (h1 : r.isRed = false) (h2 : l.isRed = true → l.lft.isRed = false) :
    fixupT (Tree.node l a c r) = some (Tree.node l a c r) := by
  have g1 : ((Tree.node l a c r).rgt.isRed && !(Tree.node l a c r).lft.isRed) = false := by
    simp [h1]
  have g2 : ((Tree.node l a c r).lft.isRed && (Tree.node l a c r).lft.lft.isRed) = false := by
    cases hl : l.isRed
    · simp [hl]
    · simp [h2 hl]
  have g3 : ((Tree.node l a c r).lft.isRed && (Tree.node l a c r).rgt.isRed) = false := by
    simp [h1]
  rw [fixupT, if_bool_neg g1]
  simp only []
  rw [if_bool_neg g2]
  simp only []
  rw [if_bool_neg g3]

theorem ndr_lft {α : Type} {t : Tree α} (h : ndr t) : ndr t.lft := by
  cases t
  · trivial
  · exact h.1

theorem ndr_rgt {α : Type} {t : Tree α} (h : ndr t) : ndr t.rgt := by
  cases t
  · trivial
  · exact h.2.1

theorem ndr_root {α : Type} {t : Tree α} (h : ndr t) (hred : t.isRed = true) :
    t.lft.isRed = false ∧ t.rgt.isRed = false := by
  cases t with
  | nil => cases hred
  | node l a c r => exact h.2.2 (isRed_node_iff.mp hred)

theorem ndr_rebuild {α : Type} {t : Tree α} (h1 : ndr t.lft) (h2 : ndr t.rgt)
    (h3 : t.isRed = true → t.lft.isRed = false ∧ t.rgt.isRed = false) : ndr t := by
  cases t with
  | nil => trivial
  | node l a c r =>
    exact ⟨h1, h2, fun hc => h3 (isRed_node_iff.mpr hc)⟩

theorem leanL_lft {α : Type} {t : Tree α} (h : leanL t) : leanL t.lft := by
  cases t
  · trivial
  · exact h.1

theorem leanL_rgt {α : Type} {t : Tree α} (h : leanL t) : leanL t.rgt := by
  cases t
  · trivial
  · exact h.2.1

theorem leanL_root {α : Type} {t : Tree α} (h : leanL t) : t.rgt.isRed = false := by
  cases t
  · rfl
  · exact h.2.2

theorem bal_lft {α : Type} {t : Tree α} (h : bal t) : bal t.lft := by
  cases t
  · trivial
  · exact h.1

theorem bal_rgt {α : Type} {t : Tree α} (h : bal t) : bal t.rgt := by
  cases t
  · trivial
  · exact h.2.1

theorem bal_root {α : Type} {t : Tree α} (h : bal t) : bh t.lft = bh t.rgt := by
  cases t
  · rfl
  · exact h.2.2

theorem RBInv_lft {α : Type} {t : Tree α} (h : RBInv t) : RBInv t.lft :=
  ⟨leanL_lft h.1, ndr_lft h.2.1, bal_lft h.2.2⟩

theorem RBInv_rgt {α : Type} {t : Tree α} (h : RBInv t) : RBInv t.rgt :=
  ⟨leanL_rgt h.1, ndr_rgt h.2.1, bal_rgt h.2.2⟩

/-- Fixup after an insertion step that descended into the left child. -/
theorem fixupT_insL {α : Type} {l' r : Tree α} {a : α} {c : Color}
    (hLl : leanL l') (hBl : bal l') (hnL : ndr l'.lft) (hnR : ndr l'.rgt)
    (hr : RBInv r) (hrb : r.isRed = false)
    (hbh : bh l' = bh r)
    (hcl : c = Color.Red → l'.isRed = true → l'.lft.isRed = true → False) :
    ∃ t', fixupT (Tree.node l' a c r) = some t' ∧
      InsOk (c = Color.Red) (bh (Tree.node l' a c r)) t' := by
  obtain ⟨hrL, hrN, hrB⟩ := hr
  cases hl1 : l'.isRed with
  | false =>
    refine ⟨Tree.node l' a c r,
      fixupT_skip hrb (fun h => by rw [h] at hl1; cases hl1), ?_⟩
    refine ⟨⟨hLl, hrL, hrb⟩, ⟨hBl, hrB, hbh⟩, rfl, ?_, hrN, ?_⟩
    · show ndr l'
      exact ndr_rebuild hnL hnR (fun h => by rw [hl1] at h; cases h)
    · intro _ hlft
      rw [lft_node, hl1] at hlft
      cases hlft
  | true =>
    cases hl2 : l'.lft.isRed with
    | false =>
      refine ⟨Tree.node l' a c r, fixupT_skip hrb (fun _ => hl2), ?_⟩
      refine ⟨⟨hLl, hrL, hrb⟩, ⟨hBl, hrB, hbh⟩, rfl, ?_, hrN, ?_⟩
      · show ndr l'
        exact ndr_rebuild hnL hnR (fun _ => ⟨hl2, leanL_root hLl⟩)
      · intro hred _
        rw [isRed_node_iff] at hred
        exact hred
    | true =>
      -- red-red on the left: rotate right then flip
      have hcB : c = Color.Black := by
        rcases Color.red_or_black c with h | h
        · exact absurd (hcl h hl1 hl2) (fun h => h)
        · exact h
      subst hcB
      rcases isRed_iff.mp hl1 with ⟨pl, pb, pr, rfl⟩
      rw [lft_node] at hl2 hnL
      rcases isRed_iff.mp hl2 with ⟨pll, plb, plr, rfl⟩
      rw [rgt_node] at hnR
      obtain ⟨hLpl, hLpr, hprb⟩ := hLl
      obtain ⟨hBpl, hBpr, hbhp⟩ := hBl
      refine ⟨Tree.node (Tree.node pll plb Color.Black plr) pb Color.Red
        (Tree.node pr a Color.Black r), ?_, ?_⟩
      · rw [fixupT]
        rw [if_bool_neg (by simp [hrb])]
        simp only []
        rw [if_bool_pos (by simp)]
        rw [rotrT]
        simp only []
        rw [if_bool_pos (by simp)]
        rw [flipT]
        rfl
      · obtain ⟨hnpll, hnplr, _⟩ := hnL
        constructor
        · -- leanL
          exact ⟨⟨hLpl.1, hLpl.2.1, hLpl.2.2⟩, ⟨hLpr, hrL, hrb⟩, by simp⟩
        constructor
        · -- bal
          have hbhpr : bh pr = bh r := by
            rw [← hbh]; rw [bh_node_red]; exact hbhp.symm
          refine ⟨⟨hBpl.1, hBpl.2.1, hBpl.2.2⟩, ⟨hBpr, hrB, hbhpr⟩, ?_⟩
          rw [bh_node_black, bh_node_black]
          rw [show bh (Tree.node pll plb Color.Red plr) = bh pll from rfl] at hbhp
          rw [hbhp]
        constructor
        · -- bh
          rw [bh_node_red, bh_node_black, bh_node_black]
          rw [show bh (Tree.node (Tree.node pll plb Color.Red plr) pb Color.Red pr)
            = bh pll from rfl]
        constructor
        · exact ⟨hnpll, hnplr, fun h => by cases h⟩
        constructor
        · exact ⟨hnR, hrN, fun h => by cases h⟩
        · intro _ habs
          rw [lft_node] at habs
          simp at habs

/-- Fixup after an insertion step that descended into the right child. -/
theorem fixupT_insR {α : Type} {l r' : Tree α} {a : α} {c : Color}
    (hl : RBInv l)
    (hLr : leanL r') (hBr : bal r') (hnL : ndr r'.lft) (hnR : ndr r'.rgt)
    (hnored : r'.isRed = true → r'.lft.isRed = true → False)
    (hbh : bh l = bh r')
    (hcl : c = Color.Red → l.isRed = false) :
    ∃ t', fixupT (Tree.node l a c r') = some t' ∧
      InsOk (c = Color.Red) (bh (Tree.node l a c r')) t' := by
  obtain ⟨hlL, hlN, hlB⟩ := hl
  cases hr1 : r'.isRed with
  | false =>
    refine ⟨Tree.node l a c r',
      fixupT_skip hr1 (fun h => (ndr_root hlN h).1), ?_⟩
    refine ⟨⟨hlL, hLr, hr1⟩, ⟨hlB, hBr, hbh⟩, rfl, hlN, ?_, ?_⟩
    · show ndr r'
      exact ndr_rebuild hnL hnR (fun h => by rw [hr1] at h; cases h)
    · intro hred _
      rw [isRed_node_iff] at hred
      exact hred
  | true =>
    rcases isRed_iff.mp hr1 with ⟨rl, b, rr, rfl⟩
    rw [lft_node] at hnL
    rw [rgt_node] at hnR
    have hrlb : rl.isRed = false := by
      cases h : rl.isRed
      · rfl
      · exact absurd (hnored hr1 (by rw [lft_node]; exact h)) (fun h => h)
    obtain ⟨hLrl, hLrr, hrrb⟩ := hLr
    obtain ⟨hBrl, hBrr, hbhr⟩ := hBr
    cases hli : l.isRed with
    | false =>
      -- left rotation
      refine ⟨Tree.node (Tree.node l a Color.Red rl) b c rr, ?_, ?_⟩
      · rw [fixupT]
        rw [if_bool_pos (by simp [hli])]
        rw [rotlT]
        simp only []
        rw [if_bool_neg (by simp [hli])]
        simp only []
        rw [if_bool_neg (by simp [hrrb])]
      · have hbhrl : bh l = bh rl := by
          rw [hbh]; rfl
        constructor
        · exact ⟨⟨hlL, hLrl, hrlb⟩, hLrr, hrrb⟩
        constructor
        · refine ⟨⟨hlB, hBrl, hbhrl⟩, hBrr, ?_⟩
          rw [show bh (Tree.node l a Color.Red rl) = bh l from rfl, hbhrl, hbhr]
        constructor
        · rw [bh_node]
          rw [show bh (Tree.node l a Color.Red rl) = bh l from rfl]
          rw [bh_node]
        constructor
        · exact ⟨hlN, hnL, fun _ => ⟨hli, hrlb⟩⟩
        constructor
        · exact hnR
        · intro hred _
          rw [isRed_node_iff] at hred
          exact hred
    | true =>
      -- both children red: flip colors
      have hcB : c = Color.Black := by
        rcases Color.red_or_black c with h | h
        · rw [hcl h] at hli; cases hli
        · exact h
      subst hcB
      rcases isRed_iff.mp hli with ⟨ll, lb, lr, rfl⟩
      refine ⟨Tree.node (Tree.node ll lb Color.Black lr) a Color.Red
        (Tree.node rl b Color.Black rr), ?_, ?_⟩
      · have h9 : ll.isRed = false := by
          have h0 := (ndr_root hlN hli).1
          rw [lft_node] at h0
          exact h0
        rw [fixupT]
        rw [if_bool_neg (by simp)]
        simp only []
        rw [if_bool_neg (by simp [h9])]
        simp only []
        rw [if_bool_pos (by simp)]
        rw [flipT]
        rfl
      · obtain ⟨hnll, hnlr, _⟩ := hlN
        constructor
        · exact ⟨⟨hlL.1, hlL.2.1, hlL.2.2⟩, ⟨hLrl, hLrr, hrrb⟩, by simp⟩
        constructor
        · refine ⟨⟨hlB.1, hlB.2.1, hlB.2.2⟩, ⟨hBrl, hBrr, hbhr⟩, ?_⟩
          rw [bh_node_black, bh_node_black]
          rw [show bh (Tree.node ll lb Color.Red lr) = bh ll from rfl] at hbh
          rw [hbh]
          rfl
        constructor
        · rw [bh_node_red, bh_node_black, bh_node_black]
          rfl
        constructor
        · exact ⟨hnll, hnlr, fun h => by cases h⟩
        constructor
        · exact ⟨hnL, hnR, fun h => by cases h⟩
        · intro _ habs
          rw [lft_node] at habs
          simp at habs

/-- One recursive insertion step preserves the red-black structure up
to a possible red-red pair at the root, and never fails. -/
theorem ins_aux {α : Type} [LinearOrder α] (e : α) :
    ∀ {t : Tree α}, RBInv t →
      ∃ t', insertT t e = some t' ∧ InsOk (t.isRed = true) (bh t) t' := by
  intro t
  induction t with
  | nil =>
    intro _
    refine ⟨Tree.node Tree.nil e Color.Red Tree.nil, rfl, ?_⟩
    exact ⟨⟨trivial, trivial, rfl⟩, ⟨trivial, trivial, rfl⟩, rfl, trivial, trivial,
      fun _ h => Bool.noConfusion h⟩
  | node l a c r ihl ihr =>
    intro ht
    obtain ⟨htL, htN, htB⟩ := ht
    obtain ⟨hlL, hrL2, hrb⟩ := htL
    obtain ⟨hlN, hrN, hroot⟩ := htN
    obtain ⟨hlB, hrB, hbh0⟩ := htB
    rw [insertT]
    cases hcmp : compare a e with
    | lt =>
      obtain ⟨r', hr', hok⟩ := ihr ⟨hrL2, hrN, hrB⟩
      rw [hr']
      simp only []
      obtain ⟨okL, okB, okbh, oknL, oknR, okrr⟩ := hok
      have hnored : r'.isRed = true → r'.lft.isRed = true → False := by
        intro h1 h2
        have h3 := okrr h1 h2
        rw [hrb] at h3
        cases h3
      obtain ⟨t', hfix, hok2⟩ :=
        fixupT_insR ⟨hlL, hlN, hlB⟩ okL okB oknL oknR hnored
          (by rw [okbh]; exact hbh0) (fun hc => (hroot hc).1)
      refine ⟨t', hfix, ?_⟩
      obtain ⟨x1, x2, x3, x4, x5, x6⟩ := hok2
      exact ⟨x1, x2, x3, x4, x5, fun h1 h2 => isRed_node_iff.mpr (x6 h1 h2)⟩
    | gt =>
      obtain ⟨l', hl', hok⟩ := ihl ⟨hlL, hlN, hlB⟩
      rw [hl']
      simp only []
      obtain ⟨okL, okB, okbh, oknL, oknR, okrr⟩ := hok
      have hcl : c = Color.Red → l'.isRed = true → l'.lft.isRed = true → False := by
        intro hc h1 h2
        have h3 := okrr h1 h2
        rw [(hroot hc).1] at h3
        cases h3
      obtain ⟨t', hfix, hok2⟩ :=
        fixupT_insL okL okB oknL oknR ⟨hrL2, hrN, hrB⟩ hrb (okbh.trans hbh0) hcl
      refine ⟨t', hfix, ?_⟩
      obtain ⟨x1, x2, x3, x4, x5, x6⟩ := hok2
      refine ⟨x1, x2, ?_, x4, x5, fun h1 h2 => isRed_node_iff.mpr (x6 h1 h2)⟩
      rw [x3]
      simp only [bh_node]
      rw [okbh]
    | eq =>
      have h2 : l.isRed = true → l.lft.isRed = false := fun h => (ndr_root hlN h).1
      rw [fixupT_skip hrb h2]
      refine ⟨Tree.node l e c r, rfl,
        ⟨⟨hlL, hrL2, hrb⟩, ⟨hlB, hrB, hbh0⟩, rfl, hlN, hrN, ?_⟩⟩
      intro h1 _
      rw [isRed_node_iff] at h1
      exact isRed_node_iff.mpr h1

theorem blacken_RB {α : Type} {t : Tree α} (hL : leanL t) (hB : bal t)
    (hnl : ndr t.lft) (hnr : ndr t.rgt) :
    RBInv (blacken t) ∧ (blacken t).isRed = false := by
  cases t with
  | nil => exact ⟨⟨trivial, trivial, trivial⟩, rfl⟩
  | node l a c r =>
    exact ⟨⟨⟨hL.1, hL.2.1, hL.2.2⟩, ⟨hnl, hnr, fun h => by cases h⟩,
      ⟨hB.1, hB.2.1, hB.2.2⟩⟩, rfl⟩

theorem inorder_blacken {α : Type} (t : Tree α) :
    inorder (blacken t) = inorder t := by
  cases t <;> rfl

theorem inorder_rotl {α : Type} {t t' : Tree α} (h : rotlT t = some t') :
    inorder t' = inorder t := by
  cases t with
  | nil => simp [rotlT] at h
  | node l a c r =>
    cases r with
    | nil => simp [rotlT] at h
    | node rl b cb rr =>
      rw [rotlT] at h
      injection h with h
      subst h
      simp [inorder, List.append_assoc]

theorem inorder_rotr {α : Type} {t t' : Tree α} (h : rotrT t = some t') :
    inorder t' = inorder t := by
  cases t with
  | nil => simp [rotrT] at h
  | node l a c r =>
    cases l with
    | nil => simp [rotrT] at h
    | node ll b cb lr =>
      rw [rotrT] at h
      injection h with h
      subst h
      simp [inorder, List.append_assoc]

theorem inorder_flip {α : Type} {t t' : Tree α} (h : flipT t = some t') :
    inorder t' = inorder t := by
  cases t with
  | nil => simp [flipT] at h
  | node l a c r =>
    cases l with
    | nil => simp [flipT] at h
    | node ll lb lc lr =>
      cases r with
      | nil => simp [flipT] at h
      | node rl rb rc rr =>
        rw [flipT] at h
        injection h with h
        subst h
        rfl

theorem inorder_opt_rotl {α : Type} {t t1 : Tree α} {b : Bool}
    (h : (if b = true then rotlT t else some t) = some t1) :
    inorder t1 = inorder t := by
  cases b
  · rw [if_bool_neg rfl] at h
    injection h with h
    subst h
    rfl
  · rw [if_bool_pos rfl] at h
    exact inorder_rotl h

theorem inorder_opt_rotr {α : Type} {t t1 : Tree α} {b : Bool}
    (h : (if b = true then rotrT t else some t) = some t1) :
    inorder t1 = inorder t := by
  cases b
  · rw [if_bool_neg rfl] at h
    injection h with h
    subst h
    rfl
  · rw [if_bool_pos rfl] at h
    exact inorder_rotr h

theorem inorder_fixup {α : Type} {t t' : Tree α} (h : fixupT t = some t') :
    inorder t' = inorder t := by
  rw [fixupT] at h
  cases hx : (if (t.rgt.isRed && !t.lft.isRed) = true then rotlT t else some t) with
  | none => rw [hx] at h; cases h
  | some t1 =>
    rw [hx] at h
    simp only [] at h
    cases hy : (if (t1.lft.isRed && t1.lft.lft.isRed) = true then rotrT t1 else some t1) with
    | none => rw [hy] at h; cases h
    | some t2 =>
      rw [hy] at h
      simp only [] at h
      have e1 : inorder t1 = inorder t := inorder_opt_rotl hx
      have e2 : inorder t2 = inorder t1 := inorder_opt_rotr hy
      cases hg : (t2.lft.isRed && t2.rgt.isRed) with
      | false =>
        rw [if_bool_neg hg] at h
        injection h with h
        subst h
        rw [e2, e1]
      | true =>
        rw [if_bool_pos hg] at h
        rw [inorder_flip h, e2, e1]

theorem inorder_mrl {α : Type} {t t' : Tree α} (h : moveRedLeftT t = some t') :
    inorder t' = inorder t := by
  rw [moveRedLeftT] at h
  cases hf : flipT t with
  | none => rw [hf] at h; cases h
  | some t1 =>
    rw [hf] at h
    simp only [] at h
    have e1 : inorder t1 = inorder t := inorder_flip hf
    cases t1 with
    | nil => cases h
    | node l1 a1 c1 r1 =>
      cases r1 with
      | nil => cases h
      | node rl rb rc rr =>
        simp only [] at h
        by_cases hb : rl.isRed = true
        · rw [if_bool_pos hb] at h
          cases hr2 : rotrT (Tree.node rl rb rc rr) with
          | none => rw [hr2] at h; cases h
          | some r2 =>
            rw [hr2] at h
            simp only [] at h
            cases hr3 : rotlT (Tree.node l1 a1 c1 r2) with
            | none => rw [hr3] at h; cases h
            | some t2 =>
              rw [hr3] at h
              simp only [] at h
              have e2 : inorder r2 = inorder (Tree.node rl rb rc rr) := inorder_rotr hr2
              have e3 : inorder t2 = inorder (Tree.node l1 a1 c1 r2) := inorder_rotl hr3
              rw [inorder_flip h, e3]
              rw [show inorder (Tree.node l1 a1 c1 r2) =
                inorder l1 ++ a1 :: inorder r2 from rfl]
              rw [e2]
              exact e1
        · rw [if_bool_neg (by cases hbb : rl.isRed; rfl; exact absurd hbb hb)] at h
          injection h with h
          subst h
          exact e1

theorem mem_linsert {α : Type} [LinearOrder α] (e x : α) :
    ∀ L : List α, x ∈ linsert e L ↔ x = e ∨ x ∈ L := by
  intro L
  induction L with
  | nil => simp [linsert]
  | cons y ys ih =>
    rw [linsert]
    by_cases h1 : e < y
    · rw [if_pos h1]
      simp [or_comm, or_assoc, or_left_comm]
    · rw [if_neg h1]
      by_cases h2 : y < e
      · rw [if_pos h2]
        simp only [List.mem_cons, ih]
        tauto
      · rw [if_neg h2]
        have hxy : e = y := le_antisymm (not_lt.mp h2) (not_lt.mp h1)
        subst hxy
        simp only [List.mem_cons]
        tauto

theorem sorted_linsert {α : Type} [LinearOrder α] (e : α) :
    ∀ {L : List α}, List.Sorted (· < ·) L → List.Sorted (· < ·) (linsert e L) := by
  intro L
  induction L with
  | nil => intro _; simp [linsert]
  | cons y ys ih =>
    intro hs
    rw [List.sorted_cons] at hs
    rw [linsert]
    by_cases h1 : e < y
    · rw [if_pos h1]
      rw [List.sorted_cons]
      refine ⟨?_, List.sorted_cons.mpr hs⟩
      intro b hb
      rcases List.mem_cons.mp hb with rfl | hb
      · exact h1
      · exact h1.trans (hs.1 b hb)
    · rw [if_neg h1]
      by_cases h2 : y < e
      · rw [if_pos h2]
        rw [List.sorted_cons]
        refine ⟨?_, ih hs.2⟩
        intro b hb
        rcases (mem_linsert e b ys).mp hb with rfl | hb
        · exact h2
        · exact hs.1 b hb
      · rw [if_neg h2]
        have hxy : e = y := le_antisymm (not_lt.mp h2) (not_lt.mp h1)
        subst hxy
        exact List.sorted_cons.mpr hs

theorem length_linsert {α : Type} [LinearOrder α] (e : α) :
    ∀ {L : List α}, List.Sorted (· < ·) L →
      (linsert e L).length = (if e ∈ L then L.length else L.length + 1) := by
  intro L
  induction L with
  | nil => intro _; simp [linsert]
  | cons y ys ih =>
    intro hs
    rw [List.sorted_cons] at hs
    rw [linsert]
    by_cases h1 : e < y
    · rw [if_pos h1]
      have hne : e ∉ y :: ys := by
        intro hmem
        rcases List.mem_cons.mp hmem with rfl | hmem
        · exact absurd h1 (lt_irrefl e)
        · exact absurd h1 (not_lt.mpr (le_of_lt (hs.1 e hmem)))
      rw [if_neg hne]
      rfl
    · rw [if_neg h1]
      by_cases h2 : y < e
      · rw [if_pos h2]
        have hne : ¬ e = y := fun h => absurd h2 (by rw [h]; exact lt_irrefl y)
        simp only [List.length_cons, ih hs.2, List.mem_cons, hne, false_or]
        by_cases h3 : e ∈ ys
        · rw [if_pos h3, if_pos h3]
        · rw [if_neg h3, if_neg h3]
      · rw [if_neg h2]
        have hxy : e = y := le_antisymm (not_lt.mp h2) (not_lt.mp h1)
        subst hxy
        simp

theorem linsert_append_right {α : Type} [LinearOrder α] {e a : α} {L2 : List α} :
    ∀ {L1 : List α}, (∀ x ∈ L1, x < e) → a < e →
      linsert e (L1 ++ a :: L2) = L1 ++ a :: linsert e L2 := by
  intro L1
  induction L1 with
  | nil =>
    intro _ ha
    rw [List.nil_append, linsert, if_neg (not_lt.mpr (le_of_lt ha)), if_pos ha,
      List.nil_append]
  | cons x xs ih =>
    intro h1 ha
    have hx : x < e := h1 x (List.mem_cons_self x xs)
    rw [List.cons_append, linsert, if_neg (not_lt.mpr (le_of_lt hx)), if_pos hx,
      ih (fun y hy => h1 y (List.mem_cons_of_mem x hy)) ha, List.cons_append]

theorem linsert_append_left {α : Type} [LinearOrder α] {e a : α} {L2 : List α} :
    ∀ {L1 : List α}, e < a →
      linsert e (L1 ++ a :: L2) = linsert e L1 ++ a :: L2 := by
  intro L1
  induction L1 with
  | nil =>
    intro ha
    show linsert e ([] ++ a :: L2) = linsert e [] ++ a :: L2
    rw [List.nil_append]
    simp only [linsert]
    rw [if_pos ha]
    rfl
  | cons x xs ih =>
    intro ha
    show linsert e ((x :: xs) ++ a :: L2) = linsert e (x :: xs) ++ a :: L2
    rw [List.cons_append]
    by_cases h1 : e < x
    · simp only [linsert]
      rw [if_pos h1, if_pos h1]
      rfl
    · by_cases h2 : x < e
      · simp only [linsert]
        rw [if_neg h1, if_neg h1, if_pos h2, if_pos h2, ih ha]
        rfl
      · simp only [linsert]
        rw [if_neg h1, if_neg h1, if_neg h2, if_neg h2]
        rfl

theorem linsert_append_eq {α : Type} [LinearOrder α] {e : α} {L2 : List α} :
    ∀ {L1 : List α}, (∀ x ∈ L1, x < e) →
      linsert e (L1 ++ e :: L2) = L1 ++ e :: L2 := by
  intro L1
  induction L1 with
  | nil =>
    intro _
    rw [List.nil_append, linsert, if_neg (lt_irrefl e), if_neg (lt_irrefl e)]
  | cons x xs ih =>
    intro h1
    have hx : x < e := h1 x (List.mem_cons_self x xs)
    rw [List.cons_append, linsert, if_neg (not_lt.mpr (le_of_lt hx)), if_pos hx,
      ih (fun y hy => h1 y (List.mem_cons_of_mem x hy))]

theorem sorted_node_facts {α : Type} [LinearOrder α] {l r : Tree α} {a : α} {c : Color}
    (hs : List.Sorted (· < ·) (inorder (Tree.node l a c r))) :
    List.Sorted (· < ·) (inorder l) ∧ List.Sorted (· < ·) (inorder r) ∧
      (∀ x ∈ inorder l, x < a) ∧ (∀ y ∈ inorder r, a < y) := by
  rw [show inorder (Tree.node l a c r) = inorder l ++ a :: inorder r from rfl] at hs
  obtain ⟨h1, h2, h3⟩ := List.pairwise_append.mp hs
  obtain ⟨h4, h5⟩ := List.pairwise_cons.mp h2
  exact ⟨h1, h5, fun x hx => h3 x hx a (List.mem_cons_self a _), h4⟩

theorem inorder_insertT {α : Type} [LinearOrder α] (e : α) :
    ∀ {t t' : Tree α}, List.Sorted (· < ·) (inorder t) →
      insertT t e = some t' → inorder t' = linsert e (inorder t) := by
  intro t
  induction t with
  | nil =>
    intro t' _ h
    injection h with h
    subst h
    rfl
  | node l a c r ihl ihr =>
    intro t' hs h
    obtain ⟨hsl, hsr, hla, har⟩ := sorted_node_facts hs
    rw [insertT] at h
    cases hcmp : compare a e with
    | lt =>
      rw [hcmp] at h
      have hae : a < e := compare_lt_iff_lt.mp hcmp
      cases hr : insertT r e with
      | none => rw [hr] at h; cases h
      | some r1 =>
        rw [hr] at h
        simp only [] at h
        rw [inorder_fixup h]
        rw [show inorder (Tree.node l a c r1) = inorder l ++ a :: inorder r1 from rfl]
        rw [ihr hsr hr]
        rw [show inorder (Tree.node l a c r) = inorder l ++ a :: inorder r from rfl]
        rw [linsert_append_right (fun x hx => (hla x hx).trans hae) hae]
    | gt =>
      rw [hcmp] at h
      have hea : e < a := compare_gt_iff_gt.mp hcmp
      cases hl : insertT l e with
      | none => rw [hl] at h; cases h
      | some l1 =>
        rw [hl] at h
        simp only [] at h
        rw [inorder_fixup h]
        rw [show inorder (Tree.node l1 a c r) = inorder l1 ++ a :: inorder r from rfl]
        rw [ihl hsl hl]
        rw [show inorder (Tree.node l a c r) = inorder l ++ a :: inorder r from rfl]
        rw [linsert_append_left hea]
    | eq =>
      rw [hcmp] at h
      have hae : a = e := compare_eq_iff_eq.mp hcmp
      subst hae
      rw [inorder_fixup h]
      rw [show inorder (Tree.node l a c r) = inorder l ++ a :: inorder r from rfl]
      rw [linsert_append_eq hla]

theorem memberT_iff_mem {α : Type} [LinearOrder α] (e : α) :
    ∀ {t : Tree α}, List.Sorted (· < ·) (inorder t) →
      (memberT t e = true ↔ e ∈ inorder t) := by
  intro t
  induction t with
  | nil => intro _; simp [memberT, inorder]
  | node l a c r ihl ihr =>
    intro hs
    obtain ⟨hsl, hsr, hla, har⟩ := sorted_node_facts hs
    rw [memberT]
    rw [show inorder (Tree.node l a c r) = inorder l ++ a :: inorder r from rfl]
    cases hcmp : compare a e with
    | lt =>
      have hae : a < e := compare_lt_iff_lt.mp hcmp
      rw [ihr hsr]
      simp only [List.mem_append, List.mem_cons]
      constructor
      · intro h; exact Or.inr (Or.inr h)
      · rintro (h | h | h)
        · exact absurd ((hla e h).trans hae) (lt_irrefl e)
        · exact absurd (h ▸ hae) (lt_irrefl e)
        · exact h
    | gt =>
      have hea : e < a := compare_gt_iff_gt.mp hcmp
      rw [ihl hsl]
      simp only [List.mem_append, List.mem_cons]
      constructor
      · intro h; exact Or.inl h
      · rintro (h | h | h)
        · exact h
        · exact absurd (h ▸ hea) (lt_irrefl e)
        · exact absurd (hea.trans (har e h)) (lt_irrefl e)
    | eq =>
      have hae : a = e := compare_eq_iff_eq.mp hcmp
      subst hae
      simp

/-- A black-balanced tree of black height zero whose root is not red is
empty. -/
theorem nil_of_bh_zero {α : Type} {t : Tree α} (h0 : bh t = 0)
    (hb : t.isRed = false) : t = Tree.nil := by
  cases t with
  | nil => rfl
  | node l a c r =>
    cases c with
    | Red => cases hb
    | Black => rw [bh_node_black] at h0; cases h0

/-- Fixup at an unwind step of delete-minimum.  Both the new left child
and the sibling satisfy the full invariant, but either may be red, and
the node color is arbitrary; the hypothesis hgood excludes the one
combination the algorithm never produces. -/
theorem fixupT_del {α : Type} {lq r1 : Tree α} {a1 : α} {c1 : Color}
    (hl : RBInv lq) (hr : RBInv r1)
    (hbh : bh lq = bh r1)
    (hgood : c1 = Color.Red → r1.isRed = false → lq.isRed = false) :
    ∃ t2, fixupT (Tree.node lq a1 c1 r1) = some t2 ∧
      leanL t2 ∧ bal t2 ∧ ndr t2.lft ∧ ndr t2.rgt ∧
      ((bh t2 = bh (Tree.node lq a1 c1 r1) ∧
        (t2.isRed = true → (c1 = Color.Red ∨ (lq.isRed = true ∧ r1.isRed = true))) ∧
        (t2.isRed = true → t2.lft.isRed = true →
          (c1 = Color.Red ∧ r1.isRed = true ∧ lq.isRed = false)))
       ∨ (c1 = Color.Red ∧ lq.isRed = true ∧ r1.isRed = true ∧
          bh t2 = bh (Tree.node lq a1 c1 r1) + 2 ∧ t2.isRed = false ∧ ndr t2)) := by
  obtain ⟨hlL, hlN, hlB⟩ := hl
  obtain ⟨hrL, hrN, hrB⟩ := hr
  cases hr1 : r1.isRed with
  | true =>
    rcases isRed_iff.mp hr1 with ⟨rl, rb, rr, rfl⟩
    have hrlred : rl.isRed = false := by
      have h := ndr_root hrN hr1
      rw [lft_node] at h
      exact h.1
    have hrrred : rr.isRed = false := leanL_root hrL
    cases hl1 : lq.isRed with
    | false =>
      -- case A: left rotation
      refine ⟨Tree.node (Tree.node lq a1 Color.Red rl) rb c1 rr, ?_, ?_⟩
      · rw [fixupT]
        rw [if_bool_pos (by simp [hl1])]
        rw [rotlT]
        simp only []
        rw [if_bool_neg (by simp [hl1])]
        simp only []
        rw [if_bool_neg (by simp [hrrred])]
      · have hbhrl : bh lq = bh rl := by rw [hbh]; rfl
        refine ⟨⟨⟨hlL, hrL.1, hrlred⟩, hrL.2.1, hrrred⟩,
          ⟨⟨hlB, hrB.1, hbhrl⟩, hrB.2.1, ?_⟩, ?_, ?_, ?_⟩
        · rw [show bh (Tree.node lq a1 Color.Red rl) = bh lq from rfl, hbhrl]
          exact hrB.2.2
        · exact ⟨hlN, hrN.1, fun _ => ⟨hl1, hrlred⟩⟩
        · exact hrN.2.1
        · refine Or.inl ⟨?_, ?_, ?_⟩
          · rw [bh_node]
            rw [show bh (Tree.node lq a1 Color.Red rl) = bh lq from rfl]
            rw [bh_node]
          · intro h
            rw [isRed_node_iff] at h
            exact Or.inl h
          · intro h _
            rw [isRed_node_iff] at h
            exact ⟨h, hr1, rfl⟩
    | true =>
      -- case B2: both red, flip colors
      rcases isRed_iff.mp hl1 with ⟨pl, pb, pr, rfl⟩
      have hplred : pl.isRed = false := by
        have h := ndr_root hlN hl1
        rw [lft_node] at h
        exact h.1
      refine ⟨Tree.node (Tree.node pl pb Color.Black pr) a1 c1.not
        (Tree.node rl rb Color.Black rr), ?_, ?_⟩
      · rw [fixupT]
        rw [if_bool_neg (by simp)]
        simp only []
        rw [if_bool_neg (by simp [hplred])]
        simp only []
        rw [if_bool_pos (by simp)]
        rw [flipT]
        rfl
      · have hbz : bh (Tree.node pl pb Color.Black pr) = bh (Tree.node rl rb Color.Black rr) := by
          rw [bh_node_black, bh_node_black]
          rw [show bh (Tree.node pl pb Color.Red pr) = bh pl from rfl] at hbh
          rw [show bh (Tree.node rl rb Color.Red rr) = bh rl from rfl] at hbh
          rw [hbh]
        refine ⟨⟨⟨hlL.1, hlL.2.1, hlL.2.2⟩, ⟨hrL.1, hrL.2.1, hrL.2.2⟩, by simp⟩,
          ⟨⟨hlB.1, hlB.2.1, hlB.2.2⟩, ⟨hrB.1, hrB.2.1, hrB.2.2⟩, hbz⟩, ?_, ?_, ?_⟩
        · exact ⟨hlN.1, hlN.2.1, fun h => by cases h⟩
        · exact ⟨hrN.1, hrN.2.1, fun h => by cases h⟩
        · cases c1 with
          | Black =>
            refine Or.inl ⟨?_, ?_, ?_⟩
            · rw [show Color.Black.not = Color.Red from rfl]
              rw [bh_node_red, bh_node_black, bh_node_black]
              rfl
            · intro _
              exact Or.inr ⟨rfl, rfl⟩
            · intro _ habs
              rw [lft_node] at habs
              cases habs
          | Red =>
            refine Or.inr ⟨rfl, rfl, rfl, ?_, rfl, ?_⟩
            · rw [show Color.Red.not = Color.Black from rfl]
              rw [bh_node_black, bh_node_black, bh_node_red]
              rw [show bh (Tree.node pl pb Color.Red pr) = bh pl from rfl]
            · refine ⟨⟨hlN.1, hlN.2.1, fun h => by cases h⟩,
                ⟨hrN.1, hrN.2.1, fun h => by cases h⟩, fun h => by cases h⟩
  | false =>
    cases hl1 : lq.isRed with
    | false =>
      -- case B1: nothing to do
      refine ⟨Tree.node lq a1 c1 r1,
        fixupT_skip hr1 (fun h => by rw [h] at hl1; cases hl1), ?_⟩
      refine ⟨⟨hlL, hrL, hr1⟩, ⟨hlB, hrB, hbh⟩, hlN, hrN, ?_⟩
      refine Or.inl ⟨rfl, ?_, ?_⟩
      · intro h
        rw [isRed_node_iff] at h
        exact Or.inl h
      · intro _ habs
        rw [lft_node, hl1] at habs
        cases habs
    | true =>
      -- case B3: red left child only
      refine ⟨Tree.node lq a1 c1 r1,
        fixupT_skip hr1 (fun h => (ndr_root hlN h).1), ?_⟩
      refine ⟨⟨hlL, hrL, hr1⟩, ⟨hlB, hrB, hbh⟩, hlN, hrN, ?_⟩
      refine Or.inl ⟨rfl, ?_, ?_⟩
      · intro h
        rw [isRed_node_iff] at h
        exact Or.inl h
      · intro h _
        rw [isRed_node_iff] at h
        rw [hgood h hr1] at hl1
        cases hl1

@[simp] theorem size_node {α : Type} {l r : Tree α} {a : α} {c : Color} :
    (Tree.node l a c r).size = l.size + r.size + 1 := rfl

@[simp] theorem size_nil {α : Type} : (Tree.nil : Tree α).size = 0 := rfl

theorem mrl_plain {α : Type} (ll lr rl rr : Tree α) (lb a rb : α) (c : Color)
    (hrl : rl.isRed = false) :
    moveRedLeftT (Tree.node (Tree.node ll lb Color.Black lr) a c
        (Tree.node rl rb Color.Black rr)) =
      some (Tree.node (Tree.node ll lb Color.Red lr) a c.not
        (Tree.node rl rb Color.Red rr)) := by
  rw [moveRedLeftT, flipT]
  simp only []
  rw [if_bool_neg hrl]
  rfl

theorem mrl_nested {α : Type} (ll lr rll rlr rr : Tree α) (lb a rlb rb : α) (c : Color) :
    moveRedLeftT (Tree.node (Tree.node ll lb Color.Black lr) a c
        (Tree.node (Tree.node rll rlb Color.Red rlr) rb Color.Black rr)) =
      some (Tree.node
        (Tree.node (Tree.node ll lb Color.Red lr) a Color.Black rll) rlb c
        (Tree.node rlr rb Color.Black rr)) := by
  rw [moveRedLeftT, flipT]
  simp only []
  rw [if_bool_pos (by simp)]
  rw [rotrT]
  simp only []
  rw [rotlT]
  simp only []
  rw [flipT]
  rw [Color.not_not]
  rfl

/-- One recursive delete-minimum step never fails, removes exactly the
head of the in-order sequence, and preserves the red-black structure;
the only irregular outcome (second disjunct) occurs when the step was
entered at a black 2-node, which the algorithm reaches only at the
root. -/
theorem takeMin_aux {α : Type} :
    ∀ fuel : Nat, ∀ {l r : Tree α} {a : α} {c : Color},
      (Tree.node l a c r).size ≤ fuel →
      RBInv l → RBInv r → r.isRed = false →
      (c = Color.Red → l.isRed = false ∧ r.isRed = false) →
      bh l = bh r →
      (l = Tree.nil → c = Color.Red) →
      ∃ m t', takeMinF fuel (Tree.node l a c r) = some (m, t') ∧
        inorder (Tree.node l a c r) = m :: inorder t' ∧
        leanL t' ∧ bal t' ∧ ndr t'.lft ∧ ndr t'.rgt ∧
        ((bh t' = bh (Tree.node l a c r) ∧ ndr t' ∧ (t'.isRed = true → c = Color.Red))
          ∨ (c = Color.Black ∧ l.isRed = false ∧ l.lft.isRed = false)) := by
  intro fuel
  induction fuel with
  | zero =>
    intro l r a c hf _ _ _ _ _ _
    rw [size_node] at hf
    omega
  | succ f ih =>
    intro l r a c hf hl hr hrb hroot hbh hnil
    rw [takeMinF.eq_def]
    simp only []
    cases l with
    | nil =>
      have hc : c = Color.Red := hnil rfl
      subst hc
      have hr0 : r = Tree.nil := nil_of_bh_zero (by rw [← hbh]; rfl) hrb
      subst hr0
      exact ⟨a, Tree.nil, rfl, rfl, trivial, trivial, trivial, trivial,
        Or.inl ⟨rfl, trivial, fun _ => rfl⟩⟩
    | node ll lb lc lr =>
      simp only []
      cases htrig : (!(Tree.node ll lb lc lr).isRed && !ll.isRed) with
      | false =>
        -- the left child is not a 2-node: descend directly
        rw [if_bool_neg rfl]
        simp only []
        have hor : (Tree.node ll lb lc lr).isRed = true ∨ ll.isRed = true := by
          revert htrig
          cases (Tree.node ll lb lc lr).isRed <;> cases ll.isRed <;> simp
        obtain ⟨m, l2, hrec, hino, hL2, hB2, hnL2, hnR2, hbucket⟩ :=
          ih (l := ll) (r := lr) (a := lb) (c := lc)
            (by simp only [size_node] at hf ⊢; omega)
            (RBInv_lft hl) (RBInv_rgt hl) (leanL_root hl.1)
            (fun hcr => hl.2.1.2.2 hcr)
            (bal_root hl.2.2)
            (fun hn => by
              rcases hor with h | h
              · exact isRed_node_iff.mp h
              · rw [hn] at h; cases h)
        have hnormal : bh l2 = bh (Tree.node ll lb lc lr) ∧ ndr l2 ∧
            (l2.isRed = true → lc = Color.Red) := by
          rcases hbucket with h | ⟨hcB, hllr, _⟩
          · exact h
          · rcases hor with h | h
            · rw [hcB] at h; cases isRed_node_iff.mp h
            · rw [hllr] at h; cases h
        obtain ⟨hbh2, hndr2, hred2⟩ := hnormal
        rw [hrec]
        simp only []
        have hgood : c = Color.Red → r.isRed = false → l2.isRed = false := by
          intro hcr _
          cases h2 : l2.isRed
          · rfl
          · have hthis := hred2 h2
            have h3 := (hroot hcr).1
            rw [isRed_false_node] at h3
            rw [hthis] at h3
            cases h3
        obtain ⟨t2, hfix, hfL, hfB, hfnL, hfnR, hfbucket⟩ :=
          fixupT_del ⟨hL2, hndr2, hB2⟩ hr (by rw [hbh2]; exact hbh) hgood
        rw [hfix]
        refine ⟨m, t2, rfl, ?_, hfL, hfB, hfnL, hfnR, ?_⟩
        · rw [show inorder (Tree.node (Tree.node ll lb lc lr) a c r) =
            inorder (Tree.node ll lb lc lr) ++ a :: inorder r from rfl]
          rw [hino, inorder_fixup hfix]
          rfl
        · rcases hfbucket with ⟨hbheq, hredc, hredred⟩ | ⟨_, _, hr1, _⟩
          · refine Or.inl ⟨?_, ?_, ?_⟩
            · rw [hbheq]
              simp only [bh_node]
              rw [hbh2]
              rfl
            · refine ndr_rebuild hfnL hfnR ?_
              intro hred
              refine ⟨?_, leanL_root hfL⟩
              cases hlf : t2.lft.isRed
              · rfl
              · have h4 := hredred hred hlf
                rw [h4.2.1] at hrb
                cases hrb
            · intro hred
              rcases hredc hred with h | ⟨_, h⟩
              · exact h
              · rw [h] at hrb; cases hrb
          · rw [hr1] at hrb
            cases hrb
      | true =>
        -- the left child is a black 2-node: move a red link down first
        rw [if_bool_pos rfl]
        have hli : (Tree.node ll lb lc lr).isRed = false := by
          revert htrig
          cases (Tree.node ll lb lc lr).isRed <;> simp
        have hlli : ll.isRed = false := by
          revert htrig
          cases ll.isRed <;> cases (Tree.node ll lb lc lr).isRed <;> simp
        have hlcB : lc = Color.Black := isRed_false_node.mp hli
        subst hlcB
        have hlrr : lr.isRed = false := leanL_root hl.1
        cases r with
        | nil =>
          exfalso
          rw [bh_node_black] at hbh
          rw [show bh (Tree.nil : Tree α) = 0 from rfl] at hbh
          omega
        | node rl rb rc rr =>
          have hrcB : rc = Color.Black := isRed_false_node.mp hrb
          subst hrcB
          have hbhx : bh ll = bh rl := by
            rw [bh_node_black, bh_node_black] at hbh
            omega
          obtain ⟨hlLx, hlNx, hlBx⟩ := hl
          obtain ⟨hrLx, hrNx, hrBx⟩ := hr
          cases hrl : rl.isRed with
          | false =>
            -- plain move-red-left
            rw [mrl_plain ll lr rl rr lb a rb c hrl]
            simp only []
            obtain ⟨m, l2, hrec, hino, hL2, hB2, hnL2, hnR2, hbucket⟩ :=
              ih (l := ll) (r := lr) (a := lb) (c := Color.Red)
                (by simp only [size_node] at hf ⊢; omega)
                ⟨hlLx.1, hlNx.1, hlBx.1⟩ ⟨hlLx.2.1, hlNx.2.1, hlBx.2.1⟩ hlrr
                (fun _ => ⟨hlli, hlrr⟩) hlBx.2.2 (fun _ => rfl)
            have hnormal : bh l2 = bh (Tree.node ll lb Color.Red lr) ∧ ndr l2 ∧
                (l2.isRed = true → Color.Red = Color.Red) := by
              rcases hbucket with h | ⟨hcB, _, _⟩
              · exact h
              · cases hcB
            obtain ⟨hbh2, hndr2, _⟩ := hnormal
            rw [hrec]
            simp only []
            have hRBr2 : RBInv (Tree.node rl rb Color.Red rr) :=
              ⟨⟨hrLx.1, hrLx.2.1, hrLx.2.2⟩, ⟨hrNx.1, hrNx.2.1, fun _ => ⟨hrl, leanL_root hrLx⟩⟩,
                ⟨hrBx.1, hrBx.2.1, hrBx.2.2⟩⟩
            obtain ⟨t2, hfix, hfL, hfB, hfnL, hfnR, hfbucket⟩ :=
              fixupT_del ⟨hL2, hndr2, hB2⟩ hRBr2
                (by rw [hbh2]; rw [show bh (Tree.node ll lb Color.Red lr) = bh ll from rfl,
                      show bh (Tree.node rl rb Color.Red rr) = bh rl from rfl]; exact hbhx)
                (fun _ habs => by cases habs)
            rw [hfix]
            refine ⟨m, t2, rfl, ?_, hfL, hfB, hfnL, hfnR, ?_⟩
            · rw [show inorder (Tree.node (Tree.node ll lb Color.Black lr) a c
                (Tree.node rl rb Color.Black rr)) =
                inorder (Tree.node ll lb Color.Red lr) ++ a ::
                  inorder (Tree.node rl rb Color.Red rr) from rfl]
              rw [hino, inorder_fixup hfix]
              rfl
            · rcases hfbucket with ⟨hbheq, hredc, hredred⟩ | ⟨hcnot, hl2red, _, hbh4, ht2b, hndrt2⟩
              · cases c with
                | Red =>
                  refine Or.inl ⟨?_, ?_, fun _ => rfl⟩
                  · rw [hbheq]
                    rw [show Color.Red.not = Color.Black from rfl]
                    rw [bh_node_black, bh_node_red, bh_node_black]
                    rw [hbh2]
                    rfl
                  · refine ndr_rebuild hfnL hfnR ?_
                    intro hred
                    refine ⟨?_, leanL_root hfL⟩
                    cases hlf : t2.lft.isRed
                    · rfl
                    · have h4 := hredred hred hlf
                      cases h4.1
                | Black => exact Or.inr ⟨rfl, hli, hlli⟩
              · cases c with
                | Red => cases hcnot
                | Black =>
                  refine Or.inl ⟨?_, hndrt2, fun h => by rw [ht2b] at h; cases h⟩
                  rw [hbh4]
                  rw [show Color.Black.not = Color.Red from rfl]
                  rw [bh_node_red, bh_node_black, bh_node_black]
                  rw [hbh2]
                  rfl
          | true =>
            -- nested move-red-left
            rcases isRed_iff.mp hrl with ⟨rll, rlb, rlr, rfl⟩
            rw [mrl_nested ll lr rll rlr rr lb a rlb rb c]
            simp only []
            have hrllred : rll.isRed = false := by
              have h := ndr_root hrNx.1 hrl
              rw [lft_node] at h
              exact h.1
            have hrlrred : rlr.isRed = false := by
              have h := ndr_root hrNx.1 hrl
              rw [rgt_node] at h
              exact h.2
            have hbhrl : bh rll = bh rlr := bal_root hrBx.1
            have hbhrr : bh rll = bh rr := by
              have h := hrBx.2.2
              rw [show bh (Tree.node rll rlb Color.Red rlr) = bh rll from rfl] at h
              exact h
            obtain ⟨m, l2, hrec, hino, hL2, hB2, hnL2, hnR2, hbucket⟩ :=
              ih (l := Tree.node ll lb Color.Red lr) (r := rll) (a := a) (c := Color.Black)
                (by rw [size_node] at hf ⊢; simp only [size_node] at hf ⊢; omega)
                ⟨⟨hlLx.1, hlLx.2.1, hlrr⟩, ⟨hlNx.1, hlNx.2.1, fun _ => ⟨hlli, hlrr⟩⟩,
                  ⟨hlBx.1, hlBx.2.1, hlBx.2.2⟩⟩
                ⟨leanL_lft hrLx.1, ndr_lft hrNx.1, bal_lft hrBx.1⟩
                hrllred
                (fun habs => by cases habs)
                (by exact hbhx)
                (fun habs => by cases habs)
            have hnormal : bh l2 = bh (Tree.node (Tree.node ll lb Color.Red lr) a
                Color.Black rll) ∧ ndr l2 ∧ (l2.isRed = true → Color.Black = Color.Red) := by
              rcases hbucket with h | ⟨_, habs, _⟩
              · exact h
              · rw [show (Tree.node ll lb Color.Red lr).isRed = true from rfl] at habs
                cases habs
            obtain ⟨hbh2, hndr2, hred2⟩ := hnormal
            have hl2black : l2.isRed = false := by
              cases h2 : l2.isRed
              · rfl
              · cases hred2 h2
            rw [hrec]
            simp only []
            have hRBy : RBInv (Tree.node rlr rb Color.Black rr) :=
              ⟨⟨leanL_rgt hrLx.1, hrLx.2.1, hrLx.2.2⟩,
                ⟨ndr_rgt hrNx.1, hrNx.2.1, fun habs => by cases habs⟩,
                ⟨bal_rgt hrBx.1, hrBx.2.1, by rw [← hbhrl]; exact hbhrr⟩⟩
            obtain ⟨t2, hfix, hfL, hfB, hfnL, hfnR, hfbucket⟩ :=
              fixupT_del ⟨hL2, hndr2, hB2⟩ hRBy
                (by rw [hbh2]
                    rw [show bh (Tree.node (Tree.node ll lb Color.Red lr) a Color.Black rll)
                      = bh ll + 1 from rfl]
                    rw [bh_node_black, ← hbhrl, hbhx]
                    rfl)
                (fun _ _ => hl2black)
            rw [hfix]
            refine ⟨m, t2, rfl, ?_, hfL, hfB, hfnL, hfnR, ?_⟩
            · rw [show inorder (Tree.node (Tree.node ll lb Color.Black lr) a c
                (Tree.node (Tree.node rll rlb Color.Red rlr) rb Color.Black rr)) =
                (inorder (Tree.node ll lb Color.Red lr) ++ a :: inorder rll) ++
                  rlb :: inorder (Tree.node rlr rb Color.Black rr) from
                  by simp [inorder, List.append_assoc]]
              rw [show (inorder (Tree.node ll lb Color.Red lr) ++ a :: inorder rll) =
                inorder (Tree.node (Tree.node ll lb Color.Red lr) a Color.Black rll) from rfl]
              rw [hino, inorder_fixup hfix]
              rfl
            · rcases hfbucket with ⟨hbheq, hredc, hredred⟩ | ⟨_, habs, _⟩
              · refine Or.inl ⟨?_, ?_, ?_⟩
                · rw [hbheq]
                  simp only [bh_node]
                  rw [hbh2]
                  rw [show bh (Tree.node (Tree.node ll lb Color.Red lr) a Color.Black rll)
                    = bh ll + 1 from rfl]
                · refine ndr_rebuild hfnL hfnR ?_
                  intro hred
                  refine ⟨?_, leanL_root hfL⟩
                  cases hlf : t2.lft.isRed
                  · rfl
                  · have h4 := hredred hred hlf
                    cases h4.2.1
                · intro hred
                  rcases hredc hred with h | ⟨h, _⟩
                  · exact h
                  · rw [hl2black] at h
                    cases h
              · rw [hl2black] at habs
                cases habs

theorem size_eq_length_inorder {α : Type} (t : Tree α) :
    t.size = (inorder t).length := by
  induction t with
  | nil => rfl
  | node l a c r ihl ihr =>
    rw [size_node, show inorder (Tree.node l a c r) = inorder l ++ a :: inorder r from rfl]
    rw [List.length_append, List.length_cons, ihl, ihr]
    omega

theorem IsRepr.mem_isSome {α : Type} {s : BST α} {p : Option Nat} {t : Tree α}
    {ps : List Nat} (h : IsRepr s p t ps) : ∀ j ∈ ps, (derefA s j).isSome = true := by
  induction h with
  | nil => intro j hj; cases hj
  | node hd hl hr _ _ _ ihl ihr =>
    intro j hj
    rcases List.mem_cons.mp hj with rfl | hj
    · rw [hd]; rfl
    · rcases List.mem_append.mp hj with hj | hj
      · exact ihl j hj
      · exact ihr j hj

theorem IsRepr.nodup {α : Type} {s : BST α} {p : Option Nat} {t : Tree α}
    {ps : List Nat} (h : IsRepr s p t ps) : ps.Nodup := by
  induction h with
  | nil => exact List.nodup_nil
  | node hd hl hr h1 h2 h3 ihl ihr =>
    rw [List.nodup_cons]
    constructor
    · intro hj
      rcases List.mem_append.mp hj with hj | hj
      · exact h1 hj
      · exact h2 hj
    · rw [List.nodup_append]
      exact ⟨ihl, ihr, h3⟩

theorem IsRepr.length_eq {α : Type} {s : BST α} {p : Option Nat} {t : Tree α}
    {ps : List Nat} (h : IsRepr s p t ps) : ps.length = t.size := by
  induction h with
  | nil => rfl
  | node hd hl hr _ _ _ ihl ihr =>
    rw [List.length_cons, List.length_append, ihl, ihr, size_node]

theorem IsRepr.frame {α : Type} {s s2 : BST α} {p : Option Nat} {t : Tree α}
    {ps : List Nat} (h : IsRepr s p t ps)
    (hsame : ∀ j ∈ ps, derefA s2 j = derefA s j) : IsRepr s2 p t ps := by
  induction h with
  | nil => exact IsRepr.nil
  | node hd hl hr h1 h2 h3 ihl ihr =>
    refine IsRepr.node ?_ (ihl ?_) (ihr ?_) h1 h2 h3
    · rw [hsame _ (List.mem_cons_self _ _)]; exact hd
    · intro j hj
      exact hsame j (List.mem_cons_of_mem _ (List.mem_append.mpr (Or.inl hj)))
    · intro j hj
      exact hsame j (List.mem_cons_of_mem _ (List.mem_append.mpr (Or.inr hj)))

theorem derefA_lt_length {α : Type} {s : BST α} {i : Nat} {n : Node α}
    (h : derefA s i = some n) : i < s.nodes.length := by
  by_contra hcon
  rw [derefA, List.getElem?_eq_none (Nat.le_of_not_lt hcon)] at h
  cases h

theorem derefA_set_self {α : Type} {s : BST α} {i : Nat} {n0 n : Node α}
    (h : derefA s i = some n0) :
    derefA (setNodeA s i n) i = some n := by
  rw [derefA, setNodeA]
  rw [show ({ s with nodes := s.nodes.set i (some n) } : BST α).nodes
    = s.nodes.set i (some n) from rfl]
  rw [List.getElem?_set_self (derefA_lt_length h)]
  rfl

theorem derefA_set_ne {α : Type} (s : BST α) {i j : Nat} (n : Node α) (h : i ≠ j) :
    derefA (setNodeA s i n) j = derefA s j := by
  rw [derefA, derefA, setNodeA]
  rw [show ({ s with nodes := s.nodes.set i (some n) } : BST α).nodes
    = s.nodes.set i (some n) from rfl]
  rw [List.getElem?_set_ne h]

@[simp] theorem setNodeA_root {α : Type} (s : BST α) (i : Nat) (n : Node α) :
    (setNodeA s i n).root = s.root := rfl

@[simp] theorem setNodeA_deleted {α : Type} (s : BST α) (i : Nat) (n : Node α) :
    (setNodeA s i n).deleted_indices = s.deleted_indices := rfl

@[simp] theorem setNodeA_length {α : Type} (s : BST α) (i : Nat) (n : Node α) :
    (setNodeA s i n).nodes.length = s.nodes.length := by
  rw [setNodeA]
  exact List.length_set s.nodes i (some n)

theorem SameOutside.refl {α : Type} (ps : List Nat) (s : BST α) : SameOutside ps s s :=
  ⟨rfl, rfl, rfl, fun _ _ => rfl⟩

theorem SameOutside.trans_sub {α : Type} {ps qs rs : List Nat} {s s2 s3 : BST α}
    (h1 : SameOutside ps s s2) (h2 : SameOutside qs s2 s3)
    (hps : ∀ j, j ∉ rs → j ∉ ps) (hqs : ∀ j, j ∉ rs → j ∉ qs) :
    SameOutside rs s s3 := by
  refine ⟨h2.1.trans h1.1, h2.2.1.trans h1.2.1, h2.2.2.1.trans h1.2.2.1, ?_⟩
  intro j hj
  rw [h2.2.2.2 j (hqs j hj), h1.2.2.2 j (hps j hj)]

theorem rotateLeftA_spec {α : Type} {s : BST α} {h : Nat} {l rl rr : Tree α}
    {a b : α} {c cb : Color} {ps : List Nat}
    (hrep : IsRepr s (some h) (Tree.node l a c (Tree.node rl b cb rr)) ps) :
    ∃ x s4 ps2, rotateLeftA s h = some (s4, x) ∧
      IsRepr s4 (some x) (Tree.node (Tree.node l a Color.Red rl) b c rr) ps2 ∧
      ps2.Perm ps ∧ SameOutside ps s s4 := by
  cases hrep with
  | node hderef hlrep hrrep hn1 hn2 hdisj =>
    rename_i pl pr psl psr
    cases hrrep with
    | node hxderef hrlrep hrrrep hx1 hx2 hdisj2 =>
      rename_i x xl xr psrl psrr
      have hne : h ≠ x := by
        intro heq
        exact hn2 (heq ▸ List.mem_cons_self x _)
      have hnotrl : h ∉ psrl := fun hj =>
        hn2 (List.mem_cons_of_mem _ (List.mem_append.mpr (Or.inl hj)))
      have hnotrr : h ∉ psrr := fun hj =>
        hn2 (List.mem_cons_of_mem _ (List.mem_append.mpr (Or.inr hj)))
      have hxnotl : x ∉ psl := fun hj => hdisj x hj (List.mem_cons_self x _)
      have hdisj_l_rl : ∀ j ∈ psl, j ∉ psrl := fun j hj hj2 =>
        hdisj j hj (List.mem_cons_of_mem _ (List.mem_append.mpr (Or.inl hj2)))
      have hdisj_l_rr : ∀ j ∈ psl, j ∉ psrr := fun j hj hj2 =>
        hdisj j hj (List.mem_cons_of_mem _ (List.mem_append.mpr (Or.inr hj2)))
      -- the four mutation steps
      have d1 : derefA (setNodeA s h (Node.mk a c pl xl)) x
          = some (Node.mk b cb xl xr) := by
        rw [derefA_set_ne s _ hne]; exact hxderef
      have d1h : derefA (setNodeA s h (Node.mk a c pl xl)) h
          = some (Node.mk a c pl xl) := derefA_set_self hderef
      have d2x : derefA (setNodeA (setNodeA s h (Node.mk a c pl xl)) x
          (Node.mk b cb (some h) xr)) x = some (Node.mk b cb (some h) xr) :=
        derefA_set_self d1
      have d2h : derefA (setNodeA (setNodeA s h (Node.mk a c pl xl)) x
          (Node.mk b cb (some h) xr)) h = some (Node.mk a c pl xl) := by
        rw [derefA_set_ne _ _ (Ne.symm hne)]; exact d1h
      have d3h : derefA (setNodeA (setNodeA (setNodeA s h (Node.mk a c pl xl)) x
          (Node.mk b cb (some h) xr)) x (Node.mk b c (some h) xr)) h
          = some (Node.mk a c pl xl) := by
        rw [derefA_set_ne _ _ (Ne.symm hne)]; exact d2h
      have hcomp : rotateLeftA s h =
          some (setNodeA (setNodeA (setNodeA (setNodeA s h (Node.mk a c pl xl)) x
            (Node.mk b cb (some h) xr)) x (Node.mk b c (some h) xr)) h
            (Node.mk a Color.Red pl xl), x) := by
        rw [rotateLeftA, hderef]
        simp only []
        rw [hxderef]
        simp only []
        rw [d1]
        simp only []
        rw [d2h, d2x]
        simp only []
        rw [d3h]
      refine ⟨x, _, (x :: ((h :: (psl ++ psrl)) ++ psrr)), hcomp, ?_, ?_, ?_⟩
      · -- representation after rotation
        set s4 := setNodeA (setNodeA (setNodeA (setNodeA s h (Node.mk a c pl xl)) x
          (Node.mk b cb (some h) xr)) x (Node.mk b c (some h) xr)) h
          (Node.mk a Color.Red pl xl) with hs4
        have dFh : derefA s4 h = some (Node.mk a Color.Red pl xl) :=
          derefA_set_self d3h
        have dFx : derefA s4 x = some (Node.mk b c (some h) xr) := by
          rw [hs4, derefA_set_ne _ _ hne]
          exact derefA_set_self d2x
        have dFother : ∀ j, j ≠ h → j ≠ x → derefA s4 j = derefA s j := by
          intro j hjh hjx
          rw [hs4, derefA_set_ne _ _ (Ne.symm hjh), derefA_set_ne _ _ (Ne.symm hjx),
            derefA_set_ne _ _ (Ne.symm hjx), derefA_set_ne _ _ (Ne.symm hjh)]
        have hlrep4 : IsRepr s4 pl l psl :=
          hlrep.frame (fun j hj => dFother j (fun he => hn1 (he ▸ hj))
            (fun he => hxnotl (he ▸ hj)))
        have hrlrep4 : IsRepr s4 xl rl psrl :=
          hrlrep.frame (fun j hj => dFother j (fun he => hnotrl (he ▸ hj))
            (fun he => hx1 (he ▸ hj)))
        have hrrrep4 : IsRepr s4 xr rr psrr :=
          hrrrep.frame (fun j hj => dFother j (fun he => hnotrr (he ▸ hj))
            (fun he => hx2 (he ▸ hj)))
        have inner : IsRepr s4 (some h) (Tree.node l a Color.Red rl)
            (h :: (psl ++ psrl)) :=
          IsRepr.node dFh hlrep4 hrlrep4 hn1 hnotrl hdisj_l_rl
        refine IsRepr.node dFx inner hrrrep4 ?_ hx2 ?_
        · intro hmem
          rcases List.mem_cons.mp hmem with he | hmem
          · exact hne (he.symm)
          · rcases List.mem_append.mp hmem with hmem | hmem
            · exact hxnotl hmem
            · exact hx1 hmem
        · intro j hj
          rcases List.mem_cons.mp hj with rfl | hj
          · exact hnotrr
          · rcases List.mem_append.mp hj with hj | hj
            · exact hdisj_l_rr j hj
            · exact hdisj2 j hj
      · -- permutation of the slot lists
        have e1 : (x :: ((h :: (psl ++ psrl)) ++ psrr)) =
            x :: h :: (psl ++ (psrl ++ psrr)) := by
          simp [List.cons_append, List.append_assoc]
        rw [e1]
        refine (List.Perm.swap h x _).trans ?_
        refine List.Perm.cons h ?_
        exact List.perm_middle.symm
      · -- everything outside ps is untouched
        refine ⟨rfl, ?_, rfl, ?_⟩
        · simp only [setNodeA_length]
        · intro j hj
          have hjh : j ≠ h := fun he => hj (by rw [he]; exact List.mem_cons_self h _)
          have hjx : j ≠ x := fun he => hj (by
            rw [he]
            exact List.mem_cons_of_mem _
              (List.mem_append.mpr (Or.inr (List.mem_cons_self x _))))
          rw [derefA_set_ne _ _ (Ne.symm hjh), derefA_set_ne _ _ (Ne.symm hjx),
            derefA_set_ne _ _ (Ne.symm hjx), derefA_set_ne _ _ (Ne.symm hjh)]

theorem rotateRightA_spec {α : Type} {s : BST α} {h : Nat} {ll lr r : Tree α}
    {a b : α} {c cb : Color} {ps : List Nat}
    (hrep : IsRepr s (some h) (Tree.node (Tree.node ll b cb lr) a c r) ps) :
    ∃ x s4 ps2, rotateRightA s h = some (s4, x) ∧
      IsRepr s4 (some x) (Tree.node ll b c (Tree.node lr a Color.Red r)) ps2 ∧
      ps2.Perm ps ∧ SameOutside ps s s4 := by
  cases hrep with
  | node hderef hlrep hrrep hn1 hn2 hdisj =>
    rename_i pl pr psl psr
    cases hlrep with
    | node hxderef hllrep hlrrep hx1 hx2 hdisj2 =>
      rename_i x xl xr psll pslr
      have hne : h ≠ x := by
        intro heq
        exact hn1 (heq ▸ List.mem_cons_self x _)
      have hnotll : h ∉ psll := fun hj =>
        hn1 (List.mem_cons_of_mem _ (List.mem_append.mpr (Or.inl hj)))
      have hnotlr : h ∉ pslr := fun hj =>
        hn1 (List.mem_cons_of_mem _ (List.mem_append.mpr (Or.inr hj)))
      have hxnotr : x ∉ psr := hdisj x (List.mem_cons_self x _)
      have hdisj_ll_r : ∀ j ∈ psll, j ∉ psr := fun j hj =>
        hdisj j (List.mem_cons_of_mem _ (List.mem_append.mpr (Or.inl hj)))
      have hdisj_lr_r : ∀ j ∈ pslr, j ∉ psr := fun j hj =>
        hdisj j (List.mem_cons_of_mem _ (List.mem_append.mpr (Or.inr hj)))
      have d1 : derefA (setNodeA s h (Node.mk a c xr pr)) x
          = some (Node.mk b cb xl xr) := by
        rw [derefA_set_ne s _ hne]; exact hxderef
      have d1h : derefA (setNodeA s h (Node.mk a c xr pr)) h
          = some (Node.mk a c xr pr) := derefA_set_self hderef
      have d2x : derefA (setNodeA (setNodeA s h (Node.mk a c xr pr)) x
          (Node.mk b cb xl (some h))) x = some (Node.mk b cb xl (some h)) :=
        derefA_set_self d1
      have d2h : derefA (setNodeA (setNodeA s h (Node.mk a c xr pr)) x
          (Node.mk b cb xl (some h))) h = some (Node.mk a c xr pr) := by
        rw [derefA_set_ne _ _ (Ne.symm hne)]; exact d1h
      have d3h : derefA (setNodeA (setNodeA (setNodeA s h (Node.mk a c xr pr)) x
          (Node.mk b cb xl (some h))) x (Node.mk b c xl (some h))) h
          = some (Node.mk a c xr pr) := by
        rw [derefA_set_ne _ _ (Ne.symm hne)]; exact d2h
      have hcomp : rotateRightA s h =
          some (setNodeA (setNodeA (setNodeA (setNodeA s h (Node.mk a c xr pr)) x
            (Node.mk b cb xl (some h))) x (Node.mk b c xl (some h))) h
            (Node.mk a Color.Red xr pr), x) := by
        rw [rotateRightA, hderef]
        simp only []
        rw [hxderef]
        simp only []
        rw [d1]
        simp only []
        rw [d2h, d2x]
        simp only []
        rw [d3h]
      refine ⟨x, _, (x :: (psll ++ ((h :: (pslr ++ psr))))), hcomp, ?_, ?_, ?_⟩
      · set s4 := setNodeA (setNodeA (setNodeA (setNodeA s h (Node.mk a c xr pr)) x
          (Node.mk b cb xl (some h))) x (Node.mk b c xl (some h))) h
          (Node.mk a Color.Red xr pr) with hs4
        have dFh : derefA s4 h = some (Node.mk a Color.Red xr pr) :=
          derefA_set_self d3h
        have dFx : derefA s4 x = some (Node.mk b c xl (some h)) := by
          rw [hs4, derefA_set_ne _ _ hne]
          exact derefA_set_self d2x
        have dFother : ∀ j, j ≠ h → j ≠ x → derefA s4 j = derefA s j := by
          intro j hjh hjx
          rw [hs4, derefA_set_ne _ _ (Ne.symm hjh), derefA_set_ne _ _ (Ne.symm hjx),
            derefA_set_ne _ _ (Ne.symm hjx), derefA_set_ne _ _ (Ne.symm hjh)]
        have hllrep4 : IsRepr s4 xl ll psll :=
          hllrep.frame (fun j hj => dFother j (fun he => hnotll (he ▸ hj))
            (fun he => hx1 (he ▸ hj)))
        have hlrrep4 : IsRepr s4 xr lr pslr :=
          hlrrep.frame (fun j hj => dFother j (fun he => hnotlr (he ▸ hj))
            (fun he => hx2 (he ▸ hj)))
        have hrrep4 : IsRepr s4 pr r psr :=
          hrrep.frame (fun j hj => dFother j (fun he => hn2 (he ▸ hj))
            (fun he => hxnotr (he ▸ hj)))
        have inner : IsRepr s4 (some h) (Tree.node lr a Color.Red r)
            (h :: (pslr ++ psr)) :=
          IsRepr.node dFh hlrrep4 hrrep4 hnotlr hn2 hdisj_lr_r
        refine IsRepr.node dFx hllrep4 inner ?_ ?_ ?_
        · exact hx1
        · intro hmem
          rcases List.mem_cons.mp hmem with he | hmem
          · exact hne (he.symm)
          · rcases List.mem_append.mp hmem with hmem | hmem
            · exact hx2 hmem
            · exact hxnotr hmem
        · intro j hj hmem
          rcases List.mem_cons.mp hmem with rfl | hmem
          · exact hnotll hj
          · rcases List.mem_append.mp hmem with hmem | hmem
            · exact hdisj2 j hj hmem
            · exact hdisj_ll_r j hj hmem
      · have e1 : (x :: (psll ++ ((h :: (pslr ++ psr))))) =
            x :: (psll ++ h :: (pslr ++ psr)) := rfl
        rw [e1]
        have e2 : (h :: ((x :: (psll ++ pslr)) ++ psr)) =
            h :: x :: (psll ++ (pslr ++ psr)) := by
          simp [List.cons_append, List.append_assoc]
        rw [e2]
        refine List.Perm.trans (List.Perm.cons x List.perm_middle) ?_
        exact List.Perm.swap h x _
      · refine ⟨rfl, ?_, rfl, ?_⟩
        · simp only [setNodeA_length]
        · intro j hj
          have hjh : j ≠ h := fun he => hj (by rw [he]; exact List.mem_cons_self h _)
          have hjx : j ≠ x := fun he => hj (by
            rw [he]
            exact List.mem_cons_of_mem _
              (List.mem_append.mpr (Or.inl (List.mem_cons_self x _))))
          rw [derefA_set_ne _ _ (Ne.symm hjh), derefA_set_ne _ _ (Ne.symm hjx),
            derefA_set_ne _ _ (Ne.symm hjx), derefA_set_ne _ _ (Ne.symm hjh)]

theorem moveRedUpOrDownA_spec {α : Type} {s : BST α} {h : Nat}
    {ll lr rl rr : Tree α} {lb a rb : α} {lc c rc : Color} {ps : List Nat}
    (hrep : IsRepr s (some h)
      (Tree.node (Tree.node ll lb lc lr) a c (Tree.node rl rb rc rr)) ps) :
    ∃ s3, moveRedUpOrDownA s h = some s3 ∧
      IsRepr s3 (some h)
        (Tree.node (Tree.node ll lb lc.not lr) a c.not (Tree.node rl rb rc.not rr)) ps ∧
      SameOutside ps s s3 := by
  cases hrep with
  | node hderef hlrep hrrep hn1 hn2 hdisj =>
    rename_i pl pr psl psr
    cases hlrep with
    | node hlderef hllrep hlrrep hl1 hl2 hdisjl =>
      rename_i u ul ur psll pslr
      cases hrrep with
      | node hrderef hrlrep hrrrep hr1 hr2 hdisjr =>
        rename_i v vl vr psrl psrr
        have hhu : h ≠ u := fun he => hn1 (he ▸ List.mem_cons_self u _)
        have hhv : h ≠ v := fun he => hn2 (he ▸ List.mem_cons_self v _)
        have huv : u ≠ v := fun he =>
          hdisj u (List.mem_cons_self u _) (he ▸ List.mem_cons_self v _)
        have d1h : derefA (setNodeA s h (Node.mk a c.not (some u) (some v))) h
            = some (Node.mk a c.not (some u) (some v)) := derefA_set_self hderef
        have d1u : derefA (setNodeA s h (Node.mk a c.not (some u) (some v))) u
            = some (Node.mk lb lc ul ur) := by
          rw [derefA_set_ne _ _ hhu]; exact hlderef
        have d2h : derefA (setNodeA (setNodeA s h (Node.mk a c.not (some u) (some v))) u
            (Node.mk lb lc.not ul ur)) h = some (Node.mk a c.not (some u) (some v)) := by
          rw [derefA_set_ne _ _ (Ne.symm hhu)]; exact d1h
        have d2v : derefA (setNodeA (setNodeA s h (Node.mk a c.not (some u) (some v))) u
            (Node.mk lb lc.not ul ur)) v = some (Node.mk rb rc vl vr) := by
          rw [derefA_set_ne _ _ huv, derefA_set_ne _ _ hhv]; exact hrderef
        have hcomp : moveRedUpOrDownA s h = some
            (setNodeA (setNodeA (setNodeA s h (Node.mk a c.not (some u) (some v))) u
              (Node.mk lb lc.not ul ur)) v (Node.mk rb rc.not vl vr)) := by
          rw [moveRedUpOrDownA, hderef]
          simp only []
          rw [d1h]
          simp only []
          rw [d1u]
          simp only []
          rw [d2h]
          simp only []
          rw [d2v]
        refine ⟨_, hcomp, ?_, ?_⟩
        · set s3 := setNodeA (setNodeA (setNodeA s h
            (Node.mk a c.not (some u) (some v))) u
            (Node.mk lb lc.not ul ur)) v (Node.mk rb rc.not vl vr) with hs3
          have dFh : derefA s3 h = some (Node.mk a c.not (some u) (some v)) := by
            rw [hs3, derefA_set_ne _ _ (Ne.symm hhv)]
            exact d2h
          have dFu : derefA s3 u = some (Node.mk lb lc.not ul ur) := by
            rw [hs3, derefA_set_ne _ _ (Ne.symm huv)]
            exact derefA_set_self d1u
          have dFv : derefA s3 v = some (Node.mk rb rc.not vl vr) :=
            derefA_set_self d2v
          have dFother : ∀ j, j ≠ h → j ≠ u → j ≠ v → derefA s3 j = derefA s j := by
            intro j h1 h2 h3
            rw [hs3, derefA_set_ne _ _ (Ne.symm h3), derefA_set_ne _ _ (Ne.symm h2),
              derefA_set_ne _ _ (Ne.symm h1)]
          have hull : h ∉ psll := fun hj =>
            hn1 (List.mem_cons_of_mem _ (List.mem_append.mpr (Or.inl hj)))
          have hulr : h ∉ pslr := fun hj =>
            hn1 (List.mem_cons_of_mem _ (List.mem_append.mpr (Or.inr hj)))
          have hvrl : h ∉ psrl := fun hj =>
            hn2 (List.mem_cons_of_mem _ (List.mem_append.mpr (Or.inl hj)))
          have hvrr : h ∉ psrr := fun hj =>
            hn2 (List.mem_cons_of_mem _ (List.mem_append.mpr (Or.inr hj)))
          have hurl : u ∉ psrl := fun hj =>
            hdisj u (List.mem_cons_self u _)
              (List.mem_cons_of_mem _ (List.mem_append.mpr (Or.inl hj)))
          have hurr : u ∉ psrr := fun hj =>
            hdisj u (List.mem_cons_self u _)
              (List.mem_cons_of_mem _ (List.mem_append.mpr (Or.inr hj)))
          have hvll : v ∉ psll := fun hj =>
            hdisj v (List.mem_cons_of_mem _ (List.mem_append.mpr (Or.inl hj)))
              (List.mem_cons_self v _)
          have hvlr : v ∉ pslr := fun hj =>
            hdisj v (List.mem_cons_of_mem _ (List.mem_append.mpr (Or.inr hj)))
              (List.mem_cons_self v _)
          have hllrep3 : IsRepr s3 ul ll psll :=
            hllrep.frame (fun j hj => dFother j (fun he => hull (he ▸ hj))
              (fun he => hl1 (he ▸ hj)) (fun he => hvll (he ▸ hj)))
          have hlrrep3 : IsRepr s3 ur lr pslr :=
            hlrrep.frame (fun j hj => dFother j (fun he => hulr (he ▸ hj))
              (fun he => hl2 (he ▸ hj)) (fun he => hvlr (he ▸ hj)))
          have hrlrep3 : IsRepr s3 vl rl psrl :=
            hrlrep.frame (fun j hj => dFother j (fun he => hvrl (he ▸ hj))
              (fun he => hurl (he ▸ hj)) (fun he => hr1 (he ▸ hj)))
          have hrrrep3 : IsRepr s3 vr rr psrr :=
            hrrrep.frame (fun j hj => dFother j (fun he => hvrr (he ▸ hj))
              (fun he => hurr (he ▸ hj)) (fun he => hr2 (he ▸ hj)))
          exact IsRepr.node dFh
            (IsRepr.node dFu hllrep3 hlrrep3 hl1 hl2 hdisjl)
            (IsRepr.node dFv hrlrep3 hrrrep3 hr1 hr2 hdisjr)
            hn1 hn2 hdisj
        · refine ⟨rfl, ?_, rfl, ?_⟩
          · simp only [setNodeA_length]
          · intro j hj
            have hjh : j ≠ h := fun he => hj (by rw [he]; exact List.mem_cons_self h _)
            have hju : j ≠ u := fun he => hj (by
              rw [he]
              exact List.mem_cons_of_mem _
                (List.mem_append.mpr (Or.inl (List.mem_cons_self u _))))
            have hjv : j ≠ v := fun he => hj (by
              rw [he]
              exact List.mem_cons_of_mem _
                (List.mem_append.mpr (Or.inr (List.mem_cons_self v _))))
            rw [derefA_set_ne _ _ (Ne.symm hjv), derefA_set_ne _ _ (Ne.symm hju),
              derefA_set_ne _ _ (Ne.symm hjh)]

theorem isRedA_of_repr {α : Type} {s : BST α} {p : Option Nat} {t : Tree α}
    {ps : List Nat} (h : IsRepr s p t ps) : isRedA s p = some t.isRed := by
  cases h with
  | nil => rfl
  | @node i e co pl pr l r ps2 qs hd hl hr h1 h2 h3 =>
    rw [isRedA, hd]
    cases co <;> rfl

theorem SameOutside.comp {α : Type} {ps ps1 : List Nat} {s s1 s2 : BST α}
    (h1 : SameOutside ps s s1) (hperm : ps1.Perm ps) (h2 : SameOutside ps1 s1 s2) :
    SameOutside ps s s2 := by
  refine ⟨h2.1.trans h1.1, h2.2.1.trans h1.2.1, h2.2.2.1.trans h1.2.2.1, ?_⟩
  intro j hj
  rw [h2.2.2.2 j (fun hm => hj (hperm.mem_iff.mp hm)), h1.2.2.2 j hj]

theorem IsRepr.node_shape {α : Type} {s : BST α} {i : Nat} {t : Tree α}
    {ps : List Nat} (h : IsRepr s (some i) t ps) :
    ∃ l a c r, t = Tree.node l a c r := by
  cases h with
  | node hd hl hr h1 h2 h3 => exact ⟨_, _, _, _, rfl⟩

theorem sAnd_guard1 {α : Type} {s : BST α} {pl pr : Option Nat} {l r : Tree α}
    {psl psr : List Nat} (hl : IsRepr s pl l psl) (hr : IsRepr s pr r psr) :
    sAnd (isRedA s pr) (fun _ => (isRedA s pl).map (fun b => !b))
      = some (r.isRed && !l.isRed) := by
  rw [isRedA_of_repr hr]
  cases r.isRed
  · rfl
  · simp only [sAnd]
    rw [isRedA_of_repr hl]
    rfl

theorem sAnd_guard2 {α : Type} {s : BST α} {pl : Option Nat} {l : Tree α}
    {psl : List Nat} (hl : IsRepr s pl l psl) :
    sAnd (isRedA s pl)
        (fun _ =>
          match pl with
          | none => none
          | some lp =>
            match derefA s lp with
            | none => none
            | some ln => isRedA s ln.left)
      = some (l.isRed && l.lft.isRed) := by
  rw [isRedA_of_repr hl]
  cases hl1 : l.isRed
  · rfl
  · simp only [sAnd]
    cases hl with
    | nil => cases hl1
    | @node u e co ul ur l1 r1 psll pslr hlderef hllrep hlrrep h1 h2 h3 =>
      simp only []
      rw [hlderef]
      simp only []
      rw [isRedA_of_repr hllrep]
      rfl

theorem sAnd_guard3 {α : Type} {s : BST α} {pl pr : Option Nat} {l r : Tree α}
    {psl psr : List Nat} (hl : IsRepr s pl l psl) (hr : IsRepr s pr r psr) :
    sAnd (isRedA s pl) (fun _ => isRedA s pr) = some (l.isRed && r.isRed) := by
  rw [isRedA_of_repr hl]
  cases l.isRed
  · rfl
  · simp only [sAnd]
    rw [isRedA_of_repr hr]
    rfl

theorem fixupA_phase3 {α : Type} {s2 : BST α} {i2 : Nat} {t2 t' : Tree α}
    {ps2 : List Nat} (hrep2 : IsRepr s2 (some i2) t2 ps2)
    (hfx : (if (t2.lft.isRed && t2.rgt.isRed) = true then flipT t2 else some t2)
      = some t') :
    ∃ i3 s3 ps3,
      (match derefA s2 i2 with
       | none => none
       | some n2 =>
         match sAnd (isRedA s2 n2.left) (fun _ => isRedA s2 n2.right) with
         | none => none
         | some c3 =>
           if c3 = true then
             match moveRedUpOrDownA s2 i2 with
             | none => none
             | some s3 => some (s3, i2)
           else some (s2, i2)) = some (s3, i3) ∧
      IsRepr s3 (some i3) t' ps3 ∧ ps3.Perm ps2 ∧ SameOutside ps2 s2 s3 := by
  obtain ⟨l, a, c, r, rfl⟩ := hrep2.node_shape
  simp only [lft_node, rgt_node] at hfx
  cases hrep2 with
  | @node i2 a c pl pr l r psl psr hderef hlrep hrrep hn1 hn2 hdisj =>
    simp only [hderef]
    rw [sAnd_guard3 hlrep hrrep]
    simp only []
    cases hg3 : (l.isRed && r.isRed) with
    | false =>
      rw [if_false_bool]
      simp only [hg3, if_false_bool] at hfx
      injection hfx with hfx
      subst hfx
      exact ⟨i2, s2, _, rfl, IsRepr.node hderef hlrep hrrep hn1 hn2 hdisj,
        List.Perm.refl _, SameOutside.refl _ _⟩
    | true =>
      rw [if_true_bool]
      simp only [hg3, if_true_bool] at hfx
      have hlr : l.isRed = true := by revert hg3; cases l.isRed <;> simp
      have hrr : r.isRed = true := by revert hg3; cases r.isRed <;> simp
      rcases isRed_iff.mp hlr with ⟨ll, lb, lr, rfl⟩
      rcases isRed_iff.mp hrr with ⟨rl, rb, rr, rfl⟩
      rw [flipT] at hfx
      injection hfx with hfx
      subst hfx
      obtain ⟨s3, hcomp3, hrep3, hout3⟩ := moveRedUpOrDownA_spec
        (IsRepr.node hderef hlrep hrrep hn1 hn2 hdisj)
      rw [hcomp3]
      exact ⟨i2, s3, _, rfl, hrep3, List.Perm.refl _, hout3⟩

theorem fixupA_phase23 {α : Type} {s1 : BST α} {i1 : Nat} {t1 t' : Tree α}
    {ps1 : List Nat} (hrep1 : IsRepr s1 (some i1) t1 ps1)
    (hfx : (match (if (t1.lft.isRed && t1.lft.lft.isRed) = true
              then rotrT t1 else some t1) with
            | none => none
            | some t2 =>
              if (t2.lft.isRed && t2.rgt.isRed) = true then flipT t2 else some t2)
      = some t') :
    ∃ i2 s2 ps2,
      (match derefA s1 i1 with
       | none => none
       | some n1 =>
         match sAnd (isRedA s1 n1.left)
             (fun _ =>
               match n1.left with
               | none => none
               | some lp =>
                 match derefA s1 lp with
                 | none => none
                 | some ln => isRedA s1 ln.left) with
         | none => none
         | some c2 =>
           match (if c2 = true then rotateRightA s1 i1 else some (s1, i1)) with
           | none => none
           | some (s2, node2) =>
             match derefA s2 node2 with
             | none => none
             | some n2 =>
               match sAnd (isRedA s2 n2.left) (fun _ => isRedA s2 n2.right) with
               | none => none
               | some c3 =>
                 if c3 = true then
                   match moveRedUpOrDownA s2 node2 with
                   | none => none
                   | some s3 => some (s3, node2)
                 else some (s2, node2)) = some (s2, i2) ∧
      IsRepr s2 (some i2) t' ps2 ∧ ps2.Perm ps1 ∧ SameOutside ps1 s1 s2 := by
  obtain ⟨l1, a1, c1, r1, rfl⟩ := hrep1.node_shape
  simp only [lft_node] at hfx
  cases hrep1 with
  | @node i1 a1 c1 pl pr l1 r1 psl psr hderef hlrep hrrep hn1 hn2 hdisj =>
    simp only [hderef]
    cases hlrep with
    | nil =>
      simp only []
      rw [show isRedA s1 (none : Option Nat) = some false from rfl]
      simp only [sAnd]
      rw [if_false_bool]
      simp only []
      simp only [isRed_nil, lft_nil, Bool.false_and, if_false_bool] at hfx
      exact fixupA_phase3 (IsRepr.node hderef IsRepr.nil hrrep hn1 hn2 hdisj) hfx
    | @node u e0 co0 ul ur l0 r0 psll pslr hlderef hllrep hlrrep hq1 hq2 hq3 =>
      simp only []
      simp only [hlderef]
      rw [sAnd_guard3 (IsRepr.node hlderef hllrep hlrrep hq1 hq2 hq3) hllrep]
      simp only []
      simp only [lft_node] at hfx
      cases hg2 : ((Tree.node l0 e0 co0 r0).isRed && l0.isRed) with
      | false =>
        rw [if_false_bool]
        simp only []
        simp only [hg2, if_false_bool] at hfx
        exact fixupA_phase3
          (IsRepr.node hderef (IsRepr.node hlderef hllrep hlrrep hq1 hq2 hq3)
            hrrep hn1 hn2 hdisj) hfx
      | true =>
        rw [if_true_bool]
        simp only [hg2, if_true_bool] at hfx
        have hco : co0 = Color.Red := by
          revert hg2
          cases co0 <;> simp
        subst hco
        have hl0r : l0.isRed = true := by revert hg2; cases l0.isRed <;> simp
        rcases isRed_iff.mp hl0r with ⟨q0, qb, q1, rfl⟩
        obtain ⟨x2, s2, ps2, hcomp2, hrep2, hperm2, hout2⟩ := rotateRightA_spec
          (IsRepr.node hderef (IsRepr.node hlderef hllrep hlrrep hq1 hq2 hq3)
            hrrep hn1 hn2 hdisj)
        rw [hcomp2]
        simp only []
        simp only [rotrT] at hfx
        obtain ⟨i3, s3, ps3, heq3, hrep3, hperm3, hout3⟩ := fixupA_phase3 hrep2 hfx
        refine ⟨i3, s3, ps3, ?_, hrep3, hperm3.trans hperm2,
          SameOutside.comp hout2 hperm2 hout3⟩
        exact heq3

theorem fixupA_spec {α : Type} {s : BST α} {i : Nat} {t t' : Tree α} {ps : List Nat}
    (hrep : IsRepr s (some i) t ps) (hfix : fixupT t = some t') :
    ∃ i2 s2 ps2, fixupA s i = some (s2, i2) ∧ IsRepr s2 (some i2) t' ps2 ∧
      ps2.Perm ps ∧ SameOutside ps s s2 := by
  obtain ⟨l, a, c, r, rfl⟩ := hrep.node_shape
  rw [fixupT] at hfix
  simp only [lft_node, rgt_node] at hfix
  cases hrep with
  | @node i a c pl pr l r psl psr hderef hlrep hrrep hn1 hn2 hdisj =>
    rw [fixupA, hderef]
    simp only []
    rw [sAnd_guard1 hlrep hrrep]
    simp only []
    cases hg1 : (r.isRed && !l.isRed) with
    | false =>
      rw [if_false_bool]
      simp only []
      simp only [hg1, if_false_bool] at hfix
      exact fixupA_phase23 (IsRepr.node hderef hlrep hrrep hn1 hn2 hdisj) hfix
    | true =>
      rw [if_true_bool]
      simp only [hg1, if_true_bool] at hfix
      have hrr1 : r.isRed = true := by revert hg1; cases r.isRed <;> simp
      rcases isRed_iff.mp hrr1 with ⟨rl, rb, rr, rfl⟩
      obtain ⟨x1, s1, ps1, hcomp1, hrep1, hperm1, hout1⟩ := rotateLeftA_spec
        (IsRepr.node hderef hlrep hrrep hn1 hn2 hdisj)
      rw [hcomp1]
      simp only []
      simp only [rotlT] at hfix
      obtain ⟨i2, s2, ps2, heq2, hrep2, hperm2, hout2⟩ := fixupA_phase23 hrep1 hfix
      refine ⟨i2, s2, ps2, ?_, hrep2, hperm2.trans hperm1,
        SameOutside.comp hout1 hperm1 hout2⟩
      exact heq2

theorem IsRepr.node_inv {α : Type} {s : BST α} {i : Nat} {l r : Tree α} {a : α}
    {c : Color} {ps : List Nat} (h : IsRepr s (some i) (Tree.node l a c r) ps) :
    ∃ pl pr psl psr, derefA s i = some (Node.mk a c pl pr) ∧ IsRepr s pl l psl ∧
      IsRepr s pr r psr ∧ i ∉ psl ∧ i ∉ psr ∧ (∀ j ∈ psl, j ∉ psr) ∧
      ps = i :: (psl ++ psr) := by
  cases h with
  | node hd hl hr h1 h2 h3 => exact ⟨_, _, _, _, hd, hl, hr, h1, h2, h3, rfl⟩

theorem IsRepr.node_inv2 {α : Type} {s : BST α} {p : Option Nat} {l r : Tree α}
    {a : α} {c : Color} {ps : List Nat} (h : IsRepr s p (Tree.node l a c r) ps) :
    ∃ i pl pr psl psr, p = some i ∧ derefA s i = some (Node.mk a c pl pr) ∧
      IsRepr s pl l psl ∧ IsRepr s pr r psr ∧ i ∉ psl ∧ i ∉ psr ∧
      (∀ j ∈ psl, j ∉ psr) ∧ ps = i :: (psl ++ psr) := by
  cases h with
  | node hd hl hr h1 h2 h3 => exact ⟨_, _, _, _, _, rfl, hd, hl, hr, h1, h2, h3, rfl⟩

theorem SameOutside.mono {α : Type} {ps qs : List Nat} {s s2 : BST α}
    (h : SameOutside qs s s2) (hsub : ∀ j, j ∉ ps → j ∉ qs) : SameOutside ps s s2 :=
  ⟨h.1, h.2.1, h.2.2.1, fun j hj => h.2.2.2 j (hsub j hj)⟩

theorem SameOutside.step {α : Type} {ps : List Nat} {s s2 s3 : BST α}
    (h1 : SameOutside ps s s2) (h2 : SameOutside ps s2 s3) : SameOutside ps s s3 :=
  ⟨h2.1.trans h1.1, h2.2.1.trans h1.2.1, h2.2.2.1.trans h1.2.2.1,
    fun j hj => (h2.2.2.2 j hj).trans (h1.2.2.2 j hj)⟩

theorem setNodeA_sameOutside {α : Type} {ps : List Nat} {s : BST α} {i : Nat}
    (n : Node α) (hi : i ∈ ps) : SameOutside ps s (setNodeA s i n) :=
  ⟨rfl, setNodeA_length s i n, rfl, fun j hj =>
    derefA_set_ne s n (fun he => hj (he ▸ hi))⟩

theorem moveRedLeftA_spec {α : Type} {s : BST α} {h : Nat} {t t' : Tree α}
    {ps : List Nat} (hrep : IsRepr s (some h) t ps)
    (hmrl : moveRedLeftT t = some t') :
    ∃ h1 s1 ps1, moveRedLeftA s h = some (s1, h1) ∧ IsRepr s1 (some h1) t' ps1 ∧
      ps1.Perm ps ∧ SameOutside ps s s1 := by
  obtain ⟨l, a, c, r, rfl⟩ := hrep.node_shape
  rcases l with _ | ⟨ll, lb, lc, lr⟩
  · rcases r with _ | ⟨rl, rb, rc, rr⟩
    · exact Option.noConfusion hmrl
    · exact Option.noConfusion hmrl
  rcases r with _ | ⟨rl, rb, rc, rr⟩
  · exact Option.noConfusion hmrl
  rw [moveRedLeftT, flipT] at hmrl
  simp only [] at hmrl
  cases hrep with
  | @node h a c pl pr L R psl psr hderef hlrep hrrep hn1 hn2 hdisj =>
    obtain ⟨s1, hflip1, hrep1, hout1⟩ := moveRedUpOrDownA_spec
      (IsRepr.node hderef hlrep hrrep hn1 hn2 hdisj)
    obtain ⟨pl1, pr1, psl1, psr1, hderef1, hlrep1, hrrep1, hm1, hm2, hmdisj, hps1⟩ :=
      hrep1.node_inv
    rw [moveRedLeftA]
    simp only [hflip1]
    simp only [hderef1]
    obtain ⟨v, pvl, pvr, psrl, psrr, rfl, hvderef, hvlrep, hvrrep, hv1, hv2, hvdisj,
      hpsr1⟩ := hrrep1.node_inv2
    simp only []
    simp only [hvderef]
    simp only [isRedA_of_repr hvlrep]
    have hhv : h ∉ (v :: (psrl ++ psrr)) := by rw [← hpsr1]; exact hm2
    cases hrl : rl.isRed with
    | false =>
      rw [if_false_bool]
      simp only [hrl, if_false_bool] at hmrl
      injection hmrl with hmrl
      subst hmrl
      exact ⟨h, s1, h :: (psl ++ psr), rfl, hrep1, List.Perm.refl _, hout1⟩
    | true =>
      rw [if_true_bool]
      simp only [hrl, if_true_bool] at hmrl
      rcases isRed_iff.mp hrl with ⟨q0, qa, q1, rfl⟩
      simp only [rotrT] at hmrl
      simp only [rotlT] at hmrl
      rw [flipT] at hmrl
      injection hmrl with hmrl
      subst hmrl
      obtain ⟨x2, s2, ps2, hcomp2, hrep2, hperm2, hout2⟩ := rotateRightA_spec
        (IsRepr.node hvderef hvlrep hvrrep hv1 hv2 hvdisj)
      simp only [hcomp2]
      have hd2 : derefA s2 h = some (Node.mk a c.not pl1 (some v)) := by
        rw [hout2.2.2.2 h hhv]; exact hderef1
      simp only [hd2]
      have hps2h : h ∉ ps2 := fun hm => hhv (hperm2.mem_iff.mp hm)
      have hlrep2 : IsRepr s2 pl1 (Tree.node ll lb lc.not lr) psl1 := by
        refine hlrep1.frame ?_
        intro j hj
        refine hout2.2.2.2 j ?_
        intro hm
        exact hmdisj j hj (by rw [hpsr1]; exact hm)
      have hl3 : IsRepr (setNodeA s2 h (Node.mk a c.not pl1 (some x2))) pl1
          (Tree.node ll lb lc.not lr) psl1 := by
        refine hlrep2.frame ?_
        intro j hj
        refine derefA_set_ne s2 _ ?_
        intro he
        exact hm1 (by rw [he]; exact hj)
      have hr3 : IsRepr (setNodeA s2 h (Node.mk a c.not pl1 (some x2))) (some x2)
          (Tree.node q0 qa rc.not (Tree.node q1 rb Color.Red rr)) ps2 := by
        refine hrep2.frame ?_
        intro j hj
        refine derefA_set_ne s2 _ ?_
        intro he
        exact hps2h (by rw [he]; exact hj)
      have hdisj3 : ∀ j ∈ psl1, j ∉ ps2 := by
        intro j hj hm
        exact hmdisj j hj (by rw [hpsr1]; exact hperm2.mem_iff.mp hm)
      have hrep3 : IsRepr (setNodeA s2 h (Node.mk a c.not pl1 (some x2))) (some h)
          (Tree.node (Tree.node ll lb lc.not lr) a c.not
            (Tree.node q0 qa rc.not (Tree.node q1 rb Color.Red rr)))
          (h :: (psl1 ++ ps2)) :=
        IsRepr.node (derefA_set_self hd2) hl3 hr3 hm1 hps2h hdisj3
      obtain ⟨h1, s4, ps4, hcomp4, hrep4, hperm4, hout4⟩ := rotateLeftA_spec hrep3
      simp only [hcomp4]
      obtain ⟨s5, hcomp5, hrep5, hout5⟩ := moveRedUpOrDownA_spec hrep4
      simp only [hcomp5]
      refine ⟨h1, s5, ps4, rfl, hrep5, ?_, ?_⟩
      · refine hperm4.trans ?_
        rw [hps1, hpsr1]
        exact List.Perm.cons h (List.Perm.append_left psl1 hperm2)
      · have hsubR : ∀ j, j ∉ (h :: (psl ++ psr)) → j ∉ (v :: (psrl ++ psrr)) := by
          intro j hj hm
          apply hj
          rw [hps1]
          exact List.mem_cons_of_mem h
            (List.mem_append_right psl1 (by rw [hpsr1]; exact hm))
        have hsubD : ∀ j, j ∉ (h :: (psl ++ psr)) → j ∉ (h :: (psl1 ++ ps2)) := by
          intro j hj hm
          rcases List.mem_cons.mp hm with rfl | hm2
          · exact hj (List.mem_cons_self _ _)
          rcases List.mem_append.mp hm2 with hm3 | hm3
          · apply hj
            rw [hps1]
            exact List.mem_cons_of_mem h (List.mem_append_left psr1 hm3)
          · exact hsubR j hj (hperm2.mem_iff.mp hm3)
        have hsubE : ∀ j, j ∉ (h :: (psl ++ psr)) → j ∉ ps4 := fun j hj hm =>
          hsubD j hj (hperm4.mem_iff.mp hm)
        refine hout1.step ?_
        refine SameOutside.step (hout2.mono hsubR) ?_
        refine SameOutside.step
          (setNodeA_sameOutside (Node.mk a c.not pl1 (some x2))
            (List.mem_cons_self _ _)) ?_
        exact SameOutside.step (hout4.mono hsubD) (hout5.mono hsubE)

theorem IsRepr.length_le {α : Type} {s : BST α} {p : Option Nat} {t : Tree α}
    {ps : List Nat} (h : IsRepr s p t ps) : ps.length ≤ s.nodes.length := by
  have hsub : ps ⊆ List.range s.nodes.length := by
    intro j hj
    rcases Option.isSome_iff_exists.mp (h.mem_isSome j hj) with ⟨n1, hn1⟩
    exact List.mem_range.mpr (derefA_lt_length hn1)
  have hsp := List.subperm_of_subset h.nodup hsub
  have hle := hsp.length_le
  simpa using hle

theorem IsRepr.size_le {α : Type} {s : BST α} {p : Option Nat} {t : Tree α}
    {ps : List Nat} (h : IsRepr s p t ps) : t.size ≤ s.nodes.length := by
  rw [← h.length_eq]
  exact h.length_le

theorem IsRepr.not_mem_of_dead {α : Type} {s : BST α} {p : Option Nat} {t : Tree α}
    {ps : List Nat} (h : IsRepr s p t ps) {d : Nat} (hdead : derefA s d = none) :
    d ∉ ps := by
  intro hm
  rcases Option.isSome_iff_exists.mp (h.mem_isSome d hm) with ⟨n1, hn1⟩
  rw [hdead] at hn1
  cases hn1

theorem IsRepr.not_mem_of_ge {α : Type} {s : BST α} {p : Option Nat} {t : Tree α}
    {ps : List Nat} (h : IsRepr s p t ps) {d : Nat} (hge : s.nodes.length ≤ d) :
    d ∉ ps := by
  intro hm
  rcases Option.isSome_iff_exists.mp (h.mem_isSome d hm) with ⟨n1, hn1⟩
  exact absurd (derefA_lt_length hn1) (Nat.not_lt.mpr hge)

theorem derefA_append_self {α : Type} (s : BST α) (x : Node α) :
    derefA { s with nodes := s.nodes ++ [some x] } s.nodes.length = some x := by
  rw [derefA]
  rw [show ({ s with nodes := s.nodes ++ [some x] } : BST α).nodes
    = s.nodes ++ [some x] from rfl]
  rw [List.getElem?_concat_length]
  rfl

theorem derefA_append_ne {α : Type} (s : BST α) (x : Option (Node α)) {j : Nat}
    (hj : j ≠ s.nodes.length) :
    derefA { s with nodes := s.nodes ++ [x] } j = derefA s j := by
  rw [derefA, derefA]
  rw [show ({ s with nodes := s.nodes ++ [x] } : BST α).nodes
    = s.nodes ++ [x] from rfl]
  rcases Nat.lt_or_ge j s.nodes.length with hlt | hge
  · rw [List.getElem?_append_left hlt]
  · have hgt : s.nodes.length < j := lt_of_le_of_ne hge (Ne.symm hj)
    rw [List.getElem?_eq_none (l := s.nodes ++ [x]), List.getElem?_eq_none hge]
    rw [List.length_append, List.length_singleton]
    omega

theorem derefA_set_self_lt {α : Type} (s : BST α) {i : Nat} (n : Node α)
    (h : i < s.nodes.length) : derefA (setNodeA s i n) i = some n := by
  rw [derefA, setNodeA]
  rw [show ({ s with nodes := s.nodes.set i (some n) } : BST α).nodes
    = s.nodes.set i (some n) from rfl]
  rw [List.getElem?_set_self h]
  rfl

theorem derefA_of_nodes {α : Type} (s s2 : BST α) (h : s2.nodes = s.nodes) (j : Nat) :
    derefA s2 j = derefA s j := by
  rw [derefA, derefA, h]

theorem memberImplA_spec {α : Type} [LinearOrder α] {s : BST α} {p : Option Nat}
    {t : Tree α} {ps : List Nat} (hrep : IsRepr s p t ps) (e : α) :
    ∀ fuel, t.size < fuel → memberImplA fuel s p e = some (memberT t e) := by
  induction hrep with
  | nil =>
    intro fuel hf
    cases fuel with
    | zero => exact absurd hf (Nat.not_lt_zero _)
    | succ f => rfl
  | @node i a co pl pr l r psl psr hd hl hr h1 h2 h3 ihl ihr =>
    intro fuel hf
    cases fuel with
    | zero => exact absurd hf (Nat.not_lt_zero _)
    | succ f =>
      rw [memberImplA.eq_def]
      simp only []
      simp only [hd]
      rw [memberT]
      cases hc : compare a e with
      | lt =>
        simp only []
        apply ihr
        simp only [size_node] at hf
        omega
      | gt =>
        simp only []
        apply ihl
        simp only [size_node] at hf
        omega
      | eq => rfl

theorem insertImplA_spec {α : Type} [LinearOrder α] {s : BST α} {p : Option Nat}
    {t : Tree α} {ps : List Nat} (e : α) (hrep : IsRepr s p t ps)
    (hfree : ∀ d ∈ s.deleted_indices, d < s.nodes.length ∧ derefA s d = none) :
    ∀ t' fuel, insertT t e = some t' → t.size < fuel →
    ∃ nr s1 ps1, insertImplA fuel s p e = some (s1, nr) ∧
      IsRepr s1 (some nr) t' ps1 ∧ s1.root = s.root ∧
      ((memberT t e = true ∧ ps1.Perm ps ∧ s1.nodes.length = s.nodes.length ∧
          s1.deleted_indices = s.deleted_indices ∧
          ∀ j, j ∉ ps → derefA s1 j = derefA s j) ∨
        (memberT t e = false ∧ ∃ d, d ∉ ps ∧ ps1.Perm (d :: ps) ∧
          (∀ j, j ∉ d :: ps → derefA s1 j = derefA s j) ∧
          ((s.deleted_indices = d :: s1.deleted_indices ∧
              s1.nodes.length = s.nodes.length ∧ derefA s d = none) ∨
            (s1.deleted_indices = s.deleted_indices ∧ d = s.nodes.length ∧
              s1.nodes.length = s.nodes.length + 1)))) := by
  induction hrep with
  | nil =>
    intro t' fuel hins hf
    cases fuel with
    | zero => exact absurd hf (Nat.not_lt_zero _)
    | succ f =>
      rw [insertT] at hins
      injection hins with hins
      subst hins
      rw [insertImplA.eq_def]
      simp only []
      cases hdel : s.deleted_indices with
      | nil =>
        simp only []
        refine ⟨s.nodes.length, _, s.nodes.length :: ([] ++ []), rfl,
          IsRepr.node (derefA_append_self s (Node.mk e Color.Red none none))
            IsRepr.nil IsRepr.nil (List.not_mem_nil _) (List.not_mem_nil _)
            (fun j hj => absurd hj (List.not_mem_nil _)),
          rfl, Or.inr ⟨rfl, s.nodes.length, List.not_mem_nil _, List.Perm.refl _,
            ?_, Or.inr ⟨rfl, rfl, ?_⟩⟩⟩
        · intro j hj
          refine derefA_append_ne s _ ?_
          intro he
          exact hj (by rw [he]; exact List.mem_cons_self _ _)
        · show (s.nodes ++ [some (Node.mk e Color.Red none none)]).length
            = s.nodes.length + 1
          rw [List.length_append, List.length_singleton]
      | cons d rest =>
        obtain ⟨hdlt, hdnone⟩ := hfree d (by rw [hdel]; exact List.mem_cons_self _ _)
        simp only []
        rw [if_pos hdlt]
        refine ⟨d, _, d :: ([] ++ []), rfl,
          IsRepr.node ?_ IsRepr.nil IsRepr.nil (List.not_mem_nil _)
            (List.not_mem_nil _) (fun j hj => absurd hj (List.not_mem_nil _)),
          rfl, Or.inr ⟨rfl, d, List.not_mem_nil _, List.Perm.refl _, ?_,
            Or.inl ⟨rfl, ?_, hdnone⟩⟩⟩
        · exact derefA_set_self_lt s _ hdlt
        · intro j hj
          refine derefA_set_ne s (Node.mk e Color.Red none none) ?_
          intro he
          exact hj (by rw [he]; exact List.mem_cons_self _ _)
        · show (s.nodes.set d (some (Node.mk e Color.Red none none))).length
            = s.nodes.length
          exact List.length_set s.nodes d _
  | @node i a co pl pr l r psl psr hd hl hr h1 h2 h3 ihl ihr =>
    intro t' fuel hins hf
    cases fuel with
    | zero => exact absurd hf (Nat.not_lt_zero _)
    | succ f =>
      have hfl : l.size < f := by simp only [size_node] at hf; omega
      have hfr : r.size < f := by simp only [size_node] at hf; omega
      rw [insertT] at hins
      rw [insertImplA.eq_def]
      simp only []
      simp only [hd]
      rw [memberT]
      cases hc : compare a e with
      | lt =>
        simp only [hc] at hins
        simp only []
        cases hri : insertT r e with
        | none =>
          rw [hri] at hins
          exact Option.noConfusion hins
        | some r1 =>
          simp only [hri] at hins
          obtain ⟨nr, s1, ps1r, hcall, hrep1, hroot1, hpost⟩ := ihr r1 f hri hfr
          simp only [hcall]
          rcases hpost with ⟨hmem, hperm1, hlen1, hdel1, hout1⟩ |
            ⟨hmem, d, hdns, hperm1, hout1, halloc⟩
          · -- duplicate in the right subtree
            have hi1 : derefA s1 i = some (Node.mk a co pl pr) := by
              rw [hout1 i h2]; exact hd
            simp only [hi1]
            have hinr : i ∉ ps1r := fun hm => h2 (hperm1.mem_iff.mp hm)
            have hl2 : IsRepr (setNodeA s1 i (Node.mk a co pl (some nr))) pl l psl := by
              have hlmid : IsRepr s1 pl l psl :=
                hl.frame (fun j hj => hout1 j (fun hm => h3 j hj hm))
              refine hlmid.frame ?_
              intro j hj
              exact derefA_set_ne s1 _ (fun he => h1 (by rw [he]; exact hj))
            have hr2 : IsRepr (setNodeA s1 i (Node.mk a co pl (some nr)))
                (some nr) r1 ps1r := by
              refine hrep1.frame ?_
              intro j hj
              exact derefA_set_ne s1 _ (fun he => hinr (by rw [he]; exact hj))
            have hdisj2 : ∀ j ∈ psl, j ∉ ps1r := fun j hj hm =>
              h3 j hj (hperm1.mem_iff.mp hm)
            obtain ⟨i3, s3, ps3, hcomp3, hrep3, hperm3, hout3⟩ := fixupA_spec
              (IsRepr.node (derefA_set_self hi1) hl2 hr2 h1 hinr hdisj2) hins
            refine ⟨i3, s3, ps3, hcomp3, hrep3, ?_, Or.inl ⟨hmem, ?_, ?_, ?_, ?_⟩⟩
            · exact hout3.1.trans hroot1
            · exact hperm3.trans (List.Perm.cons i (List.Perm.append_left psl hperm1))
            · exact (hout3.2.1.trans (setNodeA_length s1 i _)).trans hlen1
            · exact (hout3.2.2.1.trans (setNodeA_deleted s1 i _)).trans hdel1
            · intro j hj
              simp only [List.mem_cons, List.mem_append, not_or] at hj
              have hj3 : j ∉ i :: (psl ++ ps1r) := by
                simp only [List.mem_cons, List.mem_append, not_or]
                exact ⟨hj.1, hj.2.1, fun hm => hj.2.2 (hperm1.mem_iff.mp hm)⟩
              rw [hout3.2.2.2 j hj3]
              rw [derefA_set_ne s1 _ (fun he => hj.1 he.symm)]
              exact hout1 j hj.2.2
          · -- new element allocated in the right subtree
            have hid : i ≠ d := by
              rcases halloc with ⟨_, _, hdnone⟩ | ⟨_, hdlen, _⟩
              · intro he
                rw [he, hdnone] at hd
                cases hd
              · intro he
                have hlt := derefA_lt_length hd
                omega
            have hdpsl : d ∉ psl := by
              rcases halloc with ⟨_, _, hdnone⟩ | ⟨_, hdlen, _⟩
              · exact hl.not_mem_of_dead hdnone
              · exact hl.not_mem_of_ge (by omega)
            have hinotd : i ∉ d :: psr := by
              intro hm
              rcases List.mem_cons.mp hm with he | hm2
              · exact hid he
              · exact h2 hm2
            have hi1 : derefA s1 i = some (Node.mk a co pl pr) := by
              rw [hout1 i hinotd]; exact hd
            simp only [hi1]
            have hinr : i ∉ ps1r := by
              intro hm
              exact hinotd (hperm1.mem_iff.mp hm)
            have hl2 : IsRepr (setNodeA s1 i (Node.mk a co pl (some nr))) pl l psl := by
              have hlmid : IsRepr s1 pl l psl := by
                refine hl.frame ?_
                intro j hj
                refine hout1 j ?_
                intro hm
                rcases List.mem_cons.mp hm with he | hm2
                · exact hdpsl (he ▸ hj)
                · exact h3 j hj hm2
              refine hlmid.frame ?_
              intro j hj
              exact derefA_set_ne s1 _ (fun he => h1 (by rw [he]; exact hj))
            have hr2 : IsRepr (setNodeA s1 i (Node.mk a co pl (some nr)))
                (some nr) r1 ps1r := by
              refine hrep1.frame ?_
              intro j hj
              exact derefA_set_ne s1 _ (fun he => hinr (by rw [he]; exact hj))
            have hdisj2 : ∀ j ∈ psl, j ∉ ps1r := by
              intro j hj hm
              rcases List.mem_cons.mp (hperm1.mem_iff.mp hm) with he | hm2
              · exact hdpsl (he ▸ hj)
              · exact h3 j hj hm2
            obtain ⟨i3, s3, ps3, hcomp3, hrep3, hperm3, hout3⟩ := fixupA_spec
              (IsRepr.node (derefA_set_self hi1) hl2 hr2 h1 hinr hdisj2) hins
            refine ⟨i3, s3, ps3, hcomp3, hrep3, ?_,
              Or.inr ⟨hmem, d, ?_, ?_, ?_, ?_⟩⟩
            · exact hout3.1.trans hroot1
            · simp only [List.mem_cons, List.mem_append, not_or]
              exact ⟨fun he => hid he.symm, hdpsl, hdns⟩
            · refine hperm3.trans ?_
              refine (List.Perm.cons i (List.Perm.append_left psl hperm1)).trans ?_
              exact (List.Perm.cons i List.perm_middle).trans (List.Perm.swap d i _)
            · intro j hj
              simp only [List.mem_cons, List.mem_append, not_or] at hj
              have hj3 : j ∉ i :: (psl ++ ps1r) := by
                simp only [List.mem_cons, List.mem_append, not_or]
                refine ⟨hj.2.1, hj.2.2.1, fun hm => ?_⟩
                rcases List.mem_cons.mp (hperm1.mem_iff.mp hm) with he | hm2
                · exact hj.1 he
                · exact hj.2.2.2 hm2
              rw [hout3.2.2.2 j hj3]
              rw [derefA_set_ne s1 _ (fun he => hj.2.1 he.symm)]
              refine hout1 j ?_
              intro hm
              rcases List.mem_cons.mp hm with he | hm2
              · exact hj.1 he
              · exact hj.2.2.2 hm2
            · have hdel3 : s3.deleted_indices = s1.deleted_indices :=
                hout3.2.2.1.trans (setNodeA_deleted s1 i _)
              have hlen3 : s3.nodes.length = s1.nodes.length :=
                hout3.2.1.trans (setNodeA_length s1 i _)
              rcases halloc with ⟨hdel1, hlen1, hdnone⟩ | ⟨hdel1, hdlen, hlen1⟩
              · exact Or.inl ⟨by rw [hdel1, hdel3], hlen3.trans hlen1, hdnone⟩
              · exact Or.inr ⟨hdel3.trans hdel1, hdlen, hlen3.trans hlen1⟩
      | gt =>
        simp only [hc] at hins
        simp only []
        cases hli : insertT l e with
        | none =>
          rw [hli] at hins
          exact Option.noConfusion hins
        | some l1 =>
          simp only [hli] at hins
          obtain ⟨nl, s1, ps1l, hcall, hrep1, hroot1, hpost⟩ := ihl l1 f hli hfl
          simp only [hcall]
          rcases hpost with ⟨hmem, hperm1, hlen1, hdel1, hout1⟩ |
            ⟨hmem, d, hdns, hperm1, hout1, halloc⟩
          · -- duplicate in the left subtree
            have hi1 : derefA s1 i = some (Node.mk a co pl pr) := by
              rw [hout1 i h1]; exact hd
            simp only [hi1]
            have hinl : i ∉ ps1l := fun hm => h1 (hperm1.mem_iff.mp hm)
            have hl2 : IsRepr (setNodeA s1 i (Node.mk a co (some nl) pr))
                (some nl) l1 ps1l := by
              refine hrep1.frame ?_
              intro j hj
              exact derefA_set_ne s1 _ (fun he => hinl (by rw [he]; exact hj))
            have hr2 : IsRepr (setNodeA s1 i (Node.mk a co (some nl) pr)) pr r psr := by
              have hrmid : IsRepr s1 pr r psr :=
                hr.frame (fun j hj => hout1 j (fun hm => h3 j hm hj))
              refine hrmid.frame ?_
              intro j hj
              exact derefA_set_ne s1 _ (fun he => h2 (by rw [he]; exact hj))
            have hdisj2 : ∀ j ∈ ps1l, j ∉ psr := fun j hj hm =>
              h3 j (hperm1.mem_iff.mp hj) hm
            obtain ⟨i3, s3, ps3, hcomp3, hrep3, hperm3, hout3⟩ := fixupA_spec
              (IsRepr.node (derefA_set_self hi1) hl2 hr2 hinl h2 hdisj2) hins
            refine ⟨i3, s3, ps3, hcomp3, hrep3, ?_, Or.inl ⟨hmem, ?_, ?_, ?_, ?_⟩⟩
            · exact hout3.1.trans hroot1
            · exact hperm3.trans (List.Perm.cons i (List.Perm.append_right psr hperm1))
            · exact (hout3.2.1.trans (setNodeA_length s1 i _)).trans hlen1
            · exact (hout3.2.2.1.trans (setNodeA_deleted s1 i _)).trans hdel1
            · intro j hj
              simp only [List.mem_cons, List.mem_append, not_or] at hj
              have hj3 : j ∉ i :: (ps1l ++ psr) := by
                simp only [List.mem_cons, List.mem_append, not_or]
                exact ⟨hj.1, fun hm => hj.2.1 (hperm1.mem_iff.mp hm), hj.2.2⟩
              rw [hout3.2.2.2 j hj3]
              rw [derefA_set_ne s1 _ (fun he => hj.1 he.symm)]
              exact hout1 j hj.2.1
          · -- new element allocated in the left subtree
            have hid : i ≠ d := by
              rcases halloc with ⟨_, _, hdnone⟩ | ⟨_, hdlen, _⟩
              · intro he
                rw [he, hdnone] at hd
                cases hd
              · intro he
                have hlt := derefA_lt_length hd
                omega
            have hdpsr : d ∉ psr := by
              rcases halloc with ⟨_, _, hdnone⟩ | ⟨_, hdlen, _⟩
              · exact hr.not_mem_of_dead hdnone
              · exact hr.not_mem_of_ge (by omega)
            have hinotd : i ∉ d :: psl := by
              intro hm
              rcases List.mem_cons.mp hm with he | hm2
              · exact hid he
              · exact h1 hm2
            have hi1 : derefA s1 i = some (Node.mk a co pl pr) := by
              rw [hout1 i hinotd]; exact hd
            simp only [hi1]
            have hinl : i ∉ ps1l := by
              intro hm
              exact hinotd (hperm1.mem_iff.mp hm)
            have hl2 : IsRepr (setNodeA s1 i (Node.mk a co (some nl) pr))
                (some nl) l1 ps1l := by
              refine hrep1.frame ?_
              intro j hj
              exact derefA_set_ne s1 _ (fun he => hinl (by rw [he]; exact hj))
            have hr2 : IsRepr (setNodeA s1 i (Node.mk a co (some nl) pr)) pr r psr := by
              have hrmid : IsRepr s1 pr r psr := by
                refine hr.frame ?_
                intro j hj
                refine hout1 j ?_
                intro hm
                rcases List.mem_cons.mp hm with he | hm2
                · exact hdpsr (he ▸ hj)
                · exact h3 j hm2 hj
              refine hrmid.frame ?_
              intro j hj
              exact derefA_set_ne s1 _ (fun he => h2 (by rw [he]; exact hj))
            have hdisj2 : ∀ j ∈ ps1l, j ∉ psr := by
              intro j hj hm
              rcases List.mem_cons.mp (hperm1.mem_iff.mp hj) with he | hm2
              · exact hdpsr (he ▸ hm)
              · exact h3 j hm2 hm
            obtain ⟨i3, s3, ps3, hcomp3, hrep3, hperm3, hout3⟩ := fixupA_spec
              (IsRepr.node (derefA_set_self hi1) hl2 hr2 hinl h2 hdisj2) hins
            refine ⟨i3, s3, ps3, hcomp3, hrep3, ?_,
              Or.inr ⟨hmem, d, ?_, ?_, ?_, ?_⟩⟩
            · exact hout3.1.trans hroot1
            · simp only [List.mem_cons, List.mem_append, not_or]
              exact ⟨fun he => hid he.symm, hdns, hdpsr⟩
            · refine hperm3.trans ?_
              refine (List.Perm.cons i (List.Perm.append_right psr hperm1)).trans ?_
              exact List.Perm.swap d i _
            · intro j hj
              simp only [List.mem_cons, List.mem_append, not_or] at hj
              have hj3 : j ∉ i :: (ps1l ++ psr) := by
                simp only [List.mem_cons, List.mem_append, not_or]
                refine ⟨hj.2.1, fun hm => ?_, hj.2.2.2⟩
                rcases List.mem_cons.mp (hperm1.mem_iff.mp hm) with he | hm2
                · exact hj.1 he
                · exact hj.2.2.1 hm2
              rw [hout3.2.2.2 j hj3]
              rw [derefA_set_ne s1 _ (fun he => hj.2.1 he.symm)]
              refine hout1 j ?_
              intro hm
              rcases List.mem_cons.mp hm with he | hm2
              · exact hj.1 he
              · exact hj.2.2.1 hm2
            · have hdel3 : s3.deleted_indices = s1.deleted_indices :=
                hout3.2.2.1.trans (setNodeA_deleted s1 i _)
              have hlen3 : s3.nodes.length = s1.nodes.length :=
                hout3.2.1.trans (setNodeA_length s1 i _)
              rcases halloc with ⟨hdel1, hlen1, hdnone⟩ | ⟨hdel1, hdlen, hlen1⟩
              · exact Or.inl ⟨by rw [hdel1, hdel3], hlen3.trans hlen1, hdnone⟩
              · exact Or.inr ⟨hdel3.trans hdel1, hdlen, hlen3.trans hlen1⟩
      | eq =>
        simp only [hc] at hins
        simp only []
        have hl2 : IsRepr (setNodeA s i (Node.mk e co pl pr)) pl l psl := by
          refine hl.frame ?_
          intro j hj
          exact derefA_set_ne s _ (fun he => h1 (by rw [he]; exact hj))
        have hr2 : IsRepr (setNodeA s i (Node.mk e co pl pr)) pr r psr := by
          refine hr.frame ?_
          intro j hj
          exact derefA_set_ne s _ (fun he => h2 (by rw [he]; exact hj))
        obtain ⟨i3, s3, ps3, hcomp3, hrep3, hperm3, hout3⟩ := fixupA_spec
          (IsRepr.node (derefA_set_self hd) hl2 hr2 h1 h2 h3) hins
        refine ⟨i3, s3, ps3, hcomp3, hrep3, ?_, Or.inl ⟨trivial, hperm3, ?_, ?_, ?_⟩⟩
        · exact hout3.1
        · exact hout3.2.1.trans (setNodeA_length s i _)
        · exact hout3.2.2.1.trans (setNodeA_deleted s i _)
        · intro j hj
          rw [hout3.2.2.2 j hj]
          refine derefA_set_ne s _ ?_
          intro he
          exact hj (by rw [he]; exact List.mem_cons_self _ _)

theorem getElem?_of_derefA {α : Type} {s : BST α} {i : Nat} {n : Node α}
    (h : derefA s i = some n) : s.nodes[i]? = some (some n) := by
  rw [derefA] at h
  cases he : s.nodes[i]? with
  | none => rw [he] at h; cases h
  | some x =>
    rw [he] at h
    cases x with
    | none => cases h
    | some y =>
      injection h with h
      rw [h]

theorem derefA_set_none_self {α : Type} {s s2 : BST α} {i : Nat}
    (hn : s2.nodes = s.nodes.set i (none : Option (Node α)))
    (h : i < s.nodes.length) : derefA s2 i = none := by
  rw [derefA, hn, List.getElem?_set_self h]
  rfl

theorem derefA_set_none_ne {α : Type} {s s2 : BST α} {i : Nat}
    (hn : s2.nodes = s.nodes.set i (none : Option (Node α))) {j : Nat} (h : i ≠ j) :
    derefA s2 j = derefA s j := by
  rw [derefA, derefA, hn, List.getElem?_set_ne h]

theorem sAnd_guard4 {α : Type} {s : BST α} {u : Nat} {l : Tree α} {psl : List Nat}
    (hrepl : IsRepr s (some u) l psl) :
    sAnd ((isRedA s (some u)).map (fun b => !b))
      (fun _ =>
        match derefA s u with
        | none => none
        | some ln => (isRedA s ln.left).map (fun b => !b))
      = some (!l.isRed && !l.lft.isRed) := by
  rw [isRedA_of_repr hrepl]
  cases hlr : l.isRed with
  | true => rfl
  | false =>
    simp only [Option.map, Bool.not_false, sAnd]
    cases hrepl with
    | @node u e0 co0 ul ur l0 r0 psll pslr hld hll hlr2 hx1 hx2 hx3 =>
      rw [hld]
      simp only []
      rw [isRedA_of_repr hll]
      simp only [lft_node]
      rw [Bool.true_and]

theorem takeMin_tail {α : Type} {fA : Nat} {s1 s2 : BST α} {i1 u1 d : Nat}
    {pr1 nl2 : Option Nat} {l2 r1 t' : Tree α} {a1 m2 : α} {c1 : Color}
    {psr1 ps2 psl1 : List Nat}
    (hd1 : derefA s1 i1 = some (Node.mk a1 c1 (some u1) pr1))
    (hr1 : IsRepr s1 pr1 r1 psr1) (hnodup : psl1.Nodup)
    (hm1 : i1 ∉ psl1) (hm2 : i1 ∉ psr1) (hmdisj : ∀ j ∈ psl1, j ∉ psr1)
    (hcall2 : takeMinImplA fA s1 u1 = some (s2, m2, nl2))
    (hrep2 : IsRepr s2 nl2 l2 ps2)
    (hroot2 : s2.root = s1.root) (hlen2 : s2.nodes.length = s1.nodes.length)
    (hdel2 : s2.deleted_indices = d :: s1.deleted_indices)
    (hperm2 : psl1.Perm (d :: ps2)) (hdead2 : derefA s2 d = none)
    (hout2 : ∀ j, j ∉ psl1 → derefA s2 j = derefA s1 j)
    (hfx : fixupT (Tree.node l2 a1 c1 r1) = some t') :
    ∃ s3 p ps3,
      (match derefA s1 i1 with
       | none => none
       | some n1 =>
         match n1.left with
         | none => none
         | some left1 =>
           match takeMinImplA fA s1 left1 with
           | none => none
           | some (sx, mx, nlx) =>
             match derefA sx i1 with
             | none => none
             | some n2 =>
               match fixupA (setNodeA sx i1 { n2 with left := nlx }) i1 with
               | none => none
               | some (sy, py) => some (sy, mx, some py)) = some (s3, m2, some p) ∧
      IsRepr s3 (some p) t' ps3 ∧ s3.root = s1.root ∧
      s3.nodes.length = s1.nodes.length ∧
      s3.deleted_indices = d :: s1.deleted_indices ∧
      (i1 :: (psl1 ++ psr1)).Perm (d :: ps3) ∧ derefA s3 d = none ∧
      ∀ j, j ∉ i1 :: (psl1 ++ psr1) → derefA s3 j = derefA s1 j := by
  simp only [hd1]
  simp only [hcall2]
  have hd2 : derefA s2 i1 = some (Node.mk a1 c1 (some u1) pr1) := by
    rw [hout2 i1 hm1]; exact hd1
  simp only [hd2]
  have hi1ps2 : i1 ∉ ps2 := fun hm =>
    hm1 (hperm2.mem_iff.mpr (List.mem_cons_of_mem d hm))
  have hl3 : IsRepr (setNodeA s2 i1 (Node.mk a1 c1 nl2 pr1)) nl2 l2 ps2 := by
    refine hrep2.frame ?_
    intro j hj
    exact derefA_set_ne s2 _ (fun he => hi1ps2 (by rw [he]; exact hj))
  have hr3 : IsRepr (setNodeA s2 i1 (Node.mk a1 c1 nl2 pr1)) pr1 r1 psr1 := by
    have hrmid : IsRepr s2 pr1 r1 psr1 := by
      refine hr1.frame ?_
      intro j hj
      exact hout2 j (fun hm => hmdisj j hm hj)
    refine hrmid.frame ?_
    intro j hj
    exact derefA_set_ne s2 _ (fun he => hm2 (by rw [he]; exact hj))
  have hdisj3 : ∀ j ∈ ps2, j ∉ psr1 := fun j hj hm =>
    hmdisj j (hperm2.mem_iff.mpr (List.mem_cons_of_mem d hj)) hm
  obtain ⟨i4, s4, ps4, hcomp4, hrep4, hperm4, hout4⟩ := fixupA_spec
    (IsRepr.node (derefA_set_self hd2) hl3 hr3 hi1ps2 hm2 hdisj3) hfx
  simp only [hcomp4]
  have hdpsl : d ∈ psl1 := hperm2.mem_iff.mpr (List.mem_cons_self _ _)
  have hdi1 : d ≠ i1 := fun he => hm1 (he ▸ hdpsl)
  have hdps2 : d ∉ ps2 := (List.nodup_cons.mp (hperm2.nodup hnodup)).1
  have hdpsr : d ∉ psr1 := hmdisj d hdpsl
  refine ⟨s4, i4, ps4, rfl, hrep4, ?_, ?_, ?_, ?_, ?_, ?_⟩
  · exact (hout4.1.trans (setNodeA_root s2 i1 _)).trans hroot2
  · exact (hout4.2.1.trans (setNodeA_length s2 i1 _)).trans hlen2
  · exact (hout4.2.2.1.trans (setNodeA_deleted s2 i1 _)).trans hdel2
  · exact (List.Perm.cons i1 (List.Perm.append_right psr1 hperm2)).trans
      ((List.Perm.swap d i1 _).trans (List.Perm.cons d hperm4.symm))
  · have hnd4 : d ∉ i1 :: (ps2 ++ psr1) := by
      simp only [List.mem_cons, List.mem_append, not_or]
      exact ⟨hdi1, hdps2, hdpsr⟩
    rw [hout4.2.2.2 d hnd4]
    rw [derefA_set_ne s2 _ (fun he => hdi1 he.symm)]
    exact hdead2
  · intro j hj
    simp only [List.mem_cons, List.mem_append, not_or] at hj
    have hj4 : j ∉ i1 :: (ps2 ++ psr1) := by
      simp only [List.mem_cons, List.mem_append, not_or]
      exact ⟨hj.1, fun hm =>
        hj.2.1 (hperm2.mem_iff.mpr (List.mem_cons_of_mem d hm)), hj.2.2⟩
    rw [hout4.2.2.2 j hj4]
    rw [derefA_set_ne s2 _ (fun he => hj.1 he.symm)]
    exact hout2 j hj.2.1

theorem takeMinImplA_spec {α : Type} :
    ∀ (fuelF : Nat) {s : BST α} {i : Nat} {t t' : Tree α} {m : α} {ps : List Nat},
    IsRepr s (some i) t ps → takeMinF fuelF t = some (m, t') →
    inorder t = m :: inorder t' →
    ∀ fuelA, t.size < fuelA →
    ∃ s1 nl ps1 d, takeMinImplA fuelA s i = some (s1, m, nl) ∧
      IsRepr s1 nl t' ps1 ∧ s1.root = s.root ∧
      s1.nodes.length = s.nodes.length ∧
      s1.deleted_indices = d :: s.deleted_indices ∧
      ps.Perm (d :: ps1) ∧ derefA s1 d = none ∧
      ∀ j, j ∉ ps → derefA s1 j = derefA s j := by
  intro fuelF
  induction fuelF with
  | zero =>
    intro s i t t' m ps hrep htm hino fuelA hsz
    exact Option.noConfusion htm
  | succ fF ih =>
    intro s i t t' m ps hrep htm hino fuelA hsz
    obtain ⟨l, a, c, r, rfl⟩ := hrep.node_shape
    rw [takeMinF.eq_def] at htm
    simp only [] at htm
    cases fuelA with
    | zero => exact absurd hsz (Nat.not_lt_zero _)
    | succ fA =>
      rw [takeMinImplA.eq_def]
      simp only []
      cases hrep with
      | @node i a c pl pr l r psl psr hd hl hr h1 h2 h3 =>
        simp only [hd]
        cases hl with
        | nil =>
          simp only [] at htm
          injection htm with htm
          rw [Prod.mk.injEq] at htm
          obtain ⟨rfl, rfl⟩ := htm
          have hr0 : r = Tree.nil := by
            cases r with
            | nil => rfl
            | node rl rb rc rr => simp [inorder] at hino
          subst hr0
          cases hr with
          | nil =>
            simp only []
            simp only [getElem?_of_derefA hd]
            refine ⟨_, none, [], i, rfl, IsRepr.nil, rfl, ?_, rfl, ?_, ?_, ?_⟩
            · exact List.length_set s.nodes i none
            · exact List.Perm.refl _
            · exact derefA_set_none_self rfl (derefA_lt_length hd)
            · intro j hj
              refine derefA_set_none_ne rfl ?_
              intro he
              exact hj (by rw [← he]; exact List.mem_cons_self _ _)
        | @node u e0 co0 ul ur l0 r0 psll pslr hlderef hllrep hlrrep hq1 hq2 hq3 =>
          simp only [] at htm
          simp only []
          rw [sAnd_guard4 (IsRepr.node hlderef hllrep hlrrep hq1 hq2 hq3)]
          simp only [lft_node]
          rcases Bool.dichotomy (!(Tree.node l0 e0 co0 r0).isRed && !l0.isRed)
            with hg | hg
          case inl =>
            simp only [hg, if_false_bool]
            simp only [hg, if_false_bool] at htm
            cases hrec : takeMinF fF (Tree.node l0 e0 co0 r0) with
            | none =>
              simp only [hrec] at htm
              exact Option.noConfusion htm
            | some pq =>
              obtain ⟨m2, l2⟩ := pq
              simp only [hrec] at htm
              cases hfx : fixupT (Tree.node l2 a c r) with
              | none =>
                simp only [hfx] at htm
                exact Option.noConfusion htm
              | some t2 =>
                simp only [hfx] at htm
                injection htm with htm
                rw [Prod.mk.injEq] at htm
                obtain ⟨rfl, rfl⟩ := htm
                have hkey : inorder (Tree.node l0 e0 co0 r0) ++ (a :: inorder r)
                    = (m2 :: inorder l2) ++ (a :: inorder r) := by
                  have h2' := hino
                  rw [inorder_fixup hfx] at h2'
                  rw [show inorder (Tree.node (Tree.node l0 e0 co0 r0) a c r)
                    = inorder (Tree.node l0 e0 co0 r0) ++ (a :: inorder r)
                    from rfl] at h2'
                  rw [show inorder (Tree.node l2 a c r)
                    = inorder l2 ++ (a :: inorder r) from rfl] at h2'
                  rw [← List.cons_append] at h2'
                  exact h2'
                have hinoL := List.append_cancel_right hkey
                have hszL : (Tree.node l0 e0 co0 r0).size < fA := by
                  simp only [size_node] at hsz ⊢
                  omega
                obtain ⟨s2, nl2, ps2, d, hcall2, hrep2, hroot2, hlen2, hdel2,
                  hperm2, hdead2, hout2⟩ := ih
                  (IsRepr.node hlderef hllrep hlrrep hq1 hq2 hq3) hrec hinoL fA hszL
                obtain ⟨s3, p, ps3, heq, hrep3, hroot3, hlen3, hdel3, hperm3,
                  hdead3, hout3⟩ := takeMin_tail hd hr
                  (IsRepr.node hlderef hllrep hlrrep hq1 hq2 hq3).nodup h1 h2 h3
                  hcall2 hrep2 hroot2 hlen2 hdel2 hperm2 hdead2 hout2 hfx
                exact ⟨s3, some p, ps3, d, heq, hrep3, hroot3, hlen3, hdel3,
                  hperm3, hdead3, hout3⟩
          case inr =>
            simp only [hg, if_true_bool, if_true]
            simp only [hg, if_true_bool, if_true] at htm
            cases hmr : moveRedLeftT
                (Tree.node (Tree.node l0 e0 co0 r0) a c r) with
            | none =>
              simp only [hmr] at htm
              exact Option.noConfusion htm
            | some t1 =>
              simp only [hmr] at htm
              obtain ⟨i1, s1, ps1m, hcomp1, hrep1, hperm1, hout1⟩ :=
                moveRedLeftA_spec
                  (IsRepr.node hd (IsRepr.node hlderef hllrep hlrrep hq1 hq2 hq3)
                    hr h1 h2 h3) hmr
              simp only [hcomp1]
              cases t1 with
              | nil =>
                simp only [] at htm
                exact Option.noConfusion htm
              | node l1 a1 c1 r1 =>
                simp only [] at htm
                cases l1 with
                | nil =>
                  simp only [] at htm
                  exact Option.noConfusion htm
                | node l10 a10 c10 r10 =>
                  simp only [] at htm
                  cases hrec : takeMinF fF (Tree.node l10 a10 c10 r10) with
                  | none =>
                    simp only [hrec] at htm
                    exact Option.noConfusion htm
                  | some pq =>
                    obtain ⟨m2, l2⟩ := pq
                    simp only [hrec] at htm
                    cases hfx : fixupT (Tree.node l2 a1 c1 r1) with
                    | none =>
                      simp only [hfx] at htm
                      exact Option.noConfusion htm
                    | some t2 =>
                      simp only [hfx] at htm
                      injection htm with htm
                      rw [Prod.mk.injEq] at htm
                      obtain ⟨rfl, rfl⟩ := htm
                      obtain ⟨pl1, pr1, psl1, psr1, hd1, hl1, hr1, hm1, hm2,
                        hmdisj, hps1eq⟩ := hrep1.node_inv
                      obtain ⟨u1, pul, pur, psu1, psu2, hpleq, -, -, -, -, -, -, -⟩ :=
                        hl1.node_inv2
                      subst hpleq
                      have hkey : inorder (Tree.node l10 a10 c10 r10)
                          ++ (a1 :: inorder r1)
                          = (m2 :: inorder l2) ++ (a1 :: inorder r1) := by
                        have h2' := hino
                        rw [show inorder
                            (Tree.node (Tree.node l0 e0 co0 r0) a c r)
                          = inorder
                            (Tree.node (Tree.node l10 a10 c10 r10) a1 c1 r1)
                          from (inorder_mrl hmr).symm] at h2'
                        rw [inorder_fixup hfx] at h2'
                        rw [show inorder
                            (Tree.node (Tree.node l10 a10 c10 r10) a1 c1 r1)
                          = inorder (Tree.node l10 a10 c10 r10)
                            ++ (a1 :: inorder r1) from rfl] at h2'
                        rw [show inorder (Tree.node l2 a1 c1 r1)
                          = inorder l2 ++ (a1 :: inorder r1) from rfl] at h2'
                        rw [← List.cons_append] at h2'
                        exact h2'
                      have hinoL := List.append_cancel_right hkey
                      have hsz1 :
                          (Tree.node (Tree.node l10 a10 c10 r10) a1 c1 r1).size
                          = (Tree.node (Tree.node l0 e0 co0 r0) a c r).size := by
                        rw [size_eq_length_inorder, size_eq_length_inorder,
                          inorder_mrl hmr]
                      have hszL : (Tree.node l10 a10 c10 r10).size < fA := by
                        simp only [size_node] at hsz hsz1 ⊢
                        omega
                      obtain ⟨s2, nl2, ps2, d, hcall2, hrep2, hroot2, hlen2,
                        hdel2, hperm2, hdead2, hout2⟩ :=
                        ih hl1 hrec hinoL fA hszL
                      obtain ⟨s3, p, ps3, heq, hrep3, hroot3, hlen3, hdel3,
                        hperm3, hdead3, hout3⟩ := takeMin_tail hd1 hr1
                        hl1.nodup hm1 hm2 hmdisj hcall2 hrep2 hroot2 hlen2
                        hdel2 hperm2 hdead2 hout2 hfx
                      refine ⟨s3, some p, ps3, d, heq, hrep3,
                        hroot3.trans hout1.1,
                        hlen3.trans hout1.2.1,
                        hdel3.trans (congrArg (d :: ·) hout1.2.2.1), ?_, hdead3,
                        ?_⟩
                      · refine hperm1.symm.trans ?_
                        rw [hps1eq]
                        exact hperm3
                      · intro j hj
                        have hj1 : j ∉ ps1m := fun hm =>
                          hj (hperm1.mem_iff.mp hm)
                        rw [hps1eq] at hj1
                        rw [hout3 j hj1]
                        exact hout1.2.2.2 j hj

theorem IsRepr.none_inv {α : Type} {s : BST α} {t : Tree α} {ps : List Nat}
    (h : IsRepr s none t ps) : t = Tree.nil ∧ ps = [] := by
  cases h with
  | nil => exact ⟨rfl, rfl⟩

theorem leanL_noRRR {α : Type} : ∀ {t : Tree α}, leanL t → noRedRedRight t := by
  intro t
  induction t with
  | nil => intro _; trivial
  | node l a c r ihl ihr =>
    intro h
    exact ⟨ihl h.1, ihr h.2.1, fun _ => h.2.2⟩

theorem partition_length {α : Type} {s : BST α} {t : Tree α} {ps : List Nat}
    (hrep : IsRepr s s.root t ps) (hnd : s.deleted_indices.Nodup)
    (hfree : ∀ d ∈ s.deleted_indices, d < s.nodes.length ∧ derefA s d = none)
    (hcover : ∀ j, j < s.nodes.length → j ∈ ps ∨ j ∈ s.deleted_indices) :
    ps.length + s.deleted_indices.length = s.nodes.length := by
  have hdisj : ∀ j ∈ ps, j ∉ s.deleted_indices := by
    intro j hj hm
    rcases Option.isSome_iff_exists.mp (hrep.mem_isSome j hj) with ⟨n1, hn1⟩
    rw [(hfree j hm).2] at hn1
    cases hn1
  have hnodup : (ps ++ s.deleted_indices).Nodup := by
    rw [List.nodup_append]
    exact ⟨hrep.nodup, hnd, hdisj⟩
  have hsub1 : (ps ++ s.deleted_indices) ⊆ List.range s.nodes.length := by
    intro j hj
    rcases List.mem_append.mp hj with hj | hj
    · rcases Option.isSome_iff_exists.mp (hrep.mem_isSome j hj) with ⟨n1, hn1⟩
      exact List.mem_range.mpr (derefA_lt_length hn1)
    · exact List.mem_range.mpr (hfree j hj).1
  have hsub2 : List.range s.nodes.length ⊆ (ps ++ s.deleted_indices) := by
    intro j hj
    rcases hcover j (List.mem_range.mp hj) with hj2 | hj2
    · exact List.mem_append_left _ hj2
    · exact List.mem_append_right _ hj2
  have hperm : (ps ++ s.deleted_indices).Perm (List.range s.nodes.length) :=
    (List.subperm_of_subset hnodup hsub1).antisymm
      (List.subperm_of_subset (List.nodup_range _) hsub2)
  have hlen := hperm.length_eq
  rw [List.length_append, List.length_range] at hlen
  exact hlen

theorem Abs.len {α : Type} {s : BST α} {t : Tree α} (h : Abs s t) :
    lenA s = t.size := by
  obtain ⟨ps, hrep, hnd, hfree, hcover⟩ := h
  have hpart := partition_length hrep hnd hfree hcover
  rw [lenA, ← hrep.length_eq]
  omega

theorem memberA_spec {α : Type} [LinearOrder α] {s : BST α} {t : Tree α}
    (habs : Abs s t) (e : α) : memberA s e = some (memberT t e) := by
  obtain ⟨ps, hrep, -, -, -⟩ := habs
  rw [memberA]
  exact memberImplA_spec hrep e _ (Nat.lt_succ_of_le hrep.size_le)

theorem insertA_spec {α : Type} [LinearOrder α] {s : BST α} {t : Tree α}
    (habs : Abs s t) (hG : GoodT t) (e : α) :
    ∃ s1 t1, insertA s e = some s1 ∧ Abs s1 t1 ∧ GoodT t1 ∧
      inorder t1 = linsert e (inorder t) ∧ s1.root.isSome = true ∧
      (memberT t e = true → s1.nodes.length = s.nodes.length ∧
        s1.deleted_indices = s.deleted_indices) := by
  obtain ⟨ps, hrep0, hnd, hfree, hcover⟩ := habs
  obtain ⟨hRB, hblack, hsort⟩ := hG
  obtain ⟨t1, hins, hok⟩ := ins_aux e hRB
  rw [insertA]
  obtain ⟨nr, s1, ps1, hcall, hrep1, hroot1, hpost⟩ :=
    insertImplA_spec e hrep0 hfree t1 (s.nodes.length + 1) hins
      (Nat.lt_succ_of_le hrep0.size_le)
  simp only [hcall]
  obtain ⟨l1, a1, c1, r1, rfl⟩ := hrep1.node_shape
  obtain ⟨pl1, pr1, psl1, psr1, hd1, hl1, hr1, hm1, hm2, hmdisj, hps1eq⟩ :=
    hrep1.node_inv
  have hrootframe : ∀ j, derefA { s1 with root := some nr } j = derefA s1 j :=
    fun j => derefA_of_nodes s1 { s1 with root := some nr } rfl j
  have hd2 : derefA { s1 with root := some nr } nr
      = some (Node.mk a1 c1 pl1 pr1) := by
    rw [hrootframe nr]; exact hd1
  simp only [hd2]
  have hl3 : IsRepr (setNodeA { s1 with root := some nr } nr
      (Node.mk a1 Color.Black pl1 pr1)) pl1 l1 psl1 := by
    have hmid : IsRepr { s1 with root := some nr } pl1 l1 psl1 :=
      hl1.frame (fun j _ => hrootframe j)
    refine hmid.frame ?_
    intro j hj
    exact derefA_set_ne _ _ (fun he => hm1 (by rw [he]; exact hj))
  have hr3 : IsRepr (setNodeA { s1 with root := some nr } nr
      (Node.mk a1 Color.Black pl1 pr1)) pr1 r1 psr1 := by
    have hmid : IsRepr { s1 with root := some nr } pr1 r1 psr1 :=
      hr1.frame (fun j _ => hrootframe j)
    refine hmid.frame ?_
    intro j hj
    exact derefA_set_ne _ _ (fun he => hm2 (by rw [he]; exact hj))
  have hrep3 : IsRepr (setNodeA { s1 with root := some nr } nr
      (Node.mk a1 Color.Black pl1 pr1)) (some nr)
      (Tree.node l1 a1 Color.Black r1) (nr :: (psl1 ++ psr1)) :=
    IsRepr.node (derefA_set_self hd2) hl3 hr3 hm1 hm2 hmdisj
  have hGB := blacken_RB hok.1 hok.2.1 hok.2.2.2.1 hok.2.2.2.2.1
  have hino3 : inorder (Tree.node l1 a1 Color.Black r1)
      = linsert e (inorder t) := by
    rw [show inorder (Tree.node l1 a1 Color.Black r1)
      = inorder (Tree.node l1 a1 c1 r1) from rfl]
    exact inorder_insertT e hsort hins
  have hG3 : GoodT (Tree.node l1 a1 Color.Black r1) := by
    refine ⟨hGB.1, hGB.2, ?_⟩
    rw [hino3]
    exact sorted_linsert e hsort
  have hnrlive : derefA s1 nr = some (Node.mk a1 c1 pl1 pr1) := hd1
  have hdeadne : ∀ d2, derefA s1 d2 = none → nr ≠ d2 := by
    intro d2 hdd he
    rw [← he, hnrlive] at hdd
    cases hdd
  refine ⟨_, Tree.node l1 a1 Color.Black r1, rfl, ⟨nr :: (psl1 ++ psr1),
    hrep3, ?_, ?_, ?_⟩, hG3, hino3, rfl, ?_⟩
  · -- free list nodup
    rcases hpost with ⟨-, -, -, hdel1, -⟩ | ⟨-, d0, -, -, -, halloc⟩
    · rw [show (setNodeA { s1 with root := some nr }
        nr (Node.mk a1 Color.Black pl1 pr1)).deleted_indices
        = s1.deleted_indices from rfl, hdel1]
      exact hnd
    · rcases halloc with ⟨hdelp, -, -⟩ | ⟨hdela, -, -⟩
      · rw [show (setNodeA { s1 with root := some nr }
          nr (Node.mk a1 Color.Black pl1 pr1)).deleted_indices
          = s1.deleted_indices from rfl]
        rw [hdelp] at hnd
        exact (List.nodup_cons.mp hnd).2
      · rw [show (setNodeA { s1 with root := some nr }
          nr (Node.mk a1 Color.Black pl1 pr1)).deleted_indices
          = s1.deleted_indices from rfl, hdela]
        exact hnd
  · -- free slots are dead and in range
    intro d2 hd2m
    rw [show (setNodeA { s1 with root := some nr }
      nr (Node.mk a1 Color.Black pl1 pr1)).deleted_indices
      = s1.deleted_indices from rfl] at hd2m
    rw [show (setNodeA { s1 with root := some nr }
      nr (Node.mk a1 Color.Black pl1 pr1)).nodes.length
      = s1.nodes.length from setNodeA_length _ _ _]
    have hstep : ∀ j, derefA s1 j = none →
        derefA (setNodeA { s1 with root := some nr }
          nr (Node.mk a1 Color.Black pl1 pr1)) j = none := by
      intro j hjn
      rw [derefA_set_ne _ _ (hdeadne j hjn), hrootframe j]
      exact hjn
    rcases hpost with ⟨-, -, hlen1, hdel1, hout1⟩ |
      ⟨-, d0, hd0ps, -, hout1, halloc⟩
    · rw [hdel1] at hd2m
      obtain ⟨hdlt, hddead⟩ := hfree d2 hd2m
      have hs1d : derefA s1 d2 = none := by
        rw [hout1 d2 (hrep0.not_mem_of_dead hddead)]
        exact hddead
      exact ⟨by rw [hlen1]; exact hdlt, hstep d2 hs1d⟩
    · rcases halloc with ⟨hdelp, hlenp, hdead0⟩ | ⟨hdela, hd0len, hlena⟩
      · have hd2s : d2 ∈ s.deleted_indices := by
          rw [hdelp]
          exact List.mem_cons_of_mem _ hd2m
        obtain ⟨hdlt, hddead⟩ := hfree d2 hd2s
        have hne0 : d2 ≠ d0 := by
          intro he
          rw [hdelp] at hnd
          exact (List.nodup_cons.mp hnd).1 (he ▸ hd2m)
        have hs1d : derefA s1 d2 = none := by
          rw [hout1 d2 ?_]
          · exact hddead
          · intro hm
            rcases List.mem_cons.mp hm with he | hm2
            · exact hne0 he
            · exact (hrep0.not_mem_of_dead hddead) hm2
        exact ⟨by rw [hlenp]; exact hdlt, hstep d2 hs1d⟩
      · have hd2s : d2 ∈ s.deleted_indices := hdela ▸ hd2m
        obtain ⟨hdlt, hddead⟩ := hfree d2 hd2s
        have hne0 : d2 ≠ d0 := by
          intro he
          rw [hd0len] at he
          omega
        have hs1d : derefA s1 d2 = none := by
          rw [hout1 d2 ?_]
          · exact hddead
          · intro hm
            rcases List.mem_cons.mp hm with he | hm2
            · exact hne0 he
            · exact (hrep0.not_mem_of_dead hddead) hm2
        exact ⟨by rw [hlena]; omega, hstep d2 hs1d⟩
  · -- cover
    intro j hjlt
    rw [show (setNodeA { s1 with root := some nr }
      nr (Node.mk a1 Color.Black pl1 pr1)).nodes.length
      = s1.nodes.length from setNodeA_length _ _ _] at hjlt
    rw [show (setNodeA { s1 with root := some nr }
      nr (Node.mk a1 Color.Black pl1 pr1)).deleted_indices
      = s1.deleted_indices from rfl]
    rcases hpost with ⟨-, hperm1, hlen1, hdel1, -⟩ |
      ⟨-, d0, hd0ps, hperm1, -, halloc⟩
    · rw [hlen1] at hjlt
      rcases hcover j hjlt with hj2 | hj2
      · left
        have hj3 : j ∈ ps1 := hperm1.mem_iff.mpr hj2
        rw [hps1eq] at hj3
        exact hj3
      · right
        rw [hdel1]
        exact hj2
    · rcases halloc with ⟨hdelp, hlenp, hdead0⟩ | ⟨hdela, hd0len, hlena⟩
      · rw [hlenp] at hjlt
        rcases hcover j hjlt with hj2 | hj2
        · left
          have hj3 : j ∈ ps1 :=
            hperm1.mem_iff.mpr (List.mem_cons_of_mem _ hj2)
          rw [hps1eq] at hj3
          exact hj3
        · rw [hdelp] at hj2
          rcases List.mem_cons.mp hj2 with he | hj4
          · left
            have hj3 : j ∈ ps1 :=
              hperm1.mem_iff.mpr (by rw [he]; exact List.mem_cons_self _ _)
            rw [hps1eq] at hj3
            exact hj3
          · right
            exact hj4
      · rw [hlena] at hjlt
        rcases Nat.lt_or_ge j s.nodes.length with hjs | hjs
        · rcases hcover j hjs with hj2 | hj2
          · left
            have hj3 : j ∈ ps1 :=
              hperm1.mem_iff.mpr (List.mem_cons_of_mem _ hj2)
            rw [hps1eq] at hj3
            exact hj3
          · right
            rw [hdela]
            exact hj2
        · left
          have hje : j = d0 := by omega
          have hj3 : j ∈ ps1 :=
            hperm1.mem_iff.mpr (by rw [hje]; exact List.mem_cons_self _ _)
          rw [hps1eq] at hj3
          exact hj3
  · -- duplicate-insert bookkeeping
    intro hmem
    rcases hpost with ⟨-, -, hlen1, hdel1, -⟩ | ⟨hmem2, -⟩
    · constructor
      · rw [show (setNodeA { s1 with root := some nr }
          nr (Node.mk a1 Color.Black pl1 pr1)).nodes.length
          = s1.nodes.length from setNodeA_length _ _ _]
        exact hlen1
      · rw [show (setNodeA { s1 with root := some nr }
          nr (Node.mk a1 Color.Black pl1 pr1)).deleted_indices
          = s1.deleted_indices from rfl]
        exact hdel1
    · rw [hmem] at hmem2
      cases hmem2

theorem takeMinA_nil {α : Type} {s : BST α} (habs : Abs s Tree.nil) :
    takeMinA s = some (none, s) := by
  obtain ⟨ps, hrep, -, -, -⟩ := habs
  cases hroot : s.root with
  | none => rw [takeMinA, hroot]
  | some i =>
    rw [hroot] at hrep
    cases hrep

theorem takeMinA_spec {α : Type} [LinearOrder α] {s : BST α} {l r : Tree α}
    {a : α} {c : Color} (habs : Abs s (Tree.node l a c r))
    (hG : GoodT (Tree.node l a c r)) :
    ∃ m s1 t1, takeMinA s = some (some m, s1) ∧ Abs s1 t1 ∧ GoodT t1 ∧
      inorder (Tree.node l a c r) = m :: inorder t1 := by
  obtain ⟨ps, hrep, hnd, hfree, hcover⟩ := habs
  obtain ⟨hRB, hblack, hsort⟩ := hG
  have hcB : c = Color.Black := by
    cases c
    · cases hblack
    · rfl
  cases hroot : s.root with
  | none =>
    rw [hroot] at hrep
    exact Tree.noConfusion hrep.none_inv.1
  | some i =>
    rw [hroot] at hrep
    rw [takeMinA, hroot]
    cases hrep with
    | @node i a c pl pr l r psl psr hd hl hr h1 h2 h3 =>
      simp only [hd]
      cases hl with
      | nil =>
        have hrnil : r = Tree.nil := by
          have hrb : r.isRed = false := hRB.1.2.2
          have hb0 : bh r = 0 := (hRB.2.2.2.2).symm
          exact nil_of_bh_zero hb0 hrb
        subst hrnil
        cases hr with
        | nil =>
          simp only []
          simp only [getElem?_of_derefA hd]
          refine ⟨a, _, Tree.nil, rfl, ⟨[], IsRepr.nil, List.nodup_nil,
            ?_, ?_⟩, ⟨⟨trivial, trivial, trivial⟩, rfl, List.sorted_nil⟩, rfl⟩
          · intro d hdm
            exact absurd hdm (List.not_mem_nil d)
          · intro j hj
            exact absurd hj (Nat.not_lt_zero j)
      | @node u e0 co0 ul ur l0 r0 psll pslr hlderef hllrep hlrrep hq1 hq2 hq3 =>
        simp only []
        have hrepL : IsRepr s (some u) (Tree.node l0 e0 co0 r0)
            (u :: (psll ++ pslr)) :=
          IsRepr.node hlderef hllrep hlrrep hq1 hq2 hq3
        have hrepFull : IsRepr s (some i)
            (Tree.node (Tree.node l0 e0 co0 r0) a c r)
            (i :: ((u :: (psll ++ pslr)) ++ psr)) :=
          IsRepr.node hd hrepL hr h1 h2 h3
        have hRBl : RBInv (Tree.node l0 e0 co0 r0) :=
          ⟨hRB.1.1, hRB.2.1.1, hRB.2.2.1⟩
        have hRBr : RBInv r := ⟨hRB.1.2.1, hRB.2.1.2.1, hRB.2.2.2.1⟩
        have hrred : r.isRed = false := hRB.1.2.2
        have hcred : c = Color.Red →
            (Tree.node l0 e0 co0 r0).isRed = false ∧ r.isRed = false := by
          intro hc
          rw [hcB] at hc
          cases hc
        have hbh : bh (Tree.node l0 e0 co0 r0) = bh r := hRB.2.2.2.2
        have hlnil : Tree.node l0 e0 co0 r0 = Tree.nil → c = Color.Red :=
          fun h => Tree.noConfusion h
        obtain ⟨m, t', htm, hino, hLt', hBt', hnl', hnr', hbucket⟩ :=
          takeMin_aux (Tree.node (Tree.node l0 e0 co0 r0) a c r).size
            (Nat.le_refl _) hRBl hRBr hrred hcred hbh hlnil
        obtain ⟨s1, nl, ps1, d, hcall, hrep1, hroot1, hlen1, hdel1, hperm1,
          hdead1, hout1⟩ := takeMinImplA_spec _ hrepFull htm hino
          (s.nodes.length + 1) (Nat.lt_succ_of_le hrepFull.size_le)
        simp only [hcall]
        have ht'node : ∃ l2 a2 c2 r2, t' = Tree.node l2 a2 c2 r2 := by
          cases t' with
          | node l2 a2 c2 r2 => exact ⟨_, _, _, _, rfl⟩
          | nil =>
            have hlen := congrArg List.length hino
            simp [inorder, List.length_append] at hlen
            omega
        obtain ⟨l2, a2, c2, r2, rfl⟩ := ht'node
        obtain ⟨nr2, p2l, p2r, ps2l, ps2r, rfl, hd21, hl21, hr21, hn21, hn22,
          hndisj2, hps1eq2⟩ := hrep1.node_inv2
        simp only []
        have hrootframe : ∀ j, derefA { s1 with root := some nr2 } j
            = derefA s1 j :=
          fun j => derefA_of_nodes s1 { s1 with root := some nr2 } rfl j
        have hd22 : derefA { s1 with root := some nr2 } nr2
            = some (Node.mk a2 c2 p2l p2r) := by
          rw [hrootframe nr2]; exact hd21
        simp only [hd22]
        have hl3 : IsRepr (setNodeA { s1 with root := some nr2 } nr2
            (Node.mk a2 Color.Black p2l p2r)) p2l l2 ps2l := by
          have hmid : IsRepr { s1 with root := some nr2 } p2l l2 ps2l :=
            hl21.frame (fun j _ => hrootframe j)
          refine hmid.frame ?_
          intro j hj
          exact derefA_set_ne _ _ (fun he => hn21 (by rw [he]; exact hj))
        have hr3 : IsRepr (setNodeA { s1 with root := some nr2 } nr2
            (Node.mk a2 Color.Black p2l p2r)) p2r r2 ps2r := by
          have hmid : IsRepr { s1 with root := some nr2 } p2r r2 ps2r :=
            hr21.frame (fun j _ => hrootframe j)
          refine hmid.frame ?_
          intro j hj
          exact derefA_set_ne _ _ (fun he => hn22 (by rw [he]; exact hj))
        have hrep3 : IsRepr (setNodeA { s1 with root := some nr2 } nr2
            (Node.mk a2 Color.Black p2l p2r)) (some nr2)
            (Tree.node l2 a2 Color.Black r2) (nr2 :: (ps2l ++ ps2r)) :=
          IsRepr.node (derefA_set_self hd22) hl3 hr3 hn21 hn22 hndisj2
        have hGB := blacken_RB hLt' hBt' hnl' hnr'
        have hino3 : inorder (Tree.node (Tree.node l0 e0 co0 r0) a c r)
            = m :: inorder (Tree.node l2 a2 Color.Black r2) := by
          rw [show inorder (Tree.node l2 a2 Color.Black r2)
            = inorder (Tree.node l2 a2 c2 r2) from rfl]
          exact hino
        have hG3 : GoodT (Tree.node l2 a2 Color.Black r2) := by
          refine ⟨hGB.1, hGB.2, ?_⟩
          have hs2 : List.Sorted (· < ·)
              (m :: inorder (Tree.node l2 a2 Color.Black r2)) := by
            rw [← hino3]
            exact hsort
          exact hs2.of_cons
        have hdmem : d ∈ i :: ((u :: (psll ++ pslr)) ++ psr) :=
          hperm1.mem_iff.mpr (List.mem_cons_self _ _)
        have hnr2live : derefA s1 nr2 = some (Node.mk a2 c2 p2l p2r) := hd21
        have hdeadne : ∀ d2, derefA s1 d2 = none → nr2 ≠ d2 := by
          intro d2 hdd he
          rw [← he, hnr2live] at hdd
          cases hdd
        have hstep : ∀ j, derefA s1 j = none →
            derefA (setNodeA { s1 with root := some nr2 } nr2
              (Node.mk a2 Color.Black p2l p2r)) j = none := by
          intro j hjn
          rw [derefA_set_ne _ _ (hdeadne j hjn), hrootframe j]
          exact hjn
        refine ⟨m, _, Tree.node l2 a2 Color.Black r2, rfl,
          ⟨nr2 :: (ps2l ++ ps2r), hrep3, ?_, ?_, ?_⟩, hG3, hino3⟩
        · -- new free list is d :: old, nodup
          rw [show (setNodeA { s1 with root := some nr2 } nr2
            (Node.mk a2 Color.Black p2l p2r)).deleted_indices
            = s1.deleted_indices from rfl, hdel1]
          rw [List.nodup_cons]
          refine ⟨?_, hnd⟩
          intro hdm
          rcases Option.isSome_iff_exists.mp (hrepFull.mem_isSome d hdmem)
            with ⟨n1, hn1⟩
          rw [(hfree d hdm).2] at hn1
          cases hn1
        · -- free slots dead and in range
          intro d2 hd2m
          rw [show (setNodeA { s1 with root := some nr2 } nr2
            (Node.mk a2 Color.Black p2l p2r)).deleted_indices
            = s1.deleted_indices from rfl, hdel1] at hd2m
          rw [show (setNodeA { s1 with root := some nr2 } nr2
            (Node.mk a2 Color.Black p2l p2r)).nodes.length
            = s1.nodes.length from setNodeA_length _ _ _, hlen1]
          rcases List.mem_cons.mp hd2m with he | hd2s
          · subst he
            constructor
            · rcases Option.isSome_iff_exists.mp
                (hrepFull.mem_isSome d2 hdmem) with ⟨n1, hn1⟩
              exact derefA_lt_length hn1
            · exact hstep d2 hdead1
          · obtain ⟨hdlt, hddead⟩ := hfree d2 hd2s
            refine ⟨hdlt, hstep d2 ?_⟩
            rw [hout1 d2 (hrepFull.not_mem_of_dead hddead)]
            exact hddead
        · -- cover
          intro j hjlt
          rw [show (setNodeA { s1 with root := some nr2 } nr2
            (Node.mk a2 Color.Black p2l p2r)).nodes.length
            = s1.nodes.length from setNodeA_length _ _ _, hlen1] at hjlt
          rw [show (setNodeA { s1 with root := some nr2 } nr2
            (Node.mk a2 Color.Black p2l p2r)).deleted_indices
            = s1.deleted_indices from rfl, hdel1]
          rcases hcover j hjlt with hj2 | hj2
          · have hj3 : j ∈ d :: ps1 := hperm1.mem_iff.mp hj2
            rcases List.mem_cons.mp hj3 with he | hj4
            · right
              rw [he]
              exact List.mem_cons_self _ _
            · left
              rw [hps1eq2] at hj4
              exact hj4
          · right
            exact List.mem_cons_of_mem _ hj2

theorem goodT_nil {α : Type} [LinearOrder α] : GoodT (Tree.nil : Tree α) :=
  ⟨⟨trivial, trivial, trivial⟩, rfl, List.sorted_nil⟩

theorem abs_empty {α : Type} {s : BST α} (h1 : s.nodes = [])
    (h2 : s.root = none) (h3 : s.deleted_indices = []) : Abs s Tree.nil := by
  refine ⟨[], ?_, ?_, ?_, ?_⟩
  · rw [h2]
    exact IsRepr.nil
  · rw [h3]
    exact List.nodup_nil
  · intro d hdm
    rw [h3] at hdm
    exact absurd hdm (List.not_mem_nil d)
  · intro j hj
    rw [h1] at hj
    exact absurd hj (Nat.not_lt_zero j)

theorem abs_singleton {α : Type} [LinearOrder α] (e : α) :
    Abs (singletonA e) (Tree.node Tree.nil e Color.Black Tree.nil) ∧
      GoodT (Tree.node Tree.nil e Color.Black Tree.nil) := by
  constructor
  · refine ⟨0 :: ([] ++ []), ?_, List.nodup_nil, ?_, ?_⟩
    · exact IsRepr.node rfl IsRepr.nil IsRepr.nil (List.not_mem_nil _)
        (List.not_mem_nil _) (fun j hj => absurd hj (List.not_mem_nil _))
    · intro d hdm
      exact absurd hdm (List.not_mem_nil d)
    · intro j hj
      left
      have hj0 : j = 0 := by
        rw [show (singletonA e).nodes.length = 1 from rfl] at hj
        omega
      rw [hj0]
      exact List.mem_cons_self _ _
  · refine ⟨⟨⟨trivial, trivial, rfl⟩, ⟨trivial, trivial, ?_⟩,
      ⟨trivial, trivial, rfl⟩⟩, rfl, ?_⟩
    · intro hc
      cases hc
    · exact List.sorted_singleton e

theorem IsRepr.nil_inv {α : Type} {s : BST α} {p : Option Nat} {ps : List Nat}
    (h : IsRepr s p Tree.nil ps) : p = none ∧ ps = [] := by
  cases h with
  | nil => exact ⟨rfl, rfl⟩

/-- Every reachable arena state stores a well-formed tree. -/
theorem reachable_abs {α : Type} [LinearOrder α] {s : BST α} (h : Reachable s) :
    ∃ t, Abs s t ∧ GoodT t := by
  induction h with
  | new => exact ⟨Tree.nil, abs_empty rfl rfl rfl, goodT_nil⟩
  | singleton e => exact ⟨_, (abs_singleton e).1, (abs_singleton e).2⟩
  | insert e hs hcall ih =>
    obtain ⟨t, habs, hG⟩ := ih
    obtain ⟨s1x, t1, hcall2, habs1, hG1, -, -, -⟩ := insertA_spec habs hG e
    rw [hcall2] at hcall
    injection hcall with hcall
    subst hcall
    exact ⟨t1, habs1, hG1⟩
  | take_min hs hcall ih =>
    obtain ⟨t, habs, hG⟩ := ih
    cases t with
    | nil =>
      rw [takeMinA_nil habs] at hcall
      injection hcall with hcall
      rw [Prod.mk.injEq] at hcall
      rw [← hcall.2]
      exact ⟨Tree.nil, habs, hG⟩
    | node l a c r =>
      obtain ⟨m, s1x, t1, hcall2, habs1, hG1, -⟩ := takeMinA_spec habs hG
      rw [hcall2] at hcall
      injection hcall with hcall
      rw [Prod.mk.injEq] at hcall
      rw [← hcall.2]
      exact ⟨t1, habs1, hG1⟩
  | clear hs ih =>
    exact ⟨Tree.nil, abs_empty rfl rfl rfl, goodT_nil⟩

theorem insertListA_spec {α : Type} [LinearOrder α] :
    ∀ (es : List α) {s : BST α} {t : Tree α}, Abs s t → GoodT t →
    ∃ s1 t1, insertListA s es = some s1 ∧ Abs s1 t1 ∧ GoodT t1 ∧
      (∀ x, x ∈ inorder t1 ↔ x ∈ inorder t ∨ x ∈ es) := by
  intro es
  induction es with
  | nil =>
    intro s t habs hG
    exact ⟨s, t, rfl, habs, hG, by simp⟩
  | cons e es ih =>
    intro s t habs hG
    obtain ⟨s1, t1, hcall, habs1, hG1, hino1, -, -⟩ := insertA_spec habs hG e
    obtain ⟨s2, t2, hcall2, habs2, hG2, hmem2⟩ := ih habs1 hG1
    refine ⟨s2, t2, ?_, habs2, hG2, ?_⟩
    · rw [insertListA]
      simp only [hcall]
      exact hcall2
    · intro x
      rw [hmem2 x, hino1, mem_linsert]
      simp only [List.mem_cons]
      tauto

theorem drain_spec {α : Type} [LinearOrder α] :
    ∀ (n : Nat) {s : BST α} {t : Tree α}, Abs s t → GoodT t → t.size = n →
    ∃ s2, takeMinsA (n + 1) s = some ((inorder t).map some ++ [none], s2) ∧
      Abs s2 Tree.nil := by
  intro n
  induction n with
  | zero =>
    intro s t habs hG hsz
    have ht : t = Tree.nil := by
      cases t with
      | nil => rfl
      | node l a c r =>
        simp only [size_node] at hsz
        omega
    subst ht
    rw [takeMinsA.eq_def]
    simp only [takeMinA_nil habs]
    exact ⟨s, rfl, habs⟩
  | succ k ih =>
    intro s t habs hG hsz
    cases t with
    | nil => exact Nat.noConfusion hsz
    | node l a c r =>
      obtain ⟨m, s1, t1, hcall, habs1, hG1, hino⟩ := takeMinA_spec habs hG
      rw [takeMinsA.eq_def]
      simp only [hcall]
      have hsz1 : t1.size = k := by
        have h1 := size_eq_length_inorder (Tree.node l a c r)
        have h2 := size_eq_length_inorder t1
        rw [hino, List.length_cons] at h1
        omega
      obtain ⟨s2, hcall2, habs2⟩ := ih habs1 hG1 hsz1
      simp only [hcall2]
      refine ⟨s2, ?_, habs2⟩
      rw [hino]
      rfl

theorem takeMinF_root {α : Type} [LinearOrder α] {l r : Tree α} {a : α}
    {c : Color} (hG : GoodT (Tree.node l a c r)) :
    ∃ m t', takeMinF (Tree.node l a c r).size (Tree.node l a c r)
        = some (m, t') ∧
      inorder (Tree.node l a c r) = m :: inorder t' := by
  obtain ⟨hRB, hblack, hsort⟩ := hG
  have hcB : c = Color.Black := by
    cases c
    · cases hblack
    · rfl
  cases l with
  | nil =>
    have hrnil : r = Tree.nil := nil_of_bh_zero (hRB.2.2.2.2).symm hRB.1.2.2
    subst hrnil
    exact ⟨a, Tree.nil, rfl, rfl⟩
  | node l0 e0 co0 r0 =>
    have hRBl : RBInv (Tree.node l0 e0 co0 r0) :=
      ⟨hRB.1.1, hRB.2.1.1, hRB.2.2.1⟩
    have hRBr : RBInv r := ⟨hRB.1.2.1, hRB.2.1.2.1, hRB.2.2.2.1⟩
    have hrred : r.isRed = false := hRB.1.2.2
    have hcred : c = Color.Red →
        (Tree.node l0 e0 co0 r0).isRed = false ∧ r.isRed = false := by
      intro hc
      rw [hcB] at hc
      cases hc
    have hbh : bh (Tree.node l0 e0 co0 r0) = bh r := hRB.2.2.2.2
    have hlnil : Tree.node l0 e0 co0 r0 = Tree.nil → c = Color.Red :=
      fun h => Tree.noConfusion h
    obtain ⟨m, t', htm, hino, -⟩ :=
      takeMin_aux (Tree.node (Tree.node l0 e0 co0 r0) a c r).size
        (Nat.le_refl _) hRBl hRBr hrred hcred hbh hlnil
    exact ⟨m, t', htm, hino⟩

/-- Claim C1: after every finite sequence of public operations the stored
tree satisfies the red-black invariants: strictly ascending inorder
traversal, no red node with a red right child, no red node with any red
child (hence no two consecutive red links on any path), equal black
height on every root-to-leaf path, and a black root. -/
theorem llrb_c1 {α : Type} [LinearOrder α] {s : BST α} (h : Reachable s) :
    ∃ t ps, IsRepr s s.root t ps ∧ List.Sorted (· < ·) (inorder t) ∧
      noRedRedRight t ∧ ndr t ∧ bal t ∧ t.isRed = false := by
  obtain ⟨t, ⟨ps, hrep, -, -, -⟩, hG⟩ := reachable_abs h
  exact ⟨t, ps, hrep, hG.2.2, leanL_noRRR hG.1.1, hG.1.2.1, hG.1.2.2, hG.2.1⟩

theorem llrb_c1_witness : Reachable (singletonA (0 : Int)) ∧
    ∃ t ps, IsRepr (singletonA (0 : Int)) (singletonA (0 : Int)).root t ps ∧
      List.Sorted (· < ·) (inorder t) ∧ noRedRedRight t ∧ ndr t ∧ bal t ∧
      t.isRed = false :=
  ⟨Reachable.singleton 0, llrb_c1 (Reachable.singleton 0)⟩

/-- Claim C2: after any finite sequence of insertions into a tree created
by new, member answers exactly the membership in the inserted list;
inserting an element twice does not change any answer. -/
theorem llrb_c2 {α : Type} [LinearOrder α] (es : List α) (x : α) :
    ∃ s1, insertListA (newA α) es = some s1 ∧
      memberA s1 x = some (decide (x ∈ es)) := by
  obtain ⟨s1, t1, hcall, habs1, hG1, hmem⟩ :=
    insertListA_spec es (abs_empty rfl rfl rfl : Abs (newA α) Tree.nil) goodT_nil
  refine ⟨s1, hcall, ?_⟩
  rw [memberA_spec habs1 x]
  have hiff : memberT t1 x = true ↔ x ∈ es := by
    rw [memberT_iff_mem x hG1.2.2, hmem x]
    simp [inorder]
  by_cases hx : x ∈ es
  · rw [hiff.mpr hx, decide_eq_true hx]
  · have hf : memberT t1 x = false := by
      cases hmt : memberT t1 x
      · rfl
      · exact absurd (hiff.mp hmt) hx
    rw [hf, decide_eq_false hx]

/-- Claim C3: after inserting k distinct elements into a new tree, k
calls to take_min return exactly those elements in strictly increasing
order, the next call returns the empty indicator, and then the length is
0 and the tree is empty. -/
theorem llrb_c3 {α : Type} [LinearOrder α] (es : List α) (hnd : es.Nodup) :
    ∃ s1 s2 L, insertListA (newA α) es = some s1 ∧
      takeMinsA (es.length + 1) s1 = some (L.map some ++ [none], s2) ∧
      List.Sorted (· < ·) L ∧ (∀ x, x ∈ L ↔ x ∈ es) ∧ L.length = es.length ∧
      lenA s2 = 0 ∧ isEmptyA s2 = true := by
  obtain ⟨s1, t1, hcall, habs1, hG1, hmem⟩ :=
    insertListA_spec es (abs_empty rfl rfl rfl : Abs (newA α) Tree.nil) goodT_nil
  have hmem1 : ∀ x, x ∈ inorder t1 ↔ x ∈ es := by
    intro x
    rw [hmem x]
    simp [inorder]
  have hlen : (inorder t1).length = es.length :=
    ((List.perm_ext_iff_of_nodup hG1.2.2.nodup hnd).mpr hmem1).length_eq
  have hsize : t1.size = es.length := by
    rw [size_eq_length_inorder]
    exact hlen
  obtain ⟨s2, hcall2, habs2⟩ := drain_spec es.length habs1 hG1 hsize
  refine ⟨s1, s2, inorder t1, hcall, hcall2, hG1.2.2, hmem1, hlen, ?_, ?_⟩
  · rw [habs2.len]
    rfl
  · obtain ⟨ps2, hrep2, -, -, -⟩ := habs2
    rw [isEmptyA, hrep2.nil_inv.1]
    rfl

theorem llrb_c3_witness : (([2, 1] : List Int)).Nodup ∧
    ∃ s1 s2 L, insertListA (newA Int) [2, 1] = some s1 ∧
      takeMinsA (([2, 1] : List Int).length + 1) s1
        = some (L.map some ++ [none], s2) ∧
      List.Sorted (· < ·) L ∧ (∀ x, x ∈ L ↔ x ∈ ([2, 1] : List Int)) ∧
      L.length = ([2, 1] : List Int).length ∧
      lenA s2 = 0 ∧ isEmptyA s2 = true :=
  ⟨by decide, llrb_c3 [2, 1] (by decide)⟩

/-- Claim C4: no fatal internal check is reachable through the public
API: on every reachable state, member, insert and take_min all produce a
result, so every dereference, rotation child lookup and color-flip child
lookup inside them succeeds. -/
theorem llrb_c4 {α : Type} [LinearOrder α] {s : BST α} (h : Reachable s)
    (e : α) :
    (∃ b, memberA s e = some b) ∧ (∃ s1, insertA s e = some s1) ∧
      (∃ out, takeMinA s = some out) := by
  obtain ⟨t, habs, hG⟩ := reachable_abs h
  refine ⟨⟨memberT t e, memberA_spec habs e⟩, ?_, ?_⟩
  · obtain ⟨s1, t1, hcall, -⟩ := insertA_spec habs hG e
    exact ⟨s1, hcall⟩
  · cases t with
    | nil => exact ⟨(none, s), takeMinA_nil habs⟩
    | node l a c r =>
      obtain ⟨m, s1, t1, hcall, -⟩ := takeMinA_spec habs hG
      exact ⟨(some m, s1), hcall⟩

theorem llrb_c4_witness : Reachable (singletonA (0 : Int)) ∧
    ((∃ b, memberA (singletonA (0 : Int)) 5 = some b) ∧
      (∃ s1, insertA (singletonA (0 : Int)) 5 = some s1) ∧
      (∃ out, takeMinA (singletonA (0 : Int)) = some out)) :=
  ⟨Reachable.singleton 0, llrb_c4 (Reachable.singleton 0) 5⟩

/-- Claim C5: the recursive descents terminate on every reachable state:
any fuel larger than the arena size lets member_impl, insert_impl and
take_min_impl complete with a result, so the recursion depth is bounded
by the finite acyclic handle graph. -/
theorem llrb_c5 {α : Type} [LinearOrder α] {s : BST α} (h : Reachable s) :
    ∀ (e : α) (fuel : Nat), s.nodes.length < fuel →
      (memberImplA fuel s s.root e).isSome = true ∧
      (insertImplA fuel s s.root e).isSome = true ∧
      (∀ i, s.root = some i → (takeMinImplA fuel s i).isSome = true) := by
  obtain ⟨t, habs, hG⟩ := reachable_abs h
  obtain ⟨ps, hrep, hnd, hfree, hcover⟩ := habs
  intro e fuel hfuel
  have hsz : t.size < fuel := lt_of_le_of_lt hrep.size_le hfuel
  refine ⟨?_, ?_, ?_⟩
  · rw [memberImplA_spec hrep e fuel hsz]
    rfl
  · obtain ⟨t1, hins, -⟩ := ins_aux e hG.1
    obtain ⟨nr, s1, ps1, hcall, -⟩ :=
      insertImplA_spec e hrep hfree t1 fuel hins hsz
    rw [hcall]
    rfl
  · intro i hroot
    rw [hroot] at hrep
    obtain ⟨l, a, c, r, rfl⟩ := hrep.node_shape
    obtain ⟨m, t', htm, hino⟩ := takeMinF_root hG
    obtain ⟨s1, nl, ps1, d, hcall, -⟩ :=
      takeMinImplA_spec _ hrep htm hino fuel hsz
    rw [hcall]
    rfl

theorem llrb_c5_witness : Reachable (singletonA (0 : Int)) ∧
    (singletonA (0 : Int)).nodes.length < 2 ∧
    ((memberImplA 2 (singletonA (0 : Int)) (singletonA (0 : Int)).root 3).isSome
        = true ∧
      (insertImplA 2 (singletonA (0 : Int)) (singletonA (0 : Int)).root 3).isSome
        = true ∧
      (∀ i, (singletonA (0 : Int)).root = some i →
        (takeMinImplA 2 (singletonA (0 : Int)) i).isSome = true)) :=
  ⟨Reachable.singleton 0, by decide,
    llrb_c5 (Reachable.singleton 0) 3 2 (by decide)⟩

/-- Claim C6: take_min on an empty reachable tree returns the empty
indicator and leaves the state literally unchanged. -/
theorem llrb_c6 {α : Type} [LinearOrder α] {s : BST α} (h : Reachable s)
    (hempty : isEmptyA s = true) : takeMinA s = some (none, s) := by
  obtain ⟨t, habs, hG⟩ := reachable_abs h
  have hroot : s.root = none := Option.isNone_iff_eq_none.mp hempty
  have ht : t = Tree.nil := by
    obtain ⟨ps, hrep, -⟩ := habs
    rw [hroot] at hrep
    exact hrep.none_inv.1
  rw [ht] at habs
  exact takeMinA_nil habs

theorem llrb_c6_witness : Reachable (newA Int) ∧ isEmptyA (newA Int) = true ∧
    takeMinA (newA Int) = some (none, newA Int) :=
  ⟨Reachable.new, rfl, llrb_c6 Reachable.new rfl⟩

/-- Claim C7: inserting an element already present overwrites in place:
the arena keeps the same number of slots, the free list is unchanged, and
the length is unchanged. -/
theorem llrb_c7 {α : Type} [LinearOrder α] {s : BST α} (h : Reachable s)
    (e : α) (hmem : memberA s e = some true) :
    ∃ s1, insertA s e = some s1 ∧ s1.nodes.length = s.nodes.length ∧
      s1.deleted_indices = s.deleted_indices ∧ lenA s1 = lenA s := by
  obtain ⟨t, habs, hG⟩ := reachable_abs h
  have hmt : memberT t e = true := by
    rw [memberA_spec habs e] at hmem
    injection hmem with hmem
  obtain ⟨s1, t1, hcall, -, -, -, -, hdup⟩ := insertA_spec habs hG e
  obtain ⟨hlen, hdel⟩ := hdup hmt
  exact ⟨s1, hcall, hlen, hdel, by rw [lenA, lenA, hlen, hdel]⟩

theorem llrb_c7_witness : Reachable (singletonA (0 : Int)) ∧
    memberA (singletonA (0 : Int)) 0 = some true ∧
    ∃ s1, insertA (singletonA (0 : Int)) 0 = some s1 ∧
      s1.nodes.length = (singletonA (0 : Int)).nodes.length ∧
      s1.deleted_indices = (singletonA (0 : Int)).deleted_indices ∧
      lenA s1 = lenA (singletonA (0 : Int)) :=
  ⟨Reachable.singleton 0, by decide,
    llrb_c7 (Reachable.singleton 0) 0 (by decide)⟩

/-- Claim C8: on every reachable state, len (total slots minus free-list
length) equals the footprint size of the tree reachable from the root,
which equals the number of distinct elements for which member answers
true. -/
theorem llrb_c8 {α : Type} [LinearOrder α] {s : BST α} (h : Reachable s) :
    ∃ t ps, IsRepr s s.root t ps ∧
      lenA s = s.nodes.length - s.deleted_indices.length ∧
      lenA s = ps.length ∧ lenA s = (inorder t).length ∧
      List.Sorted (· < ·) (inorder t) ∧
      (∀ x, memberA s x = some true ↔ x ∈ inorder t) := by
  obtain ⟨t, habs, hG⟩ := reachable_abs h
  have hlenA := habs.len
  obtain ⟨ps, hrep, hnd, hfree, hcover⟩ := habs
  refine ⟨t, ps, hrep, rfl, ?_, ?_, hG.2.2, ?_⟩
  · rw [hlenA, ← hrep.length_eq]
  · rw [hlenA, size_eq_length_inorder]
  · intro x
    rw [memberA_spec ⟨ps, hrep, hnd, hfree, hcover⟩ x]
    constructor
    · intro hx
      injection hx with hx
      exact (memberT_iff_mem x hG.2.2).mp hx
    · intro hx
      rw [(memberT_iff_mem x hG.2.2).mpr hx]

theorem llrb_c8_witness : Reachable (singletonA (0 : Int)) ∧
    ∃ t ps, IsRepr (singletonA (0 : Int)) (singletonA (0 : Int)).root t ps ∧
      lenA (singletonA (0 : Int)) = (singletonA (0 : Int)).nodes.length
        - (singletonA (0 : Int)).deleted_indices.length ∧
      lenA (singletonA (0 : Int)) = ps.length ∧
      lenA (singletonA (0 : Int)) = (inorder t).length ∧
      List.Sorted (· < ·) (inorder t) ∧
      (∀ x, memberA (singletonA (0 : Int)) x = some true ↔ x ∈ inorder t) :=
  ⟨Reachable.singleton 0, llrb_c8 (Reachable.singleton 0)⟩

/-- Claim C9: on every non-empty reachable state a single take_min
returns the minimum element, decreases len by one, makes member of the
removed element false, and preserves membership of every other
element. -/
theorem llrb_c9 {α : Type} [LinearOrder α] {s : BST α} (h : Reachable s)
    (hne : isEmptyA s = false) :
    ∃ m s1, takeMinA s = some (some m, s1) ∧
      lenA s1 + 1 = lenA s ∧ memberA s1 m = some false ∧
      (∀ x, memberA s x = some true ↔ (x = m ∨ memberA s1 x = some true)) ∧
      (∀ x, memberA s x = some true → m ≤ x) := by
  obtain ⟨t, habs, hG⟩ := reachable_abs h
  cases t with
  | nil =>
    obtain ⟨ps, hrep, -, -, -⟩ := habs
    rw [isEmptyA, hrep.nil_inv.1] at hne
    cases hne
  | node l a c r =>
    have hlenAs := habs.len
    have hsort := hG.2.2
    obtain ⟨m, s1, t1, hcall, habs1, hG1, hino⟩ := takeMinA_spec habs hG
    have hsort' : List.Sorted (· < ·) (m :: inorder t1) := hino ▸ hsort
    have hlt := (List.sorted_cons.mp hsort').1
    refine ⟨m, s1, hcall, ?_, ?_, ?_, ?_⟩
    · rw [habs1.len, hlenAs, size_eq_length_inorder, size_eq_length_inorder,
        hino, List.length_cons]
    · rw [memberA_spec habs1 m]
      have hmf : memberT t1 m = false := by
        cases hmt : memberT t1 m
        · rfl
        · have hmm := (memberT_iff_mem m hG1.2.2).mp hmt
          exact absurd (hlt m hmm) (lt_irrefl m)
      rw [hmf]
    · intro x
      rw [memberA_spec habs x, memberA_spec habs1 x]
      constructor
      · intro hx
        injection hx with hx
        have hx2 := (memberT_iff_mem x hsort).mp hx
        rw [hino] at hx2
        rcases List.mem_cons.mp hx2 with he | hx3
        · exact Or.inl he
        · right
          rw [(memberT_iff_mem x hG1.2.2).mpr hx3]
      · intro hx
        rcases hx with rfl | hx
        · rw [(memberT_iff_mem x hsort).mpr
            (by rw [hino]; exact List.mem_cons_self _ _)]
        · injection hx with hx
          have hx2 := (memberT_iff_mem x hG1.2.2).mp hx
          rw [(memberT_iff_mem x hsort).mpr
            (by rw [hino]; exact List.mem_cons_of_mem _ hx2)]
    · intro x hx
      rw [memberA_spec habs x] at hx
      injection hx with hx
      have hx2 := (memberT_iff_mem x hsort).mp hx
      rw [hino] at hx2
      rcases List.mem_cons.mp hx2 with he | hx3
      · exact le_of_eq he.symm
      · exact le_of_lt (hlt x hx3)

theorem llrb_c9_witness : Reachable (singletonA (0 : Int)) ∧
    isEmptyA (singletonA (0 : Int)) = false ∧
    ∃ m s1, takeMinA (singletonA (0 : Int)) = some (some m, s1) ∧
      lenA s1 + 1 = lenA (singletonA (0 : Int)) ∧
      memberA s1 m = some false ∧
      (∀ x, memberA (singletonA (0 : Int)) x = some true ↔
        (x = m ∨ memberA s1 x = some true)) ∧
      (∀ x, memberA (singletonA (0 : Int)) x = some true → m ≤ x) :=
  ⟨Reachable.singleton 0, rfl, llrb_c9 (Reachable.singleton 0) rfl⟩

/-- Claim C10: singleton e is exactly the state produced by new followed
by insert e: one black root node holding e at arena index 0 and an empty
free list, so the two trees are indistinguishable afterwards. -/
theorem llrb_c10 {α : Type} [LinearOrder α] (e : α) :
    insertA (newA α) e = some (singletonA e) := rfl

end LLRB
